import Mathlib

/-!
# noah-extender: the block-height loop, chasing mode and create-coin extraction

A shallow embedding of `internal/core/main.go` and `internal/coin/service.go`.

* `uint64` values are natural numbers below `2^64`; subtraction and increment wrap.
* A Go function that talks to the node or the store becomes a function into `Call`,
  which carries the list of external effects performed so far and the way the call ended
  (a value, a returned Go `error`, or a panic).
* The answers of the node and of the store are fields of `World`.
* Calls of the logger are not part of the model.
-/

/-! ## Results of Go calls -/

/-- How a Go call ends: with a value, with a non-nil `error`, or in a panic. -/
inductive Outcome (α : Type) where
  | ok (a : α)
  | err (e : String)
  | panic
  deriving Repr, DecidableEq

/-- `strconv.ParseUint(s, 10, 64)`: a non-empty string of ASCII digits whose value fits in 64 bits;
    everything else (empty string, sign, other characters, value out of range) is an error. -/
def parseUint (s : String) : Option Nat :=
  match s.data with
  | [] => none
  | cs =>
    if cs.all Char.isDigit then
      let n := cs.foldl (fun a c => 10 * a + (c.toNat - 48)) 0
      if n < 2 ^ 64 then some n else none
    else none

/-- Subtraction of two `uint64` values, as Go computes `a - b`. -/
def subU64 (a b : Nat) : Nat := (a % 2 ^ 64 + 2 ^ 64 - b % 2 ^ 64) % 2 ^ 64

/-- Increment of a `uint64`, as Go computes `h++`. -/
def incU64 (h : Nat) : Nat := (h + 1) % 2 ^ 64

/-- The value of a non-empty string of ASCII digits, read in base ten; nothing for any other
    string. -/
def decimalValue (s : String) : Option Nat :=
  match s.data with
  | [] => none
  | cs =>
    if cs.all Char.isDigit then some (cs.foldl (fun a c => 10 * a + (c.toNat - 48)) 0)
    else none

/-! ## Rounded arithmetic (`float64`, `big.Float`)

A finite binary floating-point number is the rational it denotes. An operation gives the
exact result rounded to the precision of the format, to nearest with ties to even, which is
the rounding of `float64` and the default mode `ToNearestEven` of `big.Float`. The exponent
is not bounded: the operands below are quotients and products of numbers under `2^64`
(`float64`, whose exponents reach from `-1022` to `1023`) or of decimal strings (`big.Float`,
whose exponent is a 32-bit integer), far from both ends of the range. -/

/-- The nearest integer, a tie going to the even one. -/
def roundHalfEven (x : ℚ) : ℤ :=
  let f := ⌊x⌋
  if x - f < 1 / 2 then f
  else if 1 / 2 < x - f then f + 1
  else if f % 2 = 0 then f
  else f + 1

/-- A positive rational rounded to `prec` significant bits: with `2^k ≤ x < 2^(k+1)` the unit
    in the last place is `2^(k - (prec - 1))`, and `x` goes to the nearest multiple of it. -/
def roundPos (prec : Nat) (x : ℚ) : ℚ :=
  let e : ℤ := Int.log 2 x - ((prec : ℤ) - 1)
  (roundHalfEven (x / (2 : ℚ) ^ e) : ℚ) * (2 : ℚ) ^ e

/-- A rational rounded to `prec` significant bits, to nearest, ties to even. -/
def roundToPrec (prec : Nat) (x : ℚ) : ℚ :=
  if x = 0 then 0
  else if x < 0 then -roundPos prec (-x)
  else roundPos prec x

/-- The `float64` nearest to a rational: 53 significant bits. -/
def float64 (x : ℚ) : ℚ := roundToPrec 53 x

/-- `(*big.Float).Uint64()` on a finite value: the value truncated towards zero, `0` for a
    negative value and `math.MaxUint64` for a value above it. -/
def toUint64 (x : ℚ) : Nat :=
  if x < 0 then 0
  else if (2 : ℚ) ^ 64 ≤ x then 2 ^ 64 - 1
  else ⌊x⌋.toNat

/-! ## Helpers of `internal/utils` -/

namespace utils

/-- Modelled from the spec: `utils.ConvertStringToBigInt` is no part of the sources at hand.
    The spec has stake values be "arbitrary-precision decimal strings" that are summed per
    coin, so the helper reads a decimal string as the integer it spells; for a string that is
    no string of digits the `*big.Int` is taken to be nil. -/
def ConvertStringToBigInt (s : String) : Option Nat := decimalValue s

/-- Modelled from the spec: `utils.NewFloat(0, prec).SetString(s)`, the helper `NewFloat` being
    no part of the sources at hand. The spec computes coin figures "in arbitrary precision" and
    to "precision-100": a `big.Float` of `prec` bits with the default rounding mode, set to the
    value of the decimal string. The strings read here are coin volumes and stake sums, strings
    of digits; for a string that `SetString` cannot read the `*big.Float` is nil, and the other
    shapes `SetString` reads (sign, fraction, exponent) are left out of the model. -/
def NewFloatSetString (prec : Nat) (s : String) : Option ℚ :=
  match decimalValue s with
  | some n => some (roundToPrec prec (n : ℚ))
  | none => none

/-- Modelled from the spec: `utils.Min` is no part of the sources at hand; the spec has
    `delegation_percent = min(100, ...)`, the smaller of two `uint64` values. -/
def Min (a b : Nat) : Nat := if a < b then a else b

end utils

/-! ## Data of the node API and of the store (`responses`, `models`) -/

namespace responses

/-- Typed payload of a create-coin transaction (`CreateCoinTxData`). -/
structure CreateCoinTxData where
  Name : String
  Symbol : String
  InitialAmount : String
  InitialReserve : String
  ConstantReserveRatio : String
  deriving Repr, DecidableEq

/-- The dynamic value held by `Transaction.IData` (an `interface{}` in Go). -/
inductive IData where
  | createCoin (d : CreateCoinTxData)
  | other
  deriving Repr, DecidableEq

/-- A transaction of a block response. `Log` and `Data` are nil-able in Go; `Type_` is the Go field `Type`. -/
structure Transaction where
  Hash : String
  Type_ : Nat
  Log : Option String
  Data : Option String
  IData : IData
  deriving Repr, DecidableEq

/-- A validator entry of a block response; `Signed` is a `*bool`. -/
structure BlockValidator where
  PubKey : String
  Signed : Option Bool
  deriving Repr, DecidableEq

/-- The `Result` part of a block response. -/
structure BlockResult where
  Height : String
  Time : String
  TxCount : String
  Transactions : List Transaction
  Validators : List BlockValidator
  deriving Repr, DecidableEq

/-- Answer of `GetBlock`: `Error` is the structured error of the node, nil on success. -/
structure BlockResponse where
  Error : Option String
  Result : BlockResult
  deriving Repr, DecidableEq

/-- Answer of `GetBlockEvents`; only the list of events is looked at by the orchestrator. -/
structure EventsResponse where
  Events : List String
  deriving Repr, DecidableEq

/-- Answer of `GetStatus`. -/
structure StatusResponse where
  LatestBlockHeight : String
  deriving Repr, DecidableEq

/-- The `Result` part of a coin info response. -/
structure CoinInfoResult where
  Name : String
  Symbol : String
  Volume : String
  Crr : String
  ReserveBalance : String
  deriving Repr, DecidableEq

/-- Answer of `GetCoinInfo`: `Error` is the message of the structured error, nil on success. -/
structure CoinInfoResponse where
  Error : Option String
  Result : CoinInfoResult
  deriving Repr, DecidableEq

/-- A stake of a candidate, as the node reports it. -/
structure Stake where
  Owner : String
  Coin : String
  Value : String
  NoahValue : String
  deriving Repr, DecidableEq

/-- A candidate of a candidates response. -/
structure Candidate where
  PubKey : String
  RewardAddress : String
  OwnerAddress : String
  Stakes : List Stake
  deriving Repr, DecidableEq

/-- Answer of `GetCandidates`. -/
structure CandidatesResponse where
  Error : Option String
  Result : List Candidate
  deriving Repr, DecidableEq

end responses

namespace models

/-- Transaction type code of create-coin transactions (`models.TxTypeCreateCoin`). -/
def TxTypeCreateCoin : Nat := 5

/-- A coin row as built by the coin service. `ID` is assigned by the store and is the zero value
    in a coin built from a transaction; the time stamps of the row are left out. -/
structure Coin where
  Crr : Nat
  Volume : String
  ReserveBalance : String
  Name : String
  Symbol : String
  Price : String
  Capitalization : String
  StartVolume : String
  StartReserveBalance : String
  StartPrice : String
  ID : Nat := 0
  deriving Repr, DecidableEq

/-- A block-validator link row. -/
structure BlockValidator where
  ValidatorID : Nat
  BlockID : Nat
  Signed : Bool
  deriving Repr, DecidableEq

/-- A validator row. Built from a block or candidates response it has only the public key set;
    read from the store it has its id and creation time. -/
structure Validator where
  PublicKey : String
  ID : Nat := 0
  CreatedAt : String := ""
  deriving Repr, DecidableEq

/-- Transaction type codes of the coin exchange transactions (`models.TxTypeSellCoin`,
    `models.TxTypeSellAllCoin`, `models.TxTypeBuyCoin`). -/
def TxTypeSellCoin : Nat := 2

def TxTypeSellAllCoin : Nat := 3

def TxTypeBuyCoin : Nat := 4

/-- The dynamic value held by `IData` of a stored transaction: the typed data of a sell, buy or
    sell-all transaction with its two coin symbols, or any other value. -/
inductive TxData where
  | sellCoin (CoinToBuy CoinToSell : String)
  | buyCoin (CoinToBuy CoinToSell : String)
  | sellAllCoin (CoinToBuy CoinToSell : String)
  | other
  deriving Repr, DecidableEq

/-- A stored transaction: the fields read by the workers. `Data` is the raw JSON of the typed
    data. -/
structure Transaction where
  ID : Nat
  FromAddressID : Nat
  GasCoinID : Nat
  Type_ : Nat
  Data : String
  IData : TxData
  deriving Repr, DecidableEq

/-- A stake row. -/
structure Stake where
  ID : Nat := 0
  ValidatorID : Nat
  OwnerAddressID : Nat
  CoinID : Nat
  Value : String
  NoahValue : String
  deriving Repr, DecidableEq

/-- A balance row. -/
structure Balance where
  AddressID : Nat
  CoinID : Nat
  Value : String
  deriving Repr, DecidableEq

/-- The fields of `ExtenderEnvironment` read by the code below. `TxChunkSize` is a Go `int`, of
    which the non-negative values are modelled; `RewardAggregateEveryBlocksCount` is the value
    after its conversion to `uint64`. -/
structure ExtenderEnvironment where
  BaseCoin : String
  TxChunkSize : Nat
  RewardAggregateEveryBlocksCount : Nat
  RewardAggregateTimeInterval : String
  StakeChunkSize : Nat
  deriving Repr, DecidableEq

end models

/-! ## External effects -/

/-- A balance resource of the explorer API: the result of `Transform` on a balance with its
    address and coin symbol filled in. -/
structure Resource where
  Balance : models.Balance
  Address : String
  Symbol : String
  deriving Repr, DecidableEq

/-- One call that leaves a worker or a background loop. -/
inductive WorkerEvent where
  | findSymbolById (id : Nat)
  | sendCoinsMap (symbols : List String)
  | getCoinInfo (symbol : String)
  | findIdBySymbol (symbol : String)
  | saveCoins (coins : List models.Coin)
  | selectCoinsWithBrokenMeta
  | selectCoinsTransaction
  | updateCoinMetaInfo (symbol : String) (trxId ownerAddrId : Nat)
  | getActiveValidators
  | resetAllUptimes
  | getFullSignedCount (id : Nat) (createdAt : String)
  | getCountBlockFromDate (createdAt : String)
  | updateValidatorUptime (id : Nat) (uptime : ℚ)
  | findAddressById (id : Nat)
  | publish (channel : String) (msg : String)
  | getCandidates (height : Nat) (stakes : Bool)
  | saveAddresses (addresses : List String)
  | findIdByPkOrCreate (pk : String)
  | findAddressIdOrCreate (address : String)
  | saveAllStakes (stakes : List models.Stake)
  | deleteStakesNotInListIds (ids : List Nat)
  | goCoinDelegation (coinID : Nat) (stake : String)
  | findCoinByID (id : Nat)
  | updateCoinDelegation (coinID : Nat) (percent : Nat)
  | resetCoinDelegationNotInListIds (ids : List Nat)
  | goCountDelegators (validatorID : Nat)
  deriving Repr, DecidableEq

/-- One call that leaves the orchestrator: to the node, the store, a job channel, or the start of
    a goroutine (`go...`). The order of a trace is program order of the calling goroutine. -/
inductive Event where
  | getStatus
  | getBlock (height : Nat)
  | sleep2s
  | getBlockEvents (height : Nat)
  | handleAddresses (block : responses.BlockResponse) (events : responses.EventsResponse)
  | saveValidators (validators : List models.Validator)
  | saveBlock (block : responses.BlockResponse)
  | findIdByPk (pk : String)
  | linkWithValidators (links : List models.BlockValidator)
  | saveTransactions (height : Nat) (time : String) (txs : List responses.Transaction)
  | updateStakesJob (height : Nat)
  | updateValidatorsJob (height : Nat)
  | goKvSet (symbol hash : String)
  | goCoinMessage (coin : models.Coin)
  | createNewCoins (coins : List models.Coin)
  | goAggregateRewards (interval : String) (height : Nat)
  | goHandleEventResponse (height : Nat) (events : responses.EventsResponse)
  | worker (e : WorkerEvent)
  deriving Repr, DecidableEq

/-- Answers of everything outside the embedded code: the node API, the repositories and services
    whose code is elsewhere, and the helper functions of other packages. -/
structure World where
  /-- `nodeApi.GetStatus()`, for the k-th status request of the running call. -/
  GetStatus : Nat → Except String responses.StatusResponse
  /-- `nodeApi.GetBlock(height)`. -/
  GetBlock : Nat → Except String responses.BlockResponse
  /-- `nodeApi.GetBlockEvents(height)`. -/
  GetBlockEvents : Nat → Except String responses.EventsResponse
  /-- `addressService.HandleResponses`: the returned error, if any. -/
  HandleResponses : responses.BlockResponse → responses.EventsResponse → Option String
  /-- `validator.Repository.SaveAllIfNotExist`. -/
  SaveValidators : List models.Validator → Option String
  /-- `blockService.HandleBlockResponse`. -/
  SaveBlock : responses.BlockResponse → Option String
  /-- `validatorRepository.FindIdByPk`. -/
  FindIdByPk : String → Except String Nat
  /-- `blockRepository.LinkWithValidators`. -/
  LinkWithValidators : List models.BlockValidator → Option String
  /-- `transactionService.HandleTransactionsFromBlockResponse`. -/
  HandleTransactionsFromBlockResponse : Nat → String → List responses.Transaction → Option String
  /-- `coin.Repository.SaveAllIfNotExist`. -/
  SaveCoins : List models.Coin → Option String
  /-- `helpers.RemovePrefix`. -/
  RemovePrefix : String → String
  /-- `coin.GetTokenPrice(volume, reserve, crr)`. -/
  GetTokenPrice : String → String → Nat → String
  /-- `coin.GetCapitalization(volume, price)`. -/
  GetCapitalization : String → String → String

/-! ## Calls with a trace -/

/-- A finished call: the external effects it performed, in order, and how it ended. -/
structure Call (α : Type) where
  trace : List Event
  res : Outcome α

namespace Call

/-- Return a value without any effect. -/
def ret {α : Type} (a : α) : Call α := ⟨[], .ok a⟩

/-- Sequencing: the second call runs only when the first one returned a value. -/
def andThen {α β : Type} (x : Call α) (f : α → Call β) : Call β :=
  match x.res with
  | .ok a => ⟨x.trace ++ (f a).trace, (f a).res⟩
  | .err e => ⟨x.trace, .err e⟩
  | .panic => ⟨x.trace, .panic⟩

instance : Monad Call where
  pure := ret
  bind := andThen

/-- Perform one external effect. -/
def emit (e : Event) : Call Unit := ⟨[e], .ok ()⟩

/-- Go `return ..., err` with a non-nil error. -/
def fail {α : Type} (e : String) : Call α := ⟨[], .err e⟩

/-- A runtime panic. -/
def abort {α : Type} : Call α := ⟨[], .panic⟩

/-- An external call returning `(value, error)`. -/
def call {α : Type} (e : Event) (answer : Except String α) : Call α :=
  match answer with
  | .ok a => ⟨[e], .ok a⟩
  | .error m => ⟨[e], .err m⟩

/-- An external call returning only an `error`. -/
def exec (e : Event) (answer : Option String) : Call Unit :=
  match answer with
  | none => ⟨[e], .ok ()⟩
  | some m => ⟨[e], .err m⟩

end Call

/-- `helpers.HandleError(err)` applied to the error of a call: a non-nil error panics,
    a nil error lets the caller go on with the value. -/
def HandleError {α : Type} (x : Call α) : Call α :=
  match x.res with
  | .err _ => ⟨x.trace, .panic⟩
  | _ => x

/-! ## `internal/core`: the orchestrator -/

namespace core

/-- Gap between node tip and local height above which the indexer is chasing. -/
def ChasingModDiff : Nat := 2

/-- The mutable scheduler state of `Extender`. -/
structure Extender where
  chasingMode : Bool
  currentNodeHeight : Nat
  deriving Repr, DecidableEq

/-- The state built by `NewExtender`. -/
def NewExtender : Extender := { chasingMode := true, currentNodeHeight := 0 }

/-- `getNodeLastBlockId`: the k-th status request of the running call, parsed. -/
def getNodeLastBlockId (w : World) (k : Nat) : Call Nat := do
  let statusResponse ← Call.call .getStatus (w.GetStatus k)
  match parseUint statusResponse.LatestBlockHeight with
  | some n => pure n
  | none => Call.fail "strconv.ParseUint: parsing error"

/-- `findOutChasingMode(height)`; `polled` is the number of status requests made by the first
    `if`, so that the second request gets the next answer of the node. -/
def findOutChasingMode (w : World) (ext : Extender) (height : Nat) : Call Extender := do
  let polled := if ext.currentNodeHeight = 0 then 1 else 0
  let ext1 ←
    if ext.currentNodeHeight = 0 then do
      let tip ← HandleError (getNodeLastBlockId w 0)
      pure { ext with currentNodeHeight := tip }
    else pure ext
  let isChasingMode := decide (subU64 ext1.currentNodeHeight height > ChasingModDiff)
  if ext1.chasingMode && !isChasingMode then do
    let tip ← HandleError (getNodeLastBlockId w polled)
    pure { currentNodeHeight := tip, chasingMode := decide (subU64 tip height > ChasingModDiff) }
  else pure ext1

end core

/-! ## `internal/coin`: create-coin extraction -/

namespace coin

/-- `AppendIfMissing(slice, c)`: the slice itself when an element with the symbol of `c` is in
    it, else the slice with `c` appended. -/
def AppendIfMissing (slice : List models.Coin) (c : models.Coin) : List models.Coin :=
  if slice.any (fun ele => decide (ele.Symbol = c.Symbol)) then slice else slice ++ [c]

/-- `ExtractFromTx(tx)`. The type assertion `tx.IData.(CreateCoinTxData)` panics on a value of
    another type. For a coin other than the base coin two goroutines are started: the write of
    symbol and transaction hash into the key-value table, and the coin message on the bus. -/
def ExtractFromTx (env : models.ExtenderEnvironment) (w : World) (tx : responses.Transaction) :
    Call models.Coin :=
  if tx.Data = none then Call.fail "no data for creating a coin"
  else
    match tx.Log with
    | some log => Call.fail log
    | none =>
      match tx.IData with
      | .createCoin txData =>
        match parseUint txData.ConstantReserveRatio with
        | none => Call.fail "strconv.ParseUint: parsing error"
        | some crr =>
          let price := w.GetTokenPrice txData.InitialAmount txData.InitialReserve crr
          let coin : models.Coin :=
            { Crr := crr
              Volume := txData.InitialAmount
              ReserveBalance := txData.InitialReserve
              Name := txData.Name
              Symbol := txData.Symbol
              Price := price
              Capitalization := w.GetCapitalization txData.InitialAmount price
              StartVolume := txData.InitialAmount
              StartReserveBalance := txData.InitialReserve
              StartPrice := price }
          if coin.Symbol ≠ env.BaseCoin then do
            Call.emit (.goKvSet coin.Symbol (w.RemovePrefix tx.Hash))
            Call.emit (.goCoinMessage coin)
            pure coin
          else pure coin
      | .other => Call.abort

/-- The loop of `ExtractCoinsFromTransactions` over the remaining transactions, `coins` being
    the slice built so far. An error of `ExtractFromTx` is returned at once, with no coins. -/
def extractLoop (env : models.ExtenderEnvironment) (w : World) :
    List responses.Transaction → List models.Coin → Call (List models.Coin)
  | [], coins => pure coins
  | tx :: rest, coins =>
    if tx.Type_ ≠ models.TxTypeCreateCoin then extractLoop env w rest coins
    else if tx.Log ≠ none then extractLoop env w rest coins
    else do
      let coin ← ExtractFromTx env w tx
      extractLoop env w rest (AppendIfMissing coins coin)

/-- `ExtractCoinsFromTransactions(transactions)`. -/
def ExtractCoinsFromTransactions (env : models.ExtenderEnvironment) (w : World)
    (transactions : List responses.Transaction) : Call (List models.Coin) :=
  extractLoop env w transactions []

/-- `CreateNewCoins(coins)`. -/
def CreateNewCoins (w : World) (coins : List models.Coin) : Call Unit :=
  Call.exec (.createNewCoins coins) (w.SaveCoins coins)

end coin

namespace validator

/-- `validator.Service.HandleBlockResponse`: one validator row per validator of the response,
    stored if not there yet. -/
def HandleBlockResponse (w : World) (response : responses.BlockResponse) :
    Call (List models.Validator) := do
  let validators := response.Result.Validators.map
    (fun v => ({ PublicKey := w.RemovePrefix v.PubKey } : models.Validator))
  Call.exec (.saveValidators validators) (w.SaveValidators validators)
  pure validators

end validator

namespace core

/-- `strconv.ParseUint(response.Result.Height, 10, 64)` followed by `helpers.HandleError(err)`. -/
def parseHeight (response : responses.BlockResponse) : Call Nat :=
  match parseUint response.Result.Height with
  | some h => pure h
  | none => Call.abort

/-- `handleAddressesFromResponses`. -/
def handleAddressesFromResponses (w : World) (blockResponse : responses.BlockResponse)
    (eventsResponse : responses.EventsResponse) : Call Unit :=
  HandleError (Call.exec (.handleAddresses blockResponse eventsResponse)
    (w.HandleResponses blockResponse eventsResponse))

/-- `saveTransactions`. -/
def saveTransactions (w : World) (blockHeight : Nat) (blockCreatedAt : String)
    (transactions : List responses.Transaction) : Call Unit :=
  HandleError (Call.exec (.saveTransactions blockHeight blockCreatedAt transactions)
    (w.HandleTransactionsFromBlockResponse blockHeight blockCreatedAt transactions))

/-- `int(math.Ceil(float64(n) / float64(c)))` for a slice length `n` and a chunk size `c`.
    The conversion of a slice length is exact (lengths stay far below `2^53`), and the correctly
    rounded quotient `n / c` then has the same ceiling as the exact quotient: an integer quotient
    is exact, and a non-integer one lies at least `1 / c` above its floor `k`, which is more
    than half a unit in the last place since `k * c < 2^53`. So the value is the integer ceiling
    of `n / c`. For `c = 0` the quotient is infinite or not a number and no iteration is run. -/
def chunksCount (n c : Nat) : Nat := (n + c - 1) / c

/-- The slice expression `s[start:end]`: a panic unless `start ≤ end ≤ len(s)`. -/
def slice {α : Type} (s : List α) (start stop : Nat) : Call (List α) :=
  if start ≤ stop ∧ stop ≤ s.length then pure ((s.take stop).drop start) else Call.abort

/-- The `for i := ...; i < chunksCount; i++` loop of `handleTransactions`, with `n` iterations
    left to run. -/
def chunkLoop (env : models.ExtenderEnvironment) (w : World) (height : Nat) (time : String)
    (transactions : List responses.Transaction) : Nat → Nat → Call Unit
  | 0, _ => pure ()
  | n + 1, i => do
    let start := env.TxChunkSize * i
    let stop := if start + env.TxChunkSize > transactions.length then transactions.length
      else start + env.TxChunkSize
    let chunk ← slice transactions start stop
    saveTransactions w height time chunk
    chunkLoop env w height time transactions n (i + 1)

/-- `handleTransactions`. -/
def handleTransactions (env : models.ExtenderEnvironment) (w : World)
    (response : responses.BlockResponse) (_validators : List models.Validator) : Call Unit := do
  let height ← parseHeight response
  let count := chunksCount response.Result.Transactions.length env.TxChunkSize
  chunkLoop env w height response.Result.Time response.Result.Transactions count 0

/-- The `for _, v := range response.Result.Validators` loop of `linkBlockValidator`;
    `*v.Signed` panics on a nil pointer. -/
def linkLoop (w : World) (height : Nat) :
    List responses.BlockValidator → List models.BlockValidator → Call (List models.BlockValidator)
  | [], links => pure links
  | v :: rest, links => do
    let vId ← HandleError (Call.call (.findIdByPk (w.RemovePrefix v.PubKey))
      (w.FindIdByPk (w.RemovePrefix v.PubKey)))
    match v.Signed with
    | none => Call.abort
    | some signed =>
      linkLoop w height rest (links ++ [{ ValidatorID := vId, BlockID := height, Signed := signed }])

/-- `linkBlockValidator`. -/
def linkBlockValidator (w : World) (response : responses.BlockResponse) : Call Unit :=
  if response.Result.Height = "1" then pure ()
  else do
    let height ← parseHeight response
    let links ← linkLoop w height response.Result.Validators []
    HandleError (Call.exec (.linkWithValidators links) (w.LinkWithValidators links))

/-- `handleBlockResponse`. The two channel sends at the end are the refresh jobs. -/
def handleBlockResponse (env : models.ExtenderEnvironment) (w : World)
    (response : responses.BlockResponse) : Call Unit := do
  let validators ← HandleError (validator.HandleBlockResponse w response)
  HandleError (Call.exec (.saveBlock response) (w.SaveBlock response))
  linkBlockValidator w response
  if response.Result.TxCount ≠ "0" ∧ validators.length > 0 then
    handleTransactions env w response validators
  let height ← parseHeight response
  if height % 12 = 0 then Call.emit (.updateStakesJob height)
  else if height > 1 then Call.emit (.updateValidatorsJob height)

/-- `handleCoinsFromTransactions`. -/
def handleCoinsFromTransactions (env : models.ExtenderEnvironment) (w : World)
    (transactions : List responses.Transaction) : Call Unit :=
  if transactions.length = 0 then pure ()
  else do
    let coins ← HandleError (coin.ExtractCoinsFromTransactions env w transactions)
    if coins.length = 0 then pure ()
    else HandleError (coin.CreateNewCoins w coins)

/-- One pass through the body of the `for` loop of `Run`, at cursor `height`: the result is the
    scheduler state and the cursor with which the next pass starts. `RewardAggregateEveryBlocksCount`
    is the value after its conversion to `uint64`; a zero divisor panics. -/
def RunIteration (env : models.ExtenderEnvironment) (w : World) (ext : Extender) (height : Nat) :
    Call (Extender × Nat) := do
  let ext1 ← findOutChasingMode w ext height
  let blockResponse ← HandleError (Call.call (.getBlock height) (w.GetBlock height))
  if blockResponse.Error ≠ none then do
    Call.emit .sleep2s
    pure (ext1, height)
  else do
    let eventsResponse ← HandleError (Call.call (.getBlockEvents height) (w.GetBlockEvents height))
    handleAddressesFromResponses w blockResponse eventsResponse
    handleBlockResponse env w blockResponse
    handleCoinsFromTransactions env w blockResponse.Result.Transactions
    if env.RewardAggregateEveryBlocksCount = 0 then Call.abort
    else do
      if height % env.RewardAggregateEveryBlocksCount = 0 then
        Call.emit (.goAggregateRewards env.RewardAggregateTimeInterval height)
      Call.emit (.goHandleEventResponse height eventsResponse)
      pure (ext1, incU64 height)

end core

/-! ## Workers and background loops -/

/-- Answers of everything the workers and background loops call outside the embedded code, on
    top of `World`. A `range` over a Go map visits the keys in an order the runtime chooses:
    the `range...` fields give that order, a permutation of the entries. -/
structure Services extends World where
  /-- `coin.Repository.FindSymbolById`. -/
  FindSymbolById : Nat → Except String String
  /-- `nodeApi.GetCoinInfo(symbol)`. -/
  GetCoinInfo : String → Except String responses.CoinInfoResponse
  /-- `coin.Repository.FindIdBySymbol`. -/
  FindIdBySymbol : String → Except String Nat
  /-- `coin.Repository.SelectCoinsWithBrokenMeta`: an error, a nil pointer or a list. -/
  SelectCoinsWithBrokenMeta : Except String (Option (List models.Coin))
  /-- `transactionService.SelectCoinsTransaction`: an error, a nil pointer or a list. -/
  SelectCoinsTransaction : Except String (Option (List models.Transaction))
  /-- `json.Unmarshal(data, &obj)` into a `CreateCoinTxData`: the decoded object, or nothing on
      a decoding error. -/
  Unmarshal : String → Option responses.CreateCoinTxData
  /-- `address.Repository.FindById`. -/
  FindAddressById : Nat → Except String String
  /-- `json.Marshal(items)`. -/
  Marshal : List Resource → Except String String
  /-- `validatorRepository.GetActiveValidators`: an error, a nil pointer or a list. -/
  GetActiveValidators : Except String (Option (List models.Validator))
  /-- `validatorRepository.GetFullSignedCountValidatorBlock(id, createdAt)`. -/
  GetFullSignedCountValidatorBlock : Nat → String → Except String Nat
  /-- `validatorRepository.GetCountBlockFromDate(createdAt)`. -/
  GetCountBlockFromDate : String → Except String Nat
  /-- `validatorRepository.UpdateValidatorUptime(id, uptime)`. -/
  UpdateValidatorUptime : Nat → ℚ → Option String
  /-- Visiting order of a `map[string]struct{}`. -/
  rangeSymbols : (m : List String) → { l : List String // l.Perm m }
  /-- Visiting order of a `map[uint64][]interface{}`. -/
  rangeBalances : (m : List (Nat × List Resource)) → { l : List (Nat × List Resource) // l.Perm m }
  /-- `nodeApi.GetCandidates(height, stakes)`. -/
  GetCandidates : Nat → Bool → Except String responses.CandidatesResponse
  /-- `helpers.RemovePrefixFromAddress`. -/
  RemovePrefixFromAddress : String → String
  /-- `address.Repository.SaveFromMapIfNotExists`. -/
  SaveFromMapIfNotExists : List String → Option String
  /-- `validator.Repository.FindIdByPkOrCreate`. -/
  FindIdByPkOrCreate : String → Except String Nat
  /-- `address.Repository.FindIdOrCreate`. -/
  FindIdOrCreate : String → Except String Nat
  /-- `validator.Repository.SaveAllStakes`: the returned error, if any. -/
  SaveAllStakes : List models.Stake → Option String
  /-- The `ID` the store writes into a stake row that `SaveAllStakes` saved. -/
  StakeId : models.Stake → Nat
  /-- `validator.Repository.DeleteStakesNotInListIds`. -/
  DeleteStakesNotInListIds : List Nat → Option String
  /-- `coin.Repository.FindCoinByID`. -/
  FindCoinByID : Nat → Except String models.Coin
  /-- `coin.Repository.UpdateCoinDelegation(coinID, percent)`. -/
  UpdateCoinDelegation : Nat → Nat → Option String
  /-- `coin.Repository.ResetCoinDelegationNotInListIds`. -/
  ResetCoinDelegationNotInListIds : List Nat → Option String
  /-- Visiting order of a `map[uint64]string`. -/
  rangeStakes : (m : List (Nat × String)) → { l : List (Nat × String) // l.Perm m }

namespace Call

/-- A call whose error is logged and not passed on: `if err != nil { log; continue }`. -/
def attempt {α : Type} (x : Call α) : Call (Option α) :=
  match x.res with
  | .ok a => ⟨x.trace, .ok (some a)⟩
  | .err _ => ⟨x.trace, .ok none⟩
  | .panic => ⟨x.trace, .panic⟩

end Call

/-- `m[k] = struct{}{}` on a `map[string]struct{}`, the map being the list of its keys. -/
def setInsert (m : List String) (k : String) : List String :=
  if k ∈ m then m else m ++ [k]

/-- `delete(m, k)` on a `map[string]struct{}`. -/
def setDelete (m : List String) (k : String) : List String :=
  m.filter (fun x => decide (x ≠ k))

namespace coin

/-- The loop of `UpdateCoinsInfoFromTxsWorker` over the transactions of one batch, `coinsMap`
    being the set built so far. A transaction whose gas coin symbol is not found is skipped as
    a whole; a type assertion on typed data of another type panics. -/
def coinsMapLoop (w : Services) : List models.Transaction → List String → Call (List String)
  | [], coinsMap => pure coinsMap
  | tx :: rest, coinsMap => do
    Call.emit (.worker (.findSymbolById tx.GasCoinID))
    match w.FindSymbolById tx.GasCoinID with
    | .error _ => coinsMapLoop w rest coinsMap
    | .ok symbol =>
      let m := setInsert coinsMap symbol
      if tx.Type_ = models.TxTypeSellCoin then
        match tx.IData with
        | .sellCoin buy sell => coinsMapLoop w rest (setInsert (setInsert m buy) sell)
        | _ => Call.abort
      else if tx.Type_ = models.TxTypeBuyCoin then
        match tx.IData with
        | .buyCoin buy sell => coinsMapLoop w rest (setInsert (setInsert m buy) sell)
        | _ => Call.abort
      else if tx.Type_ = models.TxTypeSellAllCoin then
        match tx.IData with
        | .sellAllCoin buy sell => coinsMapLoop w rest (setInsert (setInsert m buy) sell)
        | _ => Call.abort
      else coinsMapLoop w rest m

/-- The body of `UpdateCoinsInfoFromTxsWorker` for one batch taken from the job channel. -/
def UpdateCoinsInfoFromTxsWorker (w : Services) (transactions : List models.Transaction) :
    Call Unit := do
  let coinsMap ← coinsMapLoop w transactions []
  Call.emit (.worker (.sendCoinsMap coinsMap))

/-- `GetCoinFromNode(symbol)`. -/
def GetCoinFromNode (env : models.ExtenderEnvironment) (w : Services) (symbol : String) :
    Call models.Coin := do
  let coinResp ← Call.call (.worker (.getCoinInfo symbol)) (w.GetCoinInfo symbol)
  let id ← Call.call (.worker (.findIdBySymbol symbol)) (w.FindIdBySymbol symbol)
  match coinResp.Error with
  | some message => Call.fail message
  | none =>
    match parseUint coinResp.Result.Crr with
    | none => Call.fail "strconv.ParseUint: parsing error"
    | some crr =>
      let price := w.GetTokenPrice coinResp.Result.Volume coinResp.Result.ReserveBalance crr
      let coin : models.Coin :=
        { ID := id
          Name := coinResp.Result.Name
          Symbol := coinResp.Result.Symbol
          Crr := crr
          ReserveBalance := coinResp.Result.ReserveBalance
          Volume := coinResp.Result.Volume
          Price := price
          Capitalization := w.GetCapitalization coinResp.Result.Volume price
          StartVolume := ""
          StartReserveBalance := ""
          StartPrice := "" }
      if coin.Symbol ≠ env.BaseCoin then do
        Call.emit (.goCoinMessage coin)
        pure coin
      else pure coin

/-- The loop of `UpdateCoinsInfo` over the remaining symbols, `coins` being the slice built so
    far. -/
def updateCoinsLoop (env : models.ExtenderEnvironment) (w : Services) :
    List String → List models.Coin → Call (List models.Coin)
  | [], coins => pure coins
  | symbol :: rest, coins =>
    if symbol = env.BaseCoin then updateCoinsLoop env w rest coins
    else do
      let got ← (GetCoinFromNode env w symbol).attempt
      match got with
      | none => updateCoinsLoop env w rest coins
      | some coin => updateCoinsLoop env w rest (coins ++ [coin])

/-- `UpdateCoinsInfo(symbols)`. -/
def UpdateCoinsInfo (env : models.ExtenderEnvironment) (w : Services) (symbols : List String) :
    Call Unit := do
  let coins ← updateCoinsLoop env w symbols []
  if coins.length > 0 then Call.exec (.worker (.saveCoins coins)) (w.SaveCoins coins)
  else pure ()

/-- The body of `UpdateCoinsInfoFromCoinsMap` for one symbol set taken from the job channel. -/
def UpdateCoinsInfoFromCoinsMap (env : models.ExtenderEnvironment) (w : Services)
    (coinsMap : List String) : Call Unit :=
  let m := setDelete coinsMap env.BaseCoin
  if m.length > 0 then do
    let _ ← (UpdateCoinsInfo env w (w.rangeSymbols m).val).attempt
    pure ()
  else pure ()

end coin

namespace core

/-- `CustomTransaction`. -/
structure CustomTransaction where
  TrxID : Nat
  OwnerAddrID : Nat
  Symbol : String
  deriving Repr, DecidableEq

/-- The first loop of `FixBrokenCoinMetaInfo`: the slice is made with one zero-valued entry per
    transaction, and the entry of a transaction whose data does not decode stays as it is. -/
def customTransactions (w : Services) (transactions : List models.Transaction) :
    List CustomTransaction :=
  transactions.map (fun trx =>
    match w.Unmarshal trx.Data with
    | none => { TrxID := 0, OwnerAddrID := 0, Symbol := "" }
    | some obj => { TrxID := trx.ID, OwnerAddrID := trx.FromAddressID, Symbol := obj.Symbol })

/-- The inner loop of `FixBrokenCoinMetaInfo` for one coin; an error of `UpdateCoinMetaInfo` is
    only logged. -/
def fixCoinLoop (c : models.Coin) : List CustomTransaction → Call Unit
  | [] => pure ()
  | trx :: rest =>
    if c.Symbol ≠ trx.Symbol then fixCoinLoop c rest
    else do
      Call.emit (.worker (.updateCoinMetaInfo c.Symbol trx.TrxID trx.OwnerAddrID))
      fixCoinLoop c rest

/-- The outer loop of `FixBrokenCoinMetaInfo` over the coins. -/
def fixCoinsLoop (trxs : List CustomTransaction) : List models.Coin → Call Unit
  | [] => pure ()
  | c :: rest => do
    fixCoinLoop c trxs
    fixCoinsLoop trxs rest

/-- `FixBrokenCoinMetaInfo`. -/
def FixBrokenCoinMetaInfo (w : Services) : Call Unit := do
  Call.emit (.worker .selectCoinsWithBrokenMeta)
  match w.SelectCoinsWithBrokenMeta with
  | .ok (some coins) =>
    Call.emit (.worker .selectCoinsTransaction)
    match w.SelectCoinsTransaction with
    | .ok (some transactions) => fixCoinsLoop (customTransactions w transactions) coins
    | _ => pure ()
  | _ => pure ()

end core

namespace broadcast

/-- `mapBalances[k] = append(mapBalances[k], res)`, the map being the list of its entries. -/
def mapAppend (m : List (Nat × List Resource)) (k : Nat) (res : Resource) :
    List (Nat × List Resource) :=
  if m.any (fun e => decide (e.1 = k)) then
    m.map (fun e => if e.1 = k then (e.1, e.2 ++ [res]) else e)
  else m ++ [(k, [res])]

/-- The first loop of `PublishBalances`: a balance whose coin symbol is not found is skipped,
    an address that is not found ends in `helpers.HandleError`. -/
def collectLoop (w : Services) :
    List models.Balance → List (Nat × List Resource) → Call (List (Nat × List Resource))
  | [], m => pure m
  | item :: rest, m => do
    Call.emit (.worker (.findSymbolById item.CoinID))
    match w.FindSymbolById item.CoinID with
    | .error _ => collectLoop w rest m
    | .ok symbol =>
      let adr ← HandleError (Call.call (.worker (.findAddressById item.AddressID))
        (w.FindAddressById item.AddressID))
      collectLoop w rest
        (mapAppend m item.AddressID { Balance := item, Address := adr, Symbol := symbol })

/-- The bytes handed to `publish`: the JSON of the items, or nothing when `json.Marshal` fails
    (the error is only logged). -/
def marshalled (w : Services) (items : List Resource) : String :=
  match w.Marshal items with
  | .ok msg => msg
  | .error _ => ""

/-- The second loop of `PublishBalances` over the entries in visiting order; an error of the
    publishing client is only logged. -/
def publishLoop (w : Services) : List (Nat × List Resource) → Call Unit
  | [] => pure ()
  | (addressId, items) :: rest => do
    let adr ← HandleError (Call.call (.worker (.findAddressById addressId))
      (w.FindAddressById addressId))
    Call.emit (.worker (.publish ("NOAHx" ++ adr) (marshalled w items)))
    publishLoop w rest

/-- `PublishBalances(balances)`. -/
def PublishBalances (w : Services) (balances : List models.Balance) : Call Unit := do
  let mapBalances ← collectLoop w balances []
  publishLoop w (w.rangeBalances mapBalances).val

end broadcast

namespace validator

/-- Precision, in bits, of the `big.Float` values of the delegation figures. -/
def precision : Nat := 100

/-- Number of blocks after which the delegator counts are refreshed. -/
def calcUptimeValidatorBlocks : Nat := 192

/-- The slices and maps that the stake loop of `UpdateStakesWorker` fills. -/
structure StakeState where
  stakes : List models.Stake
  stakesInCoin : List (Nat × String)
  deriving Repr, DecidableEq

/-- The update of `stakesInCoin[coinID]` for one stake outside the base coin, the map being the
    list of its entries: a new key gets the value of the stake, the value of a key already
    there is replaced by the decimal string of the sum; `Add` on a nil `*big.Int` panics. -/
def addStake (m : List (Nat × String)) (coinID : Nat) (value : String) :
    Call (List (Nat × String)) :=
  match m.lookup coinID with
  | some v =>
    match utils.ConvertStringToBigInt v, utils.ConvertStringToBigInt value with
    | some valueInt, some stakeInt =>
      pure (m.map (fun e => if e.1 = coinID then (e.1, toString (valueInt + stakeInt)) else e))
    | _, _ => Call.abort
  | none => pure (m ++ [(coinID, value)])

/-- The `for _, stake := range vlr.Stakes` loop for the validator `id`; a failed lookup is
    logged and the stake skipped. -/
def stakeLoop (env : models.ExtenderEnvironment) (w : Services) (id : Nat) :
    List responses.Stake → StakeState → Call StakeState
  | [], st => pure st
  | stake :: rest, st => do
    let owner ← (Call.call (.worker (.findAddressIdOrCreate (w.RemovePrefixFromAddress stake.Owner)))
      (w.FindIdOrCreate (w.RemovePrefixFromAddress stake.Owner))).attempt
    match owner with
    | none => stakeLoop env w id rest st
    | some ownerAddressID => do
      let found ← (Call.call (.worker (.findIdBySymbol stake.Coin))
        (w.FindIdBySymbol stake.Coin)).attempt
      match found with
      | none => stakeLoop env w id rest st
      | some coinID =>
        let row : models.Stake :=
          { ValidatorID := id, OwnerAddressID := ownerAddressID, CoinID := coinID,
            Value := stake.Value, NoahValue := stake.NoahValue }
        let stakes := st.stakes ++ [row]
        if stake.Coin = env.BaseCoin then
          stakeLoop env w id rest { stakes := stakes, stakesInCoin := st.stakesInCoin }
        else do
          let m ← addStake st.stakesInCoin coinID stake.Value
          stakeLoop env w id rest { stakes := stakes, stakesInCoin := m }

/-- The second `for i, vlr := range resp.Result` loop: `validatorIds` keeps the zero value at
    the index of a validator whose id is not found, and the stakes of that validator are
    skipped. -/
def candidatesLoop (env : models.ExtenderEnvironment) (w : Services) :
    List responses.Candidate → List Nat → StakeState → Call (List Nat × StakeState)
  | [], validatorIds, st => pure (validatorIds, st)
  | vlr :: rest, validatorIds, st => do
    let found ← (Call.call (.worker (.findIdByPkOrCreate (w.RemovePrefix vlr.PubKey)))
      (w.FindIdByPkOrCreate (w.RemovePrefix vlr.PubKey))).attempt
    match found with
    | none => candidatesLoop env w rest (validatorIds ++ [0]) st
    | some id => do
      let st1 ← stakeLoop env w id vlr.Stakes st
      candidatesLoop env w rest (validatorIds ++ [id]) st1

/-- The first `for i, vlr := range resp.Result` loop: the set of the addresses named by the
    response. -/
def collectAddresses (w : Services) : List responses.Candidate → List String → List String
  | [], m => m
  | vlr :: rest, m =>
    collectAddresses w rest
      (vlr.Stakes.foldl (fun a stake => setInsert a (w.RemovePrefixFromAddress stake.Owner))
        (setInsert (setInsert m (w.RemovePrefixFromAddress vlr.RewardAddress))
          (w.RemovePrefixFromAddress vlr.OwnerAddress)))

/-- The `for i := 0; i < chunksCount; i++` loop over the stakes, with `n` iterations left to
    run; an error of `SaveAllStakes` ends in `panic(err)`. -/
def stakeChunkLoop (env : models.ExtenderEnvironment) (w : Services)
    (stakes : List models.Stake) : Nat → Nat → Call Unit
  | 0, _ => pure ()
  | n + 1, i => do
    let start := env.StakeChunkSize * i
    let stop := if start + env.StakeChunkSize > stakes.length then stakes.length
      else start + env.StakeChunkSize
    let chunk ← core.slice stakes start stop
    HandleError (Call.exec (.worker (.saveAllStakes chunk)) (w.SaveAllStakes chunk))
    stakeChunkLoop env w stakes n (i + 1)

/-- The `for k, v := range stakesInCoin` loop over the entries in visiting order: the key goes
    into `coinsId` and a goroutine is started for the entry. -/
def delegationLoop : List (Nat × String) → List Nat → Call (List Nat)
  | [], coinsId => pure coinsId
  | (k, v) :: rest, coinsId => do
    Call.emit (.worker (.goCoinDelegation k v))
    delegationLoop rest (coinsId ++ [k])

/-- The delegation part of a pass: one goroutine for each entry of `stakesInCoin`, then the
    reset of the coins that are not among its keys; an error of the reset is only logged. -/
def updateDelegations (w : Services) (stakesInCoin : List (Nat × String)) : Call Unit := do
  let coinsId ← delegationLoop (w.rangeStakes stakesInCoin).val []
  let _ ← (Call.exec (.worker (.resetCoinDelegationNotInListIds coinsId))
    (w.ResetCoinDelegationNotInListIds coinsId)).attempt
  pure ()

/-- The goroutine started for one entry of `stakesInCoin`. A missing coin ends it; `Quo` of
    two zeros panics; a positive stake over a volume of zero is `+Inf`, which `Uint64` turns
    into `math.MaxUint64`; a nil `*big.Float` panics. -/
def coinDelegation (w : Services) (coinID : Nat) (stake : String) : Call Unit := do
  let currentCoin ← Call.call (.worker (.findCoinByID coinID)) (w.FindCoinByID coinID)
  match utils.NewFloatSetString precision stake,
      utils.NewFloatSetString precision currentCoin.Volume with
  | some stakeFloat, some volumeFloat =>
    if volumeFloat = 0 then
      if stakeFloat = 0 then Call.abort
      else
        Call.exec (.worker (.updateCoinDelegation coinID (utils.Min (2 ^ 64 - 1) 100)))
          (w.UpdateCoinDelegation coinID (utils.Min (2 ^ 64 - 1) 100))
    else
      let quo := roundToPrec precision (stakeFloat / volumeFloat)
      let mul := roundToPrec precision (quo * float64 100)
      let delegated := toUint64 mul
      Call.exec (.worker (.updateCoinDelegation coinID (utils.Min delegated 100)))
        (w.UpdateCoinDelegation coinID (utils.Min delegated 100))
  | _, _ => Call.abort

/-- The `for _, validatorID := range validatorIds` loop: one goroutine per entry. -/
def countDelegatorsLoop : List Nat → Call Unit
  | [] => pure ()
  | validatorID :: rest => do
    Call.emit (.worker (.goCountDelegators validatorID))
    countDelegatorsLoop rest

/-- The body of `UpdateStakesWorker` for one height taken from the job channel. -/
def UpdateStakesWorker (env : models.ExtenderEnvironment) (w : Services) (height : Nat) :
    Call Unit := do
  let resp ← Call.call (.worker (.getCandidates height true)) (w.GetCandidates height true)
  match resp.Error with
  | some _ => pure ()
  | none =>
    let validators := resp.Result.map
      (fun vlr => ({ PublicKey := w.RemovePrefix vlr.PubKey } : models.Validator))
    let addressesMap := collectAddresses w resp.Result []
    let _ ← (Call.exec (.saveValidators validators) (w.SaveValidators validators)).attempt
    let _ ← (Call.exec (.worker (.saveAddresses addressesMap))
      (w.SaveFromMapIfNotExists addressesMap)).attempt
    let (validatorIds, st) ← candidatesLoop env w resp.Result [] { stakes := [], stakesInCoin := [] }
    stakeChunkLoop env w st.stakes (core.chunksCount st.stakes.length env.StakeChunkSize) 0
    let stakesId := st.stakes.map w.StakeId
    let _ ← (Call.exec (.worker (.deleteStakesNotInListIds stakesId))
      (w.DeleteStakesNotInListIds stakesId)).attempt
    updateDelegations w st.stakesInCoin
    if height % calcUptimeValidatorBlocks = 0 then countDelegatorsLoop validatorIds
    else pure ()

end validator

namespace core

/-- The uptime figure of `updateValidatorsUptime`: `value` stays `0` without blocks, else it is
    the quotient of the two counts converted to `float64`; then `math.Min(value*100, 100.0)`. -/
def uptime (signedCount validatorBlocksHeight : Nat) : ℚ :=
  let value : ℚ :=
    if validatorBlocksHeight > 0 then
      float64 (float64 signedCount / float64 validatorBlocksHeight)
    else 0
  min (float64 (value * 100)) 100

/-- The `for _, v := range *validators` loop of `updateValidatorsUptime`; every error is logged
    and the validator skipped. -/
def uptimeLoop (w : Services) : List models.Validator → Call Unit
  | [] => pure ()
  | v :: rest => do
    let signed ← (Call.call (.worker (.getFullSignedCount v.ID v.CreatedAt))
      (w.GetFullSignedCountValidatorBlock v.ID v.CreatedAt)).attempt
    match signed with
    | none => uptimeLoop w rest
    | some signedCount => do
      let blocks ← (Call.call (.worker (.getCountBlockFromDate v.CreatedAt))
        (w.GetCountBlockFromDate v.CreatedAt)).attempt
      match blocks with
      | none => uptimeLoop w rest
      | some validatorBlocksHeight => do
        let _ ← (Call.exec
          (.worker (.updateValidatorUptime v.ID (uptime signedCount validatorBlocksHeight)))
          (w.UpdateValidatorUptime v.ID (uptime signedCount validatorBlocksHeight))).attempt
        uptimeLoop w rest

/-- `updateValidatorsUptime`. -/
def updateValidatorsUptime (w : Services) : Call Unit := do
  Call.emit (.worker .getActiveValidators)
  match w.GetActiveValidators with
  | .error _ => pure ()
  | .ok none => pure ()
  | .ok (some validators) => do
    Call.emit (.worker .resetAllUptimes)
    uptimeLoop w validators

end core

/-! ## Vocabulary of the properties -/

/-- Position of an effect in the program order of one pass of the main loop; the effects of the
    workers, which are no part of a pass, come last. -/
def Event.phase : Event → Nat
  | .getStatus => 0
  | .getBlock _ => 1
  | .sleep2s => 2
  | .getBlockEvents _ => 2
  | .handleAddresses _ _ => 3
  | .saveValidators _ => 4
  | .saveBlock _ => 5
  | .findIdByPk _ => 6
  | .linkWithValidators _ => 7
  | .saveTransactions _ _ _ => 8
  | .updateStakesJob _ => 9
  | .updateValidatorsJob _ => 9
  | .goKvSet _ _ => 10
  | .goCoinMessage _ => 10
  | .createNewCoins _ => 11
  | .goAggregateRewards _ _ => 12
  | .goHandleEventResponse _ _ => 13
  | .worker _ => 14

/-- Address handling: the call of `addressService.HandleResponses`. -/
def Event.isAddressHandling : Event → Bool
  | .handleAddresses _ _ => true
  | _ => false

/-- Block header and block-validator links: storing the validators and the block, looking up
    validator ids, writing the links. -/
def Event.isBlockAndLinks : Event → Bool
  | .saveValidators _ => true
  | .saveBlock _ => true
  | .findIdByPk _ => true
  | .linkWithValidators _ => true
  | _ => false

/-- Dispatch of one transaction chunk. -/
def Event.isTxDispatch : Event → Bool
  | .saveTransactions _ _ _ => true
  | _ => false

/-- Create-coin extraction and insert: the goroutines started by the extraction and the insert
    of the new coins. -/
def Event.isCoinCreate : Event → Bool
  | .goKvSet _ _ => true
  | .goCoinMessage _ => true
  | .createNewCoins _ => true
  | _ => false

/-- A refresh job sent on the stake or on the validator job channel. -/
def Event.isRefreshJob : Event → Bool
  | .updateStakesJob _ => true
  | .updateValidatorsJob _ => true
  | _ => false

/-- Every effect of kind `p` in the trace comes before every effect of kind `q`. -/
def Before (p q : Event → Bool) (t : List Event) : Prop :=
  ∀ (i j : Nat) (e f : Event), t[i]? = some e → t[j]? = some f → p e = true → q f = true → i < j

/-- The effects of a trace occur in program order and all lie between two positions. -/
def Staged (lo hi : Nat) (t : List Event) : Prop :=
  t.Pairwise (fun a b => a.phase ≤ b.phase) ∧ ∀ e ∈ t, lo ≤ e.phase ∧ e.phase ≤ hi

/-- The transaction slices handed to `saveTransactions`, in call order. -/
def dispatchedChunks (t : List Event) : List (List responses.Transaction) :=
  t.filterMap (fun e => match e with
    | .saveTransactions _ _ txs => some txs
    | _ => none)

/-- The link lists handed to `LinkWithValidators`, in call order. -/
def linkWrites (t : List Event) : List (List models.BlockValidator) :=
  t.filterMap (fun e => match e with
    | .linkWithValidators links => some links
    | _ => none)

/-- A transaction from which `ExtractCoinsFromTransactions` extracts: type create-coin, nil log. -/
def isAcceptedCreateCoin (tx : responses.Transaction) : Bool :=
  decide (tx.Type_ = models.TxTypeCreateCoin) && tx.Log.isNone

/-- The coin `ExtractFromTx` returns for a transaction, if it returns one. -/
def extractedCoin (env : models.ExtenderEnvironment) (w : World) (tx : responses.Transaction) :
    Option models.Coin :=
  match (coin.ExtractFromTx env w tx).res with
  | .ok c => some c
  | _ => none

/-- The coins of the accepted create-coin transactions of a list, one per transaction, in
    transaction order. -/
def candidateCoins (env : models.ExtenderEnvironment) (w : World)
    (txs : List responses.Transaction) : List models.Coin :=
  (txs.filter isAcceptedCreateCoin).filterMap (extractedCoin env w)

/-- The `UpdateCoinMetaInfo` calls of a trace, in call order: symbol, transaction id, owner. -/
def metaUpdates (t : List Event) : List (String × Nat × Nat) :=
  t.filterMap (fun e => match e with
    | .worker (.updateCoinMetaInfo symbol trxId ownerAddrId) => some (symbol, trxId, ownerAddrId)
    | _ => none)

/-- One `UpdateCoinMetaInfo` call for each transaction of the list whose data decodes to the
    symbol of the coin, in list order. -/
def expectedMetaUpdates (w : Services) (txs : List models.Transaction) (c : models.Coin) :
    List (String × Nat × Nat) :=
  txs.filterMap (fun tx =>
    match w.Unmarshal tx.Data with
    | some obj => if obj.Symbol = c.Symbol then some (c.Symbol, tx.ID, tx.FromAddressID) else none
    | none => none)

/-- The symbols for which `GetCoinInfo` of the node is asked, in call order: one per call of
    `GetCoinFromNode`, whose first step it is. -/
def coinInfoCalls (t : List Event) : List String :=
  t.filterMap (fun e => match e with
    | .worker (.getCoinInfo symbol) => some symbol
    | _ => none)

/-- The two coin symbols of a sell, buy or sell-all transaction; no symbol for another type. -/
def exchangeSymbols (tx : models.Transaction) : List String :=
  if tx.Type_ = models.TxTypeSellCoin ∨ tx.Type_ = models.TxTypeBuyCoin ∨
      tx.Type_ = models.TxTypeSellAllCoin then
    match tx.IData with
    | .sellCoin buy sell => [buy, sell]
    | .buyCoin buy sell => [buy, sell]
    | .sellAllCoin buy sell => [buy, sell]
    | .other => []
  else []

/-- The typed data of a stored transaction has the type its type code announces. -/
def typedDataMatches (tx : models.Transaction) : Prop :=
  (tx.Type_ = models.TxTypeSellCoin → ∃ buy sell, tx.IData = .sellCoin buy sell) ∧
  (tx.Type_ = models.TxTypeBuyCoin → ∃ buy sell, tx.IData = .buyCoin buy sell) ∧
  (tx.Type_ = models.TxTypeSellAllCoin → ∃ buy sell, tx.IData = .sellAllCoin buy sell)

/-- The messages handed to the publishing client in a trace, in call order: channel and
    payload. -/
def publications (t : List Event) : List (String × String) :=
  t.filterMap (fun e => match e with
    | .worker (.publish channel msg) => some (channel, msg)
    | _ => none)

/-- The resource built for one balance, when its coin symbol and its address are found. -/
def resourceOf (w : Services) (item : models.Balance) : Option Resource :=
  match w.FindSymbolById item.CoinID with
  | .error _ => none
  | .ok symbol =>
    match w.FindAddressById item.AddressID with
    | .error _ => none
    | .ok adr => some { Balance := item, Address := adr, Symbol := symbol }

/-- The resources of the balances of a list whose lookups succeed, in list order. -/
def resolvedBalances (w : Services) (balances : List models.Balance) : List Resource :=
  balances.filterMap (resourceOf w)

/-- The address string of an address id, empty when the id is unknown. -/
def addressOf (w : Services) (id : Nat) : String :=
  match w.FindAddressById id with
  | .ok adr => adr
  | .error _ => ""

/-- The message expected for one address id: on the channel of its address, the resources of
    its balances in input order. -/
def expectedPublication (w : Services) (balances : List models.Balance) (id : Nat) :
    String × String :=
  ("NOAHx" ++ addressOf w id,
    broadcast.marshalled w
      ((resolvedBalances w balances).filter (fun r => decide (r.Balance.AddressID = id))))

/-- What the map of `PublishBalances` holds after the resources `rs` went in: distinct keys,
    under each key the resources of that address in order, and a key for each address seen. -/
def GroupedBy (m : List (Nat × List Resource)) (rs : List Resource) : Prop :=
  (m.map Prod.fst).Nodup ∧
  (∀ e ∈ m, e.2 = rs.filter (fun r => decide (r.Balance.AddressID = e.1))) ∧
  (∀ k, k ∈ m.map Prod.fst ↔ ∃ r ∈ rs, r.Balance.AddressID = k)

/-- The stakes of a candidates response outside the base coin, in response order. -/
def nonBaseStakes (env : models.ExtenderEnvironment) (candidates : List responses.Candidate) :
    List responses.Stake :=
  ((candidates.map (fun vlr => vlr.Stakes)).flatten).filter
    (fun stake => decide (stake.Coin ≠ env.BaseCoin))

/-- The stake is in the coin with id `k`. -/
def inCoin (w : Services) (k : Nat) (stake : responses.Stake) : Bool :=
  match w.FindIdBySymbol stake.Coin with
  | .ok id => decide (id = k)
  | .error _ => false

/-- The integer that the value of a stake spells. -/
def stakeValue (stake : responses.Stake) : Nat := (decimalValue stake.Value).getD 0

/-- The exact sum of the values of the stakes of a list that are in the coin with id `k`. -/
def stakeSum (w : Services) (stakes : List responses.Stake) (k : Nat) : Nat :=
  ((stakes.filter (inCoin w k)).map stakeValue).sum

/-- The map `m` holds the sums of the stakes of the list: distinct keys, a key for each coin id
    with a stake, and under each key the decimal string of the exact sum of that coin. -/
def StakesSummed (w : Services) (m : List (Nat × String)) (stakes : List responses.Stake) :
    Prop :=
  (m.map Prod.fst).Nodup ∧
  (∀ k, k ∈ m.map Prod.fst ↔ ∃ stake ∈ stakes, inCoin w k stake = true) ∧
  (∀ e ∈ m, e.2 = toString (stakeSum w stakes e.1))

/-- The `UpdateValidatorUptime` calls of a trace, in call order: validator id and uptime. -/
def uptimeUpdates (t : List Event) : List (Nat × ℚ) :=
  t.filterMap (fun e => match e with
    | .worker (.updateValidatorUptime id uptime) => some (id, uptime)
    | _ => none)

/-- The uptime update expected for a validator: none when one of its two counts is not
    found. -/
def expectedUptime (w : Services) (v : models.Validator) : Option (Nat × ℚ) :=
  match w.GetFullSignedCountValidatorBlock v.ID v.CreatedAt,
      w.GetCountBlockFromDate v.CreatedAt with
  | .ok signedCount, .ok validatorBlocksHeight =>
    some (v.ID, core.uptime signedCount validatorBlocksHeight)
  | _, _ => none

/-- The `UpdateCoinDelegation` calls of a trace, in call order: coin id and percent. -/
def delegationUpdates (t : List Event) : List (Nat × Nat) :=
  t.filterMap (fun e => match e with
    | .worker (.updateCoinDelegation coinID percent) => some (coinID, percent)
    | _ => none)

/-- The goroutines started for the entries of `stakesInCoin` in a trace, in starting order:
    coin id and stake sum. -/
def delegationJobs (t : List Event) : List (Nat × String) :=
  t.filterMap (fun e => match e with
    | .worker (.goCoinDelegation coinID stake) => some (coinID, stake)
    | _ => none)

/-- The id lists handed to `ResetCoinDelegationNotInListIds` in a trace. -/
def delegationResets (t : List Event) : List (List Nat) :=
  t.filterMap (fun e => match e with
    | .worker (.resetCoinDelegationNotInListIds ids) => some ids
    | _ => none)

/-- A trace without any call of the delegation part: no goroutine start and no reset. -/
def NoDelegation (t : List Event) : Prop :=
  delegationJobs t = [] ∧ delegationResets t = []

/-! ## Sample inputs -/

/-- A world whose node reports the tip `tip` and serves `block` at every height, and whose store
    accepts every write; the id of a validator is the length of its key. -/
def sampleWorld (tip : String) (block : responses.BlockResponse) : World :=
  { GetStatus := fun _ => .ok ⟨tip⟩
    GetBlock := fun _ => .ok block
    GetBlockEvents := fun _ => .ok ⟨[]⟩
    HandleResponses := fun _ _ => none
    SaveValidators := fun _ => none
    SaveBlock := fun _ => none
    FindIdByPk := fun pk => .ok pk.length
    LinkWithValidators := fun _ => none
    HandleTransactionsFromBlockResponse := fun _ _ _ => none
    SaveCoins := fun _ => none
    RemovePrefix := fun s => s.drop 2
    GetTokenPrice := fun _ _ _ => "1"
    GetCapitalization := fun volume _ => volume }

/-- A configuration with base coin NOAH and transaction chunks of two. -/
def sampleEnv : models.ExtenderEnvironment :=
  { BaseCoin := "NOAH", TxChunkSize := 2, RewardAggregateEveryBlocksCount := 10,
    RewardAggregateTimeInterval := "hour", StakeChunkSize := 2 }

/-- A transaction of type `ty` carrying create-coin data for `symbol` with reserve ratio `crr`. -/
def sampleTx (ty : Nat) (symbol crr : String) (log : Option String) : responses.Transaction :=
  { Hash := "Mt" ++ symbol, Type_ := ty, Log := log, Data := some "{}",
    IData := .createCoin ⟨symbol, symbol, "1000", "500", crr⟩ }

/-- A successful block response with two validators. -/
def sampleBlock (height : String) (txCount : String) (txs : List responses.Transaction) :
    responses.BlockResponse :=
  { Error := none
    Result := { Height := height, Time := "t", TxCount := txCount, Transactions := txs,
                Validators := [⟨"Mp01", some true⟩, ⟨"Mp002", some false⟩] } }

/-- A block response carrying the structured error of the node. -/
def sampleErrorBlock : responses.BlockResponse :=
  { Error := some "block not found"
    Result := { Height := "", Time := "", TxCount := "", Transactions := [], Validators := [] } }

/-- A block at height 42 with one create-coin transaction for ACME. -/
def sampleBlock42 : responses.BlockResponse :=
  sampleBlock "42" "1" [sampleTx 5 "ACME" "50" none]

/-- Services with three coins (1 NOAH, 2 ACME, 3 BETA) and two addresses; the raw data of a
    stored transaction decodes to the symbol it spells, except the data "bad"; maps are visited
    in reverse order of insertion. -/
def sampleServices : Services :=
  { sampleWorld "1000" sampleBlock42 with
    FindSymbolById := fun id =>
      if id = 1 then .ok "NOAH" else if id = 2 then .ok "ACME" else if id = 3 then .ok "BETA"
      else .error "coin not found"
    GetCoinInfo := fun symbol => .ok ⟨none, ⟨symbol, symbol, "1000", "50", "500"⟩⟩
    FindIdBySymbol := fun symbol =>
      if symbol = "NOAH" then .ok 1 else if symbol = "ACME" then .ok 2
      else if symbol = "BETA" then .ok 3 else .error "coin not found"
    SelectCoinsWithBrokenMeta := .ok (some
      [{ Crr := 50, Volume := "1000", ReserveBalance := "500", Name := "ACME", Symbol := "ACME",
         Price := "1", Capitalization := "1000", StartVolume := "1000",
         StartReserveBalance := "500", StartPrice := "1", ID := 2 }])
    SelectCoinsTransaction := .ok (some
      [{ ID := 7, FromAddressID := 1, GasCoinID := 1, Type_ := 5, Data := "BETA", IData := .other },
       { ID := 8, FromAddressID := 2, GasCoinID := 1, Type_ := 5, Data := "bad", IData := .other },
       { ID := 9, FromAddressID := 2, GasCoinID := 1, Type_ := 5, Data := "ACME",
         IData := .other }])
    Unmarshal := fun data => if data = "bad" then none else some ⟨data, data, "", "", ""⟩
    FindAddressById := fun id =>
      if id = 1 then .ok "a1" else if id = 2 then .ok "a2" else .error "address not found"
    Marshal := fun items => .ok (String.join (items.map (fun r => r.Symbol ++ ";")))
    GetActiveValidators := .ok (some [{ PublicKey := "01", ID := 1, CreatedAt := "t0" }])
    GetFullSignedCountValidatorBlock := fun _ _ => .ok 1
    GetCountBlockFromDate := fun _ => .ok 3
    UpdateValidatorUptime := fun _ _ => none
    rangeSymbols := fun m => ⟨m.reverse, List.reverse_perm m⟩
    rangeBalances := fun m => ⟨m.reverse, List.reverse_perm m⟩
    GetCandidates := fun _ _ => .ok ⟨none,
      [⟨"Np01", "NOAHxa1", "NOAHxa1",
        [⟨"NOAHxa1", "NOAH", "900", "900"⟩, ⟨"NOAHxa2", "ACME", "300", "30"⟩,
         ⟨"NOAHxa1", "BETA", "61", "6"⟩]⟩,
       ⟨"Np02", "NOAHxa2", "NOAHxa2",
        [⟨"NOAHxa2", "ACME", "200", "20"⟩, ⟨"NOAHxa2", "GONE", "5", "5"⟩]⟩]⟩
    RemovePrefixFromAddress := fun a => a.drop 5
    SaveFromMapIfNotExists := fun _ => none
    FindIdByPkOrCreate := fun pk => if pk = "01" then .ok 1 else .ok 2
    FindIdOrCreate := fun a => if a = "a1" then .ok 1 else .ok 2
    SaveAllStakes := fun _ => none
    StakeId := fun stake => 100 * stake.ValidatorID + stake.CoinID
    DeleteStakesNotInListIds := fun _ => none
    FindCoinByID := fun id =>
      if id = 2 then
        .ok
          { Crr := 50, Volume := "1000", ReserveBalance := "500", Name := "ACME",
            Symbol := "ACME", Price := "1", Capitalization := "1000", StartVolume := "1000",
            StartReserveBalance := "500", StartPrice := "1", ID := 2 }
      else if id = 3 then
        .ok
          { Crr := 50, Volume := "100", ReserveBalance := "50", Name := "BETA",
            Symbol := "BETA", Price := "1", Capitalization := "100", StartVolume := "100",
            StartReserveBalance := "50", StartPrice := "1", ID := 3 }
      else .error "coin not found"
    UpdateCoinDelegation := fun _ _ => none
    ResetCoinDelegationNotInListIds := fun _ => none
    rangeStakes := fun m => ⟨m.reverse, List.reverse_perm m⟩ }

/-- A sell transaction paying its fee in coin 2 (ACME) and selling ACME for BETA. -/
def sampleSell : models.Transaction :=
  { ID := 11, FromAddressID := 1, GasCoinID := 2, Type_ := models.TxTypeSellCoin, Data := "",
    IData := .sellCoin "BETA" "ACME" }

/-- A sell transaction whose gas coin id 99 is unknown to the coin repository. -/
def sampleSellUnknownGas : models.Transaction :=
  { ID := 12, FromAddressID := 1, GasCoinID := 99, Type_ := models.TxTypeSellCoin, Data := "",
    IData := .sellCoin "BETA" "ACME" }

/-- A transaction of another type paying its fee in the base coin. -/
def sampleSend : models.Transaction :=
  { ID := 13, FromAddressID := 2, GasCoinID := 1, Type_ := 1, Data := "", IData := .other }

/-- Four balances of two addresses; the coin 99 of the second one is unknown. -/
def sampleBalances : List models.Balance :=
  [{ AddressID := 1, CoinID := 2, Value := "10" },
   { AddressID := 2, CoinID := 99, Value := "20" },
   { AddressID := 1, CoinID := 3, Value := "30" },
   { AddressID := 2, CoinID := 1, Value := "40" }]

/-- Two candidates with one stake in the base coin, two stakes in ACME and one in BETA. -/
def sampleCandidates : List responses.Candidate :=
  [⟨"Np01", "NOAHxa1", "NOAHxa1",
    [⟨"NOAHxa1", "NOAH", "900", "900"⟩, ⟨"NOAHxa2", "ACME", "300", "30"⟩,
     ⟨"NOAHxa1", "BETA", "61", "6"⟩]⟩,
   ⟨"Np02", "NOAHxa2", "NOAHxa2", [⟨"NOAHxa2", "ACME", "200", "20"⟩]⟩]

/-- The sample services with a candidates response that holds one stake of one unit in
    ACME. -/
def sampleTinyServices : Services :=
  { sampleServices with
    GetCandidates := fun _ _ =>
      .ok ⟨none, [⟨"Np01", "NOAHxa1", "NOAHxa1", [⟨"NOAHxa2", "ACME", "1", "1"⟩]⟩]⟩ }

/-- The sample services with the sample candidates as the answer of the node: every lookup of
    the stake loop succeeds. -/
def sampleStakeServices : Services :=
  { sampleServices with GetCandidates := fun _ _ => .ok ⟨none, sampleCandidates⟩ }

/-! ## The `Call` structure -/

@[simp] theorem Call.bind_eq {α β : Type} (x : Call α) (f : α → Call β) :
    (x >>= f) = Call.andThen x f := rfl

@[simp] theorem Call.pure_eq {α : Type} (a : α) : (pure a : Call α) = Call.ret a := rfl

@[simp] theorem Call.ret_trace {α : Type} (a : α) : (Call.ret a).trace = [] := rfl

@[simp] theorem Call.ret_res {α : Type} (a : α) : (Call.ret a).res = .ok a := rfl

@[simp] theorem Call.ret_andThen {α β : Type} (a : α) (f : α → Call β) :
    (Call.ret a).andThen f = f a := by
  simp [Call.andThen, Call.ret]

theorem Call.andThen_ok {α β : Type} {x : Call α} {a : α} (f : α → Call β) (h : x.res = .ok a) :
    Call.andThen x f = ⟨x.trace ++ (f a).trace, (f a).res⟩ := by
  simp [Call.andThen, h]

theorem Call.andThen_panic {α β : Type} {x : Call α} (f : α → Call β) (h : x.res = .panic) :
    Call.andThen x f = ⟨x.trace, .panic⟩ := by
  simp [Call.andThen, h]

theorem Call.andThen_err {α β : Type} {x : Call α} {e : String} (f : α → Call β)
    (h : x.res = .err e) : Call.andThen x f = ⟨x.trace, .err e⟩ := by
  simp [Call.andThen, h]

/-- A call sequence that returned a value went through both of its parts. -/
theorem Call.andThen_res_ok {α β : Type} {x : Call α} {f : α → Call β} {b : β}
    (h : (Call.andThen x f).res = .ok b) :
    ∃ a, x.res = .ok a ∧ (f a).res = .ok b ∧
      (Call.andThen x f).trace = x.trace ++ (f a).trace := by
  cases hx : x.res with
  | ok a => exact ⟨a, rfl, by simpa [Call.andThen, hx] using h, by simp [Call.andThen, hx]⟩
  | err e => simp [Call.andThen, hx] at h
  | panic => simp [Call.andThen, hx] at h

theorem HandleError_trace {α : Type} (x : Call α) : (HandleError x).trace = x.trace := by
  unfold HandleError; split <;> rfl

theorem HandleError_res_ok {α : Type} {x : Call α} {a : α} :
    (HandleError x).res = .ok a ↔ x.res = .ok a := by
  unfold HandleError; split <;> simp_all

theorem HandleError_res_ne_err {α : Type} (x : Call α) (e : String) :
    (HandleError x).res ≠ .err e := by
  unfold HandleError; split <;> simp_all

/-! ## Program order of the effects -/

theorem Staged.nil (l u : Nat) : Staged l u [] := by
  simp [Staged]

theorem Staged.single {l u : Nat} {e : Event} (h1 : l ≤ e.phase) (h2 : e.phase ≤ u) :
    Staged l u [e] := by
  simp [Staged, h1, h2]

theorem Staged.mono {l u l' u' : Nat} {t : List Event} (h : Staged l u t)
    (h1 : l' ≤ l) (h2 : u ≤ u') : Staged l' u' t :=
  ⟨h.1, fun e he => ⟨le_trans h1 (h.2 e he).1, le_trans (h.2 e he).2 h2⟩⟩

theorem Staged.append {l m u : Nat} {t1 t2 : List Event} (h1 : Staged l m t1)
    (h2 : Staged m u t2) (hlo : l ≤ m) (hhi : m ≤ u) : Staged l u (t1 ++ t2) := by
  refine ⟨List.pairwise_append.mpr ⟨h1.1, h2.1, fun a ha b hb => ?_⟩, fun e he => ?_⟩
  · exact le_trans (h1.2 a ha).2 (h2.2 b hb).1
  · rcases List.mem_append.mp he with he | he
    · exact ⟨(h1.2 e he).1, le_trans (h1.2 e he).2 hhi⟩
    · exact ⟨le_trans hlo (h2.2 e he).1, (h2.2 e he).2⟩

theorem Staged.andThen {α β : Type} {l m u : Nat} {x : Call α} {f : α → Call β}
    (h1 : Staged l m x.trace) (h2 : ∀ a, Staged m u (f a).trace) (hlo : l ≤ m)
    (hhi : m ≤ u) : Staged l u (Call.andThen x f).trace := by
  unfold Call.andThen
  split
  · exact h1.append (h2 _) hlo hhi
  · exact h1.mono le_rfl hhi
  · exact h1.mono le_rfl hhi

theorem Staged.handleError {α : Type} {l u : Nat} {x : Call α} (h : Staged l u x.trace) :
    Staged l u (HandleError x).trace := by
  rw [HandleError_trace]; exact h

theorem Staged.call {α : Type} {l u : Nat} {e : Event} (answer : Except String α)
    (h1 : l ≤ e.phase) (h2 : e.phase ≤ u) : Staged l u (Call.call e answer).trace := by
  unfold Call.call; split <;> exact Staged.single h1 h2

theorem Staged.exec {l u : Nat} {e : Event} (answer : Option String)
    (h1 : l ≤ e.phase) (h2 : e.phase ≤ u) : Staged l u (Call.exec e answer).trace := by
  unfold Call.exec; split <;> exact Staged.single h1 h2

theorem Staged.emit {l u : Nat} {e : Event}
    (h1 : l ≤ e.phase) (h2 : e.phase ≤ u) : Staged l u (Call.emit e).trace :=
  Staged.single h1 h2

theorem getNodeLastBlockId_staged (w : World) (k : Nat) :
    Staged 0 0 (core.getNodeLastBlockId w k).trace := by
  unfold core.getNodeLastBlockId
  simp only [Call.bind_eq, Call.pure_eq]
  refine Staged.andThen (Staged.call _ (by simp [Event.phase]) (by simp [Event.phase]))
    (fun a => ?_) le_rfl le_rfl
  split <;> exact Staged.nil _ _

theorem findOutChasingMode_staged (w : World) (ext : core.Extender) (height : Nat) :
    Staged 0 0 (core.findOutChasingMode w ext height).trace := by
  have hp : ∀ k, Staged 0 0 (HandleError (core.getNodeLastBlockId w k)).trace :=
    fun k => (getNodeLastBlockId_staged w k).handleError
  unfold core.findOutChasingMode
  simp only [Call.bind_eq, Call.pure_eq, Call.ret_andThen]
  split
  · refine Staged.andThen (hp _) (fun a => ?_) le_rfl le_rfl
    split
    · exact Staged.andThen (hp _) (fun a => Staged.nil _ _) le_rfl le_rfl
    · exact Staged.nil _ _
  · split
    · exact Staged.andThen (hp _) (fun a => Staged.nil _ _) le_rfl le_rfl
    · exact Staged.nil _ _

theorem handleAddressesFromResponses_staged (w : World) (b : responses.BlockResponse)
    (ev : responses.EventsResponse) :
    Staged 3 3 (core.handleAddressesFromResponses w b ev).trace :=
  (Staged.exec _ (by simp [Event.phase]) (by simp [Event.phase])).handleError

theorem validator_HandleBlockResponse_staged (w : World) (b : responses.BlockResponse) :
    Staged 4 4 (validator.HandleBlockResponse w b).trace := by
  unfold validator.HandleBlockResponse
  simp only [Call.bind_eq, Call.pure_eq]
  exact Staged.andThen (Staged.exec _ (by simp [Event.phase]) (by simp [Event.phase]))
    (fun a => Staged.nil _ _) le_rfl le_rfl

theorem parseHeight_trace (b : responses.BlockResponse) : (core.parseHeight b).trace = [] := by
  unfold core.parseHeight; split <;> rfl

theorem linkLoop_staged (w : World) (height : Nat) (vs : List responses.BlockValidator)
    (links : List models.BlockValidator) : Staged 6 6 (core.linkLoop w height vs links).trace := by
  induction vs generalizing links with
  | nil => exact Staged.nil _ _
  | cons v rest ih =>
    unfold core.linkLoop
    simp only [Call.bind_eq]
    refine Staged.andThen
      (Staged.call _ (by simp [Event.phase]) (by simp [Event.phase])).handleError
      (fun a => ?_) le_rfl le_rfl
    split
    · exact Staged.nil _ _
    · exact ih _

theorem linkBlockValidator_staged (w : World) (b : responses.BlockResponse) :
    Staged 6 7 (core.linkBlockValidator w b).trace := by
  unfold core.linkBlockValidator
  split
  · exact Staged.nil _ _
  · simp only [Call.bind_eq]
    refine Staged.andThen (l := 6) (m := 6) ?_ (fun h => ?_) le_rfl (by omega)
    · rw [parseHeight_trace]; exact Staged.nil _ _
    · exact Staged.andThen (linkLoop_staged w h _ _)
        (fun a => (Staged.exec _ (by simp [Event.phase]) (by simp [Event.phase])).handleError)
        le_rfl (by omega)

theorem slice_trace {α : Type} (s : List α) (a b : Nat) : (core.slice s a b).trace = [] := by
  unfold core.slice; split <;> rfl

theorem saveTransactions_staged (w : World) (h : Nat) (t : String)
    (txs : List responses.Transaction) : Staged 8 8 (core.saveTransactions w h t txs).trace :=
  (Staged.exec _ (by simp [Event.phase]) (by simp [Event.phase])).handleError

theorem chunkLoop_staged (env : models.ExtenderEnvironment) (w : World) (h : Nat) (t : String)
    (txs : List responses.Transaction) (n i : Nat) :
    Staged 8 8 (core.chunkLoop env w h t txs n i).trace := by
  induction n generalizing i with
  | zero => exact Staged.nil _ _
  | succ n ih =>
    unfold core.chunkLoop
    simp only [Call.bind_eq]
    refine Staged.andThen (l := 8) (m := 8) ?_ (fun c => ?_) le_rfl le_rfl
    · rw [slice_trace]; exact Staged.nil _ _
    · exact Staged.andThen (saveTransactions_staged w h t c) (fun _ => ih _) le_rfl le_rfl

theorem handleTransactions_staged (env : models.ExtenderEnvironment) (w : World)
    (b : responses.BlockResponse) (vs : List models.Validator) :
    Staged 8 8 (core.handleTransactions env w b vs).trace := by
  unfold core.handleTransactions
  simp only [Call.bind_eq]
  refine Staged.andThen (l := 8) (m := 8) ?_ (fun h => chunkLoop_staged env w h _ _ _ _)
    le_rfl le_rfl
  rw [parseHeight_trace]; exact Staged.nil _ _

theorem refreshJob_staged (b : responses.BlockResponse) :
    Staged 9 9 ((core.parseHeight b).andThen fun height =>
      if height % 12 = 0 then Call.emit (.updateStakesJob height)
      else if height > 1 then Call.emit (.updateValidatorsJob height) else Call.ret PUnit.unit).trace := by
  refine Staged.andThen (l := 9) (m := 9) ?_ (fun h => ?_) le_rfl le_rfl
  · rw [parseHeight_trace]; exact Staged.nil _ _
  · split
    · exact Staged.emit (by simp [Event.phase]) (by simp [Event.phase])
    · split
      · exact Staged.emit (by simp [Event.phase]) (by simp [Event.phase])
      · exact Staged.nil _ _

theorem handleBlockResponse_staged (env : models.ExtenderEnvironment) (w : World)
    (b : responses.BlockResponse) : Staged 4 9 (core.handleBlockResponse env w b).trace := by
  unfold core.handleBlockResponse
  simp only [Call.bind_eq, Call.pure_eq]
  refine Staged.andThen (m := 5) ((validator_HandleBlockResponse_staged w b).handleError.mono
    le_rfl (by omega)) (fun vs => ?_) (by omega) (by omega)
  refine Staged.andThen (m := 6)
    ((Staged.exec _ (by simp [Event.phase]) (by simp [Event.phase])).handleError)
    (fun _ => ?_) (by omega) (by omega)
  refine Staged.andThen (m := 8) ((linkBlockValidator_staged w b).mono le_rfl (by omega))
    (fun _ => ?_) (by omega) (by omega)
  split
  · exact Staged.andThen (m := 9) ((handleTransactions_staged env w b vs).mono le_rfl (by omega))
      (fun _ => refreshJob_staged b) (by omega) le_rfl
  · rw [Call.ret_andThen]
    exact (refreshJob_staged b).mono (by omega) le_rfl

theorem ExtractFromTx_staged (env : models.ExtenderEnvironment) (w : World)
    (tx : responses.Transaction) : Staged 10 10 (coin.ExtractFromTx env w tx).trace := by
  unfold coin.ExtractFromTx
  split
  · exact Staged.nil _ _
  · split
    · exact Staged.nil _ _
    · split
      · split
        · exact Staged.nil _ _
        · dsimp only
          split
          · simp only [Call.bind_eq, Call.pure_eq]
            exact Staged.andThen (Staged.emit (by simp [Event.phase]) (by simp [Event.phase]))
              (fun _ => Staged.andThen (Staged.emit (by simp [Event.phase]) (by simp [Event.phase]))
                (fun _ => Staged.nil _ _) le_rfl le_rfl) le_rfl le_rfl
          · exact Staged.nil _ _
      · exact Staged.nil _ _

theorem extractLoop_staged (env : models.ExtenderEnvironment) (w : World)
    (txs : List responses.Transaction) (coins : List models.Coin) :
    Staged 10 10 (coin.extractLoop env w txs coins).trace := by
  induction txs generalizing coins with
  | nil => exact Staged.nil _ _
  | cons tx rest ih =>
    unfold coin.extractLoop
    split
    · exact ih _
    · split
      · exact ih _
      · simp only [Call.bind_eq]
        exact Staged.andThen (ExtractFromTx_staged env w tx) (fun _ => ih _) le_rfl le_rfl

theorem handleCoinsFromTransactions_staged (env : models.ExtenderEnvironment) (w : World)
    (txs : List responses.Transaction) :
    Staged 10 11 (core.handleCoinsFromTransactions env w txs).trace := by
  unfold core.handleCoinsFromTransactions
  split
  · exact Staged.nil _ _
  · simp only [Call.bind_eq, Call.pure_eq]
    refine Staged.andThen (m := 11) ((extractLoop_staged env w txs []).handleError.mono
      le_rfl (by omega)) (fun coins => ?_) (by omega) le_rfl
    split
    · exact Staged.nil _ _
    · exact (Staged.exec _ (by simp [Event.phase]) (by simp [Event.phase])).handleError

/-- The effects of one pass of the main loop occur in the order of their positions. -/
theorem RunIteration_staged (env : models.ExtenderEnvironment) (w : World) (ext : core.Extender)
    (height : Nat) : Staged 0 13 (core.RunIteration env w ext height).trace := by
  unfold core.RunIteration
  simp only [Call.bind_eq, Call.pure_eq]
  refine Staged.andThen (m := 1) ((findOutChasingMode_staged w ext height).mono le_rfl
    (by omega)) (fun ext1 => ?_) (by omega) (by omega)
  refine Staged.andThen (m := 2)
    ((Staged.call (l := 1) (u := 1) _ (by simp [Event.phase])
      (by simp [Event.phase])).handleError.mono le_rfl
      (by omega)) (fun b => ?_) (by omega) (by omega)
  split
  · exact (Staged.andThen (l := 2) (m := 2) (u := 2)
      (Staged.emit (by simp [Event.phase]) (by simp [Event.phase]))
      (fun _ => Staged.nil _ _) le_rfl le_rfl).mono le_rfl (by omega)
  · refine Staged.andThen (m := 3)
      ((Staged.call (l := 2) (u := 2) _ (by simp [Event.phase])
        (by simp [Event.phase])).handleError.mono le_rfl
        (by omega)) (fun ev => ?_) (by omega) (by omega)
    refine Staged.andThen (m := 4) ((handleAddressesFromResponses_staged w b ev).mono le_rfl
      (by omega)) (fun _ => ?_) (by omega) (by omega)
    refine Staged.andThen (m := 10) ((handleBlockResponse_staged env w b).mono le_rfl
      (by omega)) (fun _ => ?_) (by omega) (by omega)
    refine Staged.andThen (m := 12) ((handleCoinsFromTransactions_staged env w _).mono le_rfl
      (by omega)) (fun _ => ?_) (by omega) (by omega)
    split
    · exact Staged.nil _ _
    · split
      · exact Staged.andThen (m := 13)
          ((Staged.emit (l := 12) (u := 12) (by simp [Event.phase])
            (by simp [Event.phase])).mono le_rfl (by omega))
          (fun _ => Staged.andThen (Staged.emit (by simp [Event.phase]) (by simp [Event.phase]))
            (fun _ => Staged.nil _ _) le_rfl le_rfl) (by omega) le_rfl
      · rw [Call.ret_andThen]
        exact (Staged.andThen (l := 13) (m := 13)
          (Staged.emit (by simp [Event.phase]) (by simp [Event.phase]))
          (fun _ => Staged.nil _ _) le_rfl le_rfl).mono (by omega) le_rfl

theorem Staged.before {l u : Nat} {t : List Event} (h : Staged l u t) {p q : Event → Bool}
    (hpq : ∀ e f, p e = true → q f = true → e.phase < f.phase) : Before p q t := by
  intro i j e f u hj hp hq
  by_contra hle
  have hlt := hpq e f hp hq
  obtain ⟨hi1, hi2⟩ := List.getElem?_eq_some.mp u
  obtain ⟨hj1, hj2⟩ := List.getElem?_eq_some.mp hj
  rcases Nat.lt_or_ge j i with hji | hji
  · have := List.pairwise_iff_getElem.mp h.1 j i hj1 hi1 hji
    rw [hi2, hj2] at this
    omega
  · have hij : i = j := by omega
    subst hij
    rw [hi2] at hj2
    subst hj2
    omega

theorem filter_isRefreshJob_of_staged {l u : Nat} {t : List Event} (h : Staged l u t)
    (hhi : u < 9) : t.filter Event.isRefreshJob = [] := by
  rw [List.filter_eq_nil_iff]
  intro e he hj
  have := (h.2 e he).2
  cases e <;> simp [Event.isRefreshJob, Event.phase] at hj this <;> omega

/-- C3: a completed `handleBlockResponse` has parsed the block height `h` and has sent exactly
    one stake-refresh job carrying `h` when `h mod 12 = 0`, otherwise exactly one
    candidate-refresh job carrying `h` when `h > 1`, and no job when `h = 1`; it never sends
    more than one refresh job. -/
theorem handleBlockResponse_refresh_job (env : models.ExtenderEnvironment) (w : World)
    (response : responses.BlockResponse)
    (hok : (core.handleBlockResponse env w response).res = .ok ()) :
    ∃ h, parseUint response.Result.Height = some h ∧
      (h % 12 = 0 → (core.handleBlockResponse env w response).trace.filter Event.isRefreshJob
        = [.updateStakesJob h]) ∧
      (h % 12 ≠ 0 → h > 1 → (core.handleBlockResponse env w response).trace.filter
        Event.isRefreshJob = [.updateValidatorsJob h]) ∧
      (h = 1 → (core.handleBlockResponse env w response).trace.filter Event.isRefreshJob = []) ∧
      ((core.handleBlockResponse env w response).trace.filter Event.isRefreshJob).length ≤ 1 := by
  have key : ∀ (pre : Call Unit), Staged 4 8 pre.trace →
      (pre.andThen fun _ => (core.parseHeight response).andThen fun height =>
        if height % 12 = 0 then Call.emit (.updateStakesJob height)
        else if height > 1 then Call.emit (.updateValidatorsJob height)
        else Call.ret PUnit.unit).res = .ok () →
      ∃ h, parseUint response.Result.Height = some h ∧
        (pre.andThen fun _ => (core.parseHeight response).andThen fun height =>
        if height % 12 = 0 then Call.emit (.updateStakesJob height)
        else if height > 1 then Call.emit (.updateValidatorsJob height)
        else Call.ret PUnit.unit).trace.filter Event.isRefreshJob =
          if h % 12 = 0 then [.updateStakesJob h] else if h > 1 then [.updateValidatorsJob h] else [] := by
    intro pre hpre hres
    obtain ⟨_, -, h2, ht⟩ := Call.andThen_res_ok hres
    obtain ⟨h, h3, -, ht2⟩ := Call.andThen_res_ok h2
    refine ⟨h, ?_, ?_⟩
    · unfold core.parseHeight at h3
      split at h3
      · rename_i h' hp; simp at h3; rw [hp, h3]
      · simp [Call.abort] at h3
    · rw [ht, ht2, parseHeight_trace, List.filter_append, filter_isRefreshJob_of_staged hpre (by omega)]
      split
      · simp [Call.emit, Event.isRefreshJob]
      · split <;> simp [Call.emit, Event.isRefreshJob]
  unfold core.handleBlockResponse at hok ⊢
  simp only [Call.bind_eq, Call.pure_eq] at hok ⊢
  obtain ⟨vs, -, h1, t1⟩ := Call.andThen_res_ok hok
  obtain ⟨_, -, h2, t2⟩ := Call.andThen_res_ok h1
  obtain ⟨_, -, h3, t3⟩ := Call.andThen_res_ok h2
  have hA := filter_isRefreshJob_of_staged
    (validator_HandleBlockResponse_staged w response).handleError (by omega)
  have hB := filter_isRefreshJob_of_staged (Staged.handleError (Staged.exec (l := 5) (u := 5)
    (e := .saveBlock response) (w.SaveBlock response) (by simp [Event.phase])
    (by simp [Event.phase]))) (by omega)
  have hL := filter_isRefreshJob_of_staged (linkBlockValidator_staged w response) (by omega)
  rw [t1, t2, t3]
  simp only [List.filter_append, hA, hB, hL, List.nil_append]
  have hfin : ∀ (c : Call Unit), c.res = .ok () →
      (∃ h, parseUint response.Result.Height = some h ∧ c.trace.filter Event.isRefreshJob =
        if h % 12 = 0 then [.updateStakesJob h] else if h > 1 then [.updateValidatorsJob h]
        else []) →
      ∃ h, parseUint response.Result.Height = some h ∧
        (h % 12 = 0 → c.trace.filter Event.isRefreshJob = [.updateStakesJob h]) ∧
        (h % 12 ≠ 0 → h > 1 → c.trace.filter Event.isRefreshJob = [.updateValidatorsJob h]) ∧
        (h = 1 → c.trace.filter Event.isRefreshJob = []) ∧
        (c.trace.filter Event.isRefreshJob).length ≤ 1 := by
    rintro c - ⟨h, hp, hj⟩
    refine ⟨h, hp, fun h12 => ?_, fun h12 h1 => ?_, fun h1 => ?_, ?_⟩
    · rw [hj, if_pos h12]
    · rw [hj, if_neg h12, if_pos h1]
    · subst h1; rw [hj]; simp
    · rw [hj]
      split
      · simp
      · split <;> simp
  split at h3
  · rename_i hc
    rw [if_pos hc]
    exact hfin _ h3 (key _ ((handleTransactions_staged env w response vs).mono (by omega) le_rfl) h3)
  · rename_i hc
    rw [if_neg hc]
    exact hfin _ h3 (key _ (Staged.nil _ _) h3)

/-! ## Transaction chunks -/

theorem slice_chunk {α : Type} (l : List α) (c i : Nat) (hi : c * i < l.length) :
    core.slice l (c * i) (if c * i + c > l.length then l.length else c * i + c)
      = Call.ret ((l.drop (c * i)).take c) := by
  unfold core.slice
  split
  · rename_i hgt
    rw [if_pos ⟨by omega, le_rfl⟩]
    simp only [Call.pure_eq]
    congr 1
    rw [List.take_of_length_le (le_refl _), List.take_of_length_le]
    simp; omega
  · rename_i hgt
    rw [if_pos ⟨by omega, by omega⟩]
    simp only [Call.pure_eq]
    congr 1
    rw [List.drop_take]
    congr 1; omega

theorem chunkLoop_spec (env : models.ExtenderEnvironment) (w : World) (h : Nat) (t : String)
    (txs : List responses.Transaction)
    (hsave : ∀ chunk, w.HandleTransactionsFromBlockResponse h t chunk = none) :
    ∀ k i, (k = 0 ∨ env.TxChunkSize * (i + k - 1) < txs.length) →
      (core.chunkLoop env w h t txs k i).res = .ok () ∧
      dispatchedChunks (core.chunkLoop env w h t txs k i).trace =
        (List.range' i k).map (fun j => (txs.drop (env.TxChunkSize * j)).take env.TxChunkSize) := by
  intro k
  induction k with
  | zero => intro i _; simp [core.chunkLoop, dispatchedChunks]
  | succ k ih =>
    intro i hk
    have hlt : env.TxChunkSize * (i + k) < txs.length := by
      rcases hk with hk | hk
      · omega
      · simpa using hk
    have hi : env.TxChunkSize * i < txs.length :=
      lt_of_le_of_lt (Nat.mul_le_mul_left _ (Nat.le_add_right i k)) hlt
    have hnext : k = 0 ∨ env.TxChunkSize * (i + 1 + k - 1) < txs.length := by
      right
      have : i + 1 + k - 1 = i + k := by omega
      rw [this]; exact hlt
    obtain ⟨ih1, ih2⟩ := ih (i + 1) hnext
    unfold core.chunkLoop
    simp only [Call.bind_eq]
    rw [slice_chunk txs _ i hi, Call.ret_andThen]
    have hs : core.saveTransactions w h t ((txs.drop (env.TxChunkSize * i)).take env.TxChunkSize) =
        ⟨[.saveTransactions h t ((txs.drop (env.TxChunkSize * i)).take env.TxChunkSize)],
          .ok ()⟩ := by
      simp [core.saveTransactions, hsave, Call.exec, HandleError]
    rw [Call.andThen_ok _ (by rw [hs])]
    refine ⟨ih1, ?_⟩
    rw [List.range'_succ]
    simp only [hs, dispatchedChunks, List.filterMap_append, List.map_cons] at ih2 ⊢
    rw [ih2]
    simp

theorem chunks_flatten {α : Type} (l : List α) (c : Nat) :
    ∀ k i, ((List.range' i k).map (fun j => (l.drop (c * j)).take c)).flatten
      = (l.drop (c * i)).take (c * k) := by
  intro k
  induction k with
  | zero => intro i; simp
  | succ k ih =>
    intro i
    rw [List.range'_succ, List.map_cons, List.flatten_cons, ih (i + 1)]
    have h1 : c * (k + 1) = c + c * k := by ring
    have h2 : c * (i + 1) = c * i + c := by ring
    rw [h1, List.take_add, List.drop_drop, h2]

theorem chunksCount_last (n c : Nat) (hc : 0 < c) (hk : 0 < core.chunksCount n c) :
    c * (core.chunksCount n c - 1) < n := by
  unfold core.chunksCount at *
  have h1 : c * ((n + c - 1) / c) ≤ n + c - 1 := Nat.mul_div_le _ _
  have h2 : c * ((n + c - 1) / c - 1) = c * ((n + c - 1) / c) - c := by
    rw [Nat.mul_sub, Nat.mul_one]
  have h3 : c ≤ c * ((n + c - 1) / c) := Nat.le_mul_of_pos_right c hk
  omega

theorem chunksCount_cover (n c : Nat) (hc : 0 < c) : n ≤ c * core.chunksCount n c := by
  unfold core.chunksCount
  have := Nat.lt_mul_div_succ (n + c - 1) hc
  rw [Nat.mul_add, Nat.mul_one] at this
  omega

theorem chunksCount_eq_ceil (n c : Nat) (hc : 0 < c) :
    core.chunksCount n c = ⌈(n : ℚ) / (c : ℚ)⌉₊ := by
  have hcq : (0 : ℚ) < (c : ℚ) := by exact_mod_cast hc
  apply le_antisymm
  · rcases Nat.eq_zero_or_pos (core.chunksCount n c) with h0 | hpos
    · omega
    · have hlast := chunksCount_last n c hc hpos
      have : core.chunksCount n c - 1 < ⌈(n : ℚ) / (c : ℚ)⌉₊ := by
        rw [Nat.lt_ceil, lt_div_iff₀ hcq]
        exact_mod_cast (by rw [Nat.mul_comm]; exact hlast :
          (core.chunksCount n c - 1) * c < n)
      omega
  · rw [Nat.ceil_le, div_le_iff₀ hcq]
    exact_mod_cast (by rw [Nat.mul_comm]; exact chunksCount_cover n c hc :
      n ≤ core.chunksCount n c * c)

/-- C4: for a chunk size `c > 0`, `handleTransactions` hands the transaction list of length `n`
    to `saveTransactions` in exactly `ceil(n / c)` slices, each non-empty and of length at most
    `c`, all but the last of length exactly `c`, whose concatenation in call order is the list. -/
theorem handleTransactions_chunks (env : models.ExtenderEnvironment) (w : World)
    (response : responses.BlockResponse) (validators : List models.Validator) (h : Nat)
    (hc : 0 < env.TxChunkSize) (hh : parseUint response.Result.Height = some h)
    (hsave : ∀ chunk,
      w.HandleTransactionsFromBlockResponse h response.Result.Time chunk = none) :
    (core.handleTransactions env w response validators).res = .ok () ∧
    (dispatchedChunks (core.handleTransactions env w response validators).trace).length
      = ⌈(response.Result.Transactions.length : ℚ) / (env.TxChunkSize : ℚ)⌉₊ ∧
    (∀ s ∈ dispatchedChunks (core.handleTransactions env w response validators).trace,
      s ≠ [] ∧ s.length ≤ env.TxChunkSize) ∧
    (∀ j (hj : j + 1 <
        (dispatchedChunks (core.handleTransactions env w response validators).trace).length),
      ((dispatchedChunks (core.handleTransactions env w response validators).trace)[j]).length
        = env.TxChunkSize) ∧
    (dispatchedChunks (core.handleTransactions env w response validators).trace).flatten
      = response.Result.Transactions := by
  have hk : core.chunksCount response.Result.Transactions.length env.TxChunkSize = 0 ∨
      env.TxChunkSize * (0 + core.chunksCount response.Result.Transactions.length env.TxChunkSize - 1) < response.Result.Transactions.length := by
    rcases Nat.eq_zero_or_pos (core.chunksCount response.Result.Transactions.length env.TxChunkSize) with h0 | hpos
    · exact Or.inl h0
    · right; rw [Nat.zero_add]; exact chunksCount_last _ _ hc hpos
  obtain ⟨hres, htr⟩ := chunkLoop_spec env w h response.Result.Time response.Result.Transactions hsave _ 0 hk
  have hrun : core.handleTransactions env w response validators =
      core.chunkLoop env w h response.Result.Time response.Result.Transactions (core.chunksCount response.Result.Transactions.length env.TxChunkSize) 0 := by
    unfold core.handleTransactions core.parseHeight
    simp only [Call.bind_eq, hh, Call.pure_eq, Call.ret_andThen]
  rw [hrun, htr]
  refine ⟨hres, ?_, ?_, ?_, ?_⟩
  · simp [chunksCount_eq_ceil _ _ hc]
  · intro s hs
    simp only [List.mem_map, List.mem_range'_1] at hs
    obtain ⟨j, ⟨-, hj⟩, rfl⟩ := hs
    have hpos : 0 < core.chunksCount response.Result.Transactions.length env.TxChunkSize := by omega
    have hlast := chunksCount_last response.Result.Transactions.length env.TxChunkSize hc hpos
    have hj' : env.TxChunkSize * j < response.Result.Transactions.length :=
      lt_of_le_of_lt (Nat.mul_le_mul_left _ (by omega)) hlast
    constructor
    · intro hnil
      have := congrArg List.length hnil
      simp at this
      omega
    · exact List.length_take_le _ _
  · intro j hj
    simp only [List.length_map, List.length_range'] at hj
    have hpos : 0 < core.chunksCount response.Result.Transactions.length env.TxChunkSize := by omega
    have hlast := chunksCount_last response.Result.Transactions.length env.TxChunkSize hc hpos
    have hj' : env.TxChunkSize * (j + 1) < response.Result.Transactions.length :=
      lt_of_le_of_lt (Nat.mul_le_mul_left _ (by omega)) hlast
    simp [List.getElem_range']
    rw [Nat.mul_add, Nat.mul_one] at hj'
    omega
  · rw [chunks_flatten, Nat.mul_zero, List.drop_zero]
    exact List.take_of_length_le (chunksCount_cover _ _ hc)

/-! ## Block-validator links -/

theorem linkLoop_spec (w : World) (h : Nat) (vs : List responses.BlockValidator) :
    ∀ links0, (∀ v ∈ vs, ∃ id s, w.FindIdByPk (w.RemovePrefix v.PubKey) = .ok id ∧
        v.Signed = some s) →
      ∃ links, (core.linkLoop w h vs links0).res = .ok (links0 ++ links) ∧
        List.Forall₂ (fun v l => w.FindIdByPk (w.RemovePrefix v.PubKey) = .ok l.ValidatorID ∧
          l.BlockID = h ∧ v.Signed = some l.Signed) vs links ∧
        (core.linkLoop w h vs links0).trace =
          vs.map (fun v => Event.findIdByPk (w.RemovePrefix v.PubKey)) := by
  induction vs with
  | nil => intro links0 _; exact ⟨[], by simp [core.linkLoop], List.Forall₂.nil, by simp [core.linkLoop]⟩
  | cons v rest ih =>
    intro links0 hall
    obtain ⟨id, s, hid, hs⟩ := hall v (List.mem_cons_self _ _)
    obtain ⟨links, h1, h2, h3⟩ := ih (links0 ++ [{ ValidatorID := id, BlockID := h, Signed := s }])
      (fun v' hv' => hall v' (List.mem_cons_of_mem _ hv'))
    refine ⟨{ ValidatorID := id, BlockID := h, Signed := s } :: links, ?_,
      List.Forall₂.cons ⟨hid, rfl, hs⟩ h2, ?_⟩
    · unfold core.linkLoop
      simp only [Call.bind_eq, hid, hs, Call.call, HandleError, Call.andThen]
      rw [h1]; simp
    · unfold core.linkLoop
      simp only [Call.bind_eq, hid, hs, Call.call, HandleError, Call.andThen]
      rw [h3]; simp

/-- C5: `linkBlockValidator` does nothing for a block response of height "1"; for any other
    height, when every validator's id is found and every signed flag is set, the one call of
    `LinkWithValidators` gets exactly one link per validator of the response, in response order,
    with the block height, the id found for the validator's public key and its signed flag. -/
theorem linkBlockValidator_links (w : World) (response : responses.BlockResponse) :
    (response.Result.Height = "1" →
      parseUint response.Result.Height = some 1 ∧
      (core.linkBlockValidator w response).trace = [] ∧
      (core.linkBlockValidator w response).res = .ok ()) ∧
    (response.Result.Height ≠ "1" → ∀ h, parseUint response.Result.Height = some h →
      (∀ v ∈ response.Result.Validators, ∃ id s,
        w.FindIdByPk (w.RemovePrefix v.PubKey) = .ok id ∧ v.Signed = some s) →
      ∃ links,
        List.Forall₂ (fun v l => w.FindIdByPk (w.RemovePrefix v.PubKey) = .ok l.ValidatorID ∧
          l.BlockID = h ∧ v.Signed = some l.Signed) response.Result.Validators links ∧
        linkWrites (core.linkBlockValidator w response).trace = [links] ∧
        (core.linkBlockValidator w response).trace =
          response.Result.Validators.map (fun v => Event.findIdByPk (w.RemovePrefix v.PubKey))
            ++ [.linkWithValidators links]) := by
  constructor
  · intro h1
    unfold core.linkBlockValidator
    rw [if_pos h1, h1]
    exact ⟨by decide, rfl, rfl⟩
  · intro h1 h hh hall
    obtain ⟨links, hres, hrel, htr⟩ := linkLoop_spec w h response.Result.Validators [] hall
    refine ⟨links, hrel, ?_⟩
    have htrace : (core.linkBlockValidator w response).trace =
        response.Result.Validators.map (fun v => Event.findIdByPk (w.RemovePrefix v.PubKey))
          ++ [.linkWithValidators links] := by
      unfold core.linkBlockValidator core.parseHeight
      rw [if_neg h1]
      simp only [Call.bind_eq, hh, Call.pure_eq, Call.ret_andThen]
      rw [Call.andThen_ok _ hres]
      simp only [List.nil_append, HandleError_trace, htr]
      unfold Call.exec
      split <;> rfl
    refine ⟨?_, htrace⟩
    rw [htrace]
    simp [linkWrites, List.filterMap_append, List.filterMap_map]

theorem linkBlockValidator_links_witness :
    (core.linkBlockValidator (sampleWorld "1000" sampleBlock42) (sampleBlock "1" "0" [])).trace = [] ∧
    ∃ links,
      linkWrites (core.linkBlockValidator (sampleWorld "1000" sampleBlock42) sampleBlock42).trace
        = [links] ∧
      links = [⟨2, 42, true⟩, ⟨3, 42, false⟩] := by
  have h1 := ((linkBlockValidator_links (sampleWorld "1000" sampleBlock42)
    (sampleBlock "1" "0" [])).1 rfl).2.1
  obtain ⟨links, -, h2, -⟩ := (linkBlockValidator_links (sampleWorld "1000" sampleBlock42)
    sampleBlock42).2 (by decide) 42 (by decide) (by
      intro v hv
      simp only [sampleBlock42, sampleBlock, List.mem_cons, List.mem_singleton,
        List.not_mem_nil, or_false] at hv
      rcases hv with rfl | rfl
      · exact ⟨2, true, rfl, rfl⟩
      · exact ⟨3, false, rfl, rfl⟩)
  refine ⟨h1, links, h2, ?_⟩
  have h3 : linkWrites (core.linkBlockValidator (sampleWorld "1000" sampleBlock42)
      sampleBlock42).trace = [[⟨2, 42, true⟩, ⟨3, 42, false⟩]] := by decide
  rw [h3] at h2
  exact (List.cons.inj h2).1.symm

/-! ## Create-coin extraction -/

theorem AppendIfMissing_present (slice : List models.Coin) (c : models.Coin)
    (h : ∃ e ∈ slice, e.Symbol = c.Symbol) : coin.AppendIfMissing slice c = slice := by
  unfold coin.AppendIfMissing
  rw [if_pos]
  simpa using h

theorem AppendIfMissing_absent (slice : List models.Coin) (c : models.Coin)
    (h : ∀ e ∈ slice, e.Symbol ≠ c.Symbol) : coin.AppendIfMissing slice c = slice ++ [c] := by
  unfold coin.AppendIfMissing
  rw [if_neg]
  simpa using h

theorem ExtractFromTx_symbol {env : models.ExtenderEnvironment} {w : World}
    {tx : responses.Transaction} {c : models.Coin} (h : (coin.ExtractFromTx env w tx).res = .ok c) :
    ∃ d, tx.IData = .createCoin d ∧ c.Symbol = d.Symbol := by
  unfold coin.ExtractFromTx at h
  split at h
  · simp [Call.fail] at h
  · split at h
    · simp [Call.fail] at h
    · split at h
      · rename_i d hd
        split at h
        · simp [Call.fail] at h
        · refine ⟨d, hd, ?_⟩
          dsimp only at h
          split at h
          · simp [Call.andThen, Call.emit] at h
            rw [← h]
          · simp at h
            rw [← h]
      · simp [Call.abort] at h

theorem isAcceptedCreateCoin_iff (tx : responses.Transaction) :
    isAcceptedCreateCoin tx = true ↔ tx.Type_ = models.TxTypeCreateCoin ∧ tx.Log = none := by
  simp [isAcceptedCreateCoin]

theorem extractLoop_skip (env : models.ExtenderEnvironment) (w : World)
    (tx : responses.Transaction) (rest : List responses.Transaction) (acc : List models.Coin)
    (h : isAcceptedCreateCoin tx = false) :
    coin.extractLoop env w (tx :: rest) acc = coin.extractLoop env w rest acc := by
  have h' : ¬ (tx.Type_ = models.TxTypeCreateCoin ∧ tx.Log = none) := by
    rw [← isAcceptedCreateCoin_iff]; simp [h]
  rw [coin.extractLoop]
  by_cases h1 : tx.Type_ = models.TxTypeCreateCoin
  · have h2 : tx.Log ≠ none := fun hl => h' ⟨h1, hl⟩
    simp [h1, h2]
  · simp [h1]

theorem extractLoop_take (env : models.ExtenderEnvironment) (w : World)
    (tx : responses.Transaction) (rest : List responses.Transaction) (acc : List models.Coin)
    (h : isAcceptedCreateCoin tx = true) :
    coin.extractLoop env w (tx :: rest) acc = (coin.ExtractFromTx env w tx).andThen
      (fun c => coin.extractLoop env w rest (coin.AppendIfMissing acc c)) := by
  obtain ⟨h1, h2⟩ := (isAcceptedCreateCoin_iff tx).mp h
  rw [coin.extractLoop]
  simp [h1, h2]

/-- Transactions that are not accepted create-coin transactions leave no mark on the call. -/
theorem extractLoop_filter (env : models.ExtenderEnvironment) (w : World)
    (txs : List responses.Transaction) : ∀ acc,
    coin.extractLoop env w txs acc = coin.extractLoop env w (txs.filter isAcceptedCreateCoin) acc := by
  induction txs with
  | nil => intro acc; rfl
  | cons tx rest ih =>
    intro acc
    cases h : isAcceptedCreateCoin tx
    · rw [extractLoop_skip env w tx rest acc h, List.filter_cons_of_neg (by simp [h]), ih]
    · rw [extractLoop_take env w tx rest acc h, List.filter_cons_of_pos h,
        extractLoop_take env w tx _ acc h]
      congr 1
      funext c
      exact ih _

theorem extractLoop_res_ok (env : models.ExtenderEnvironment) (w : World)
    (txs : List responses.Transaction) : ∀ acc coins,
    (coin.extractLoop env w txs acc).res = .ok coins →
      coins = (candidateCoins env w txs).foldl coin.AppendIfMissing acc ∧
      List.Forall₂ (fun tx c => (coin.ExtractFromTx env w tx).res = .ok c)
        (txs.filter isAcceptedCreateCoin) (candidateCoins env w txs) := by
  induction txs with
  | nil =>
    intro acc coins h
    simp [coin.extractLoop] at h
    simp [candidateCoins, h]
  | cons tx rest ih =>
    intro acc coins h
    cases ha : isAcceptedCreateCoin tx
    · rw [extractLoop_skip env w tx rest acc ha] at h
      have := ih acc coins h
      simpa [candidateCoins, List.filter_cons_of_neg, ha] using this
    · rw [extractLoop_take env w tx rest acc ha] at h
      obtain ⟨c, hc, h2, -⟩ := Call.andThen_res_ok h
      obtain ⟨h3, h4⟩ := ih _ coins h2
      have hx : extractedCoin env w tx = some c := by simp [extractedCoin, hc]
      constructor
      · simpa [candidateCoins, List.filter_cons_of_pos, ha, hx] using h3
      · have hcons : candidateCoins env w (tx :: rest) = c :: candidateCoins env w rest := by
          simp [candidateCoins, List.filter_cons_of_pos, ha, hx]
        rw [hcons, List.filter_cons_of_pos ha]
        exact List.Forall₂.cons hc h4

theorem extractLoop_ok_of (env : models.ExtenderEnvironment) (w : World)
    (txs : List responses.Transaction) : ∀ acc,
    (∀ tx ∈ txs, isAcceptedCreateCoin tx = true → ∃ c, (coin.ExtractFromTx env w tx).res = .ok c) →
    ∃ coins, (coin.extractLoop env w txs acc).res = .ok coins := by
  induction txs with
  | nil => intro acc _; exact ⟨acc, rfl⟩
  | cons tx rest ih =>
    intro acc hall
    have hrest := fun acc' => ih acc' (fun t ht => hall t (List.mem_cons_of_mem _ ht))
    cases ha : isAcceptedCreateCoin tx
    · rw [extractLoop_skip env w tx rest acc ha]; exact hrest acc
    · obtain ⟨c, hc⟩ := hall tx (List.mem_cons_self _ _) ha
      obtain ⟨coins, hcoins⟩ := hrest (coin.AppendIfMissing acc c)
      refine ⟨coins, ?_⟩
      rw [extractLoop_take env w tx rest acc ha, Call.andThen_ok _ hc]
      exact hcoins

theorem AppendIfMissing_cases (slice : List models.Coin) (c : models.Coin) :
    ((∃ e ∈ slice, e.Symbol = c.Symbol) ∧ coin.AppendIfMissing slice c = slice) ∨
    ((∀ e ∈ slice, e.Symbol ≠ c.Symbol) ∧ coin.AppendIfMissing slice c = slice ++ [c]) := by
  by_cases h : ∃ e ∈ slice, e.Symbol = c.Symbol
  · exact Or.inl ⟨h, AppendIfMissing_present slice c h⟩
  · have h' : ∀ e ∈ slice, e.Symbol ≠ c.Symbol := fun e he hs => h ⟨e, he, hs⟩
    exact Or.inr ⟨h', AppendIfMissing_absent slice c h'⟩

theorem foldl_AppendIfMissing_symbols (cs : List models.Coin) : ∀ (acc : List models.Coin) (s : String),
    (∃ c ∈ cs.foldl coin.AppendIfMissing acc, c.Symbol = s) ↔
      (∃ c ∈ acc, c.Symbol = s) ∨ (∃ c ∈ cs, c.Symbol = s) := by
  induction cs with
  | nil => intro acc s; simp
  | cons c rest ih =>
    intro acc s
    rw [List.foldl_cons, ih]
    rcases AppendIfMissing_cases acc c with ⟨⟨e, he, hes⟩, heq⟩ | ⟨-, heq⟩
    · rw [heq]
      constructor
      · rintro (h | ⟨x, hx, hxs⟩)
        · exact Or.inl h
        · exact Or.inr ⟨x, List.mem_cons_of_mem _ hx, hxs⟩
      · rintro (h | ⟨x, hx, hxs⟩)
        · exact Or.inl h
        · rcases List.mem_cons.mp hx with rfl | hx
          · exact Or.inl ⟨e, he, hes.trans hxs⟩
          · exact Or.inr ⟨x, hx, hxs⟩
    · rw [heq]
      constructor
      · rintro (⟨x, hx, hxs⟩ | ⟨x, hx, hxs⟩)
        · rcases List.mem_append.mp hx with hx | hx
          · exact Or.inl ⟨x, hx, hxs⟩
          · rw [List.mem_singleton] at hx
            subst hx
            exact Or.inr ⟨x, List.mem_cons_self _ _, hxs⟩
        · exact Or.inr ⟨x, List.mem_cons_of_mem _ hx, hxs⟩
      · rintro (⟨x, hx, hxs⟩ | ⟨x, hx, hxs⟩)
        · exact Or.inl ⟨x, List.mem_append_left _ hx, hxs⟩
        · rcases List.mem_cons.mp hx with rfl | hx
          · exact Or.inl ⟨x, List.mem_append_right _ (List.mem_singleton_self _), hxs⟩
          · exact Or.inr ⟨x, hx, hxs⟩

theorem foldl_AppendIfMissing_nodup (cs : List models.Coin) : ∀ (acc : List models.Coin),
    (acc.map (fun c => c.Symbol)).Nodup →
      ((cs.foldl coin.AppendIfMissing acc).map (fun c => c.Symbol)).Nodup := by
  induction cs with
  | nil => intro acc h; simpa using h
  | cons c rest ih =>
    intro acc h
    rw [List.foldl_cons]
    apply ih
    rcases AppendIfMissing_cases acc c with ⟨-, heq⟩ | ⟨hne, heq⟩
    · rw [heq]; exact h
    · rw [heq, List.map_append, List.nodup_append]
      refine ⟨h, by simp, ?_⟩
      intro s hs1 hs2
      simp only [List.map_cons, List.map_nil, List.mem_singleton] at hs2
      obtain ⟨e, he, hes⟩ := List.mem_map.mp hs1
      exact hne e he (hes.trans hs2)

theorem foldl_AppendIfMissing_sublist (cs : List models.Coin) : ∀ (acc : List models.Coin),
    ∃ kept, cs.foldl coin.AppendIfMissing acc = acc ++ kept ∧ kept.Sublist cs := by
  induction cs with
  | nil => intro acc; exact ⟨[], by simp, List.Sublist.slnil⟩
  | cons c rest ih =>
    intro acc
    rw [List.foldl_cons]
    obtain ⟨kept, hk, hs⟩ := ih (coin.AppendIfMissing acc c)
    rcases AppendIfMissing_cases acc c with ⟨-, heq⟩ | ⟨-, heq⟩
    · exact ⟨kept, by rw [hk, heq], hs.cons _⟩
    · exact ⟨c :: kept, by rw [hk, heq]; simp, hs.cons₂ _⟩

theorem foldl_AppendIfMissing_first (cs : List models.Coin) : ∀ (acc : List models.Coin),
    ∀ c ∈ cs.foldl coin.AppendIfMissing acc, c ∈ acc ∨
      ((∀ e ∈ acc, e.Symbol ≠ c.Symbol) ∧
        cs.find? (fun x => decide (x.Symbol = c.Symbol)) = some c) := by
  induction cs with
  | nil => intro acc c hc; exact Or.inl (by simpa using hc)
  | cons x rest ih =>
    intro acc c hc
    rw [List.foldl_cons] at hc
    rcases AppendIfMissing_cases acc x with ⟨⟨e, he, hes⟩, heq⟩ | ⟨hne, heq⟩
    · rw [heq] at hc
      rcases ih acc c hc with h | ⟨h1, h2⟩
      · exact Or.inl h
      · refine Or.inr ⟨h1, ?_⟩
        have hx : x.Symbol ≠ c.Symbol := fun hxc => h1 e he (hes.trans hxc)
        rw [List.find?_cons_of_neg _ (by simpa using hx)]
        exact h2
    · rw [heq] at hc
      rcases ih (acc ++ [x]) c hc with h | ⟨h1, h2⟩
      · rcases List.mem_append.mp h with h | h
        · exact Or.inl h
        · rw [List.mem_singleton] at h
          subst h
          exact Or.inr ⟨hne, by simp⟩
      · refine Or.inr ⟨fun e he => h1 e (List.mem_append_left _ he), ?_⟩
        have hx : x.Symbol ≠ c.Symbol :=
          h1 x (List.mem_append_right _ (List.mem_singleton_self _))
        rw [List.find?_cons_of_neg _ (by simpa using hx)]
        exact h2

/-- C8: when no extraction fails, `ExtractCoinsFromTransactions` returns a coin with symbol `s`
    exactly when the list holds a create-coin transaction with nil log whose typed data has
    symbol `s`; all other transactions can be removed from the list without changing the call. -/
theorem ExtractCoinsFromTransactions_symbols (env : models.ExtenderEnvironment) (w : World)
    (txs : List responses.Transaction)
    (hok : ∀ tx ∈ txs, isAcceptedCreateCoin tx = true →
      ∃ c, (coin.ExtractFromTx env w tx).res = .ok c) :
    ∃ coins, (coin.ExtractCoinsFromTransactions env w txs).res = .ok coins ∧
      (∀ s, (∃ c ∈ coins, c.Symbol = s) ↔
        ∃ tx ∈ txs, tx.Type_ = models.TxTypeCreateCoin ∧ tx.Log = none ∧
          ∃ d, tx.IData = .createCoin d ∧ d.Symbol = s) ∧
      coin.ExtractCoinsFromTransactions env w txs =
        coin.ExtractCoinsFromTransactions env w (txs.filter isAcceptedCreateCoin) := by
  obtain ⟨coins, hcoins⟩ := extractLoop_ok_of env w txs [] hok
  obtain ⟨hfold, hrel⟩ := extractLoop_res_ok env w txs [] coins hcoins
  refine ⟨coins, hcoins, fun s => ?_, extractLoop_filter env w txs []⟩
  rw [hfold, foldl_AppendIfMissing_symbols]
  constructor
  · rintro (⟨c, hc, -⟩ | ⟨c, hc, hcs⟩)
    · simp at hc
    · simp only [candidateCoins, List.mem_filterMap, List.mem_filter] at hc
      obtain ⟨tx, ⟨htx, hacc⟩, hx⟩ := hc
      have hres : (coin.ExtractFromTx env w tx).res = .ok c := by
        unfold extractedCoin at hx
        split at hx
        · rename_i c' hc'; simp at hx; rw [hc', hx]
        · simp at hx
      obtain ⟨d, hd, hsym⟩ := ExtractFromTx_symbol hres
      obtain ⟨h1, h2⟩ := (isAcceptedCreateCoin_iff tx).mp hacc
      exact ⟨tx, htx, h1, h2, d, hd, by rw [← hsym, hcs]⟩
  · rintro ⟨tx, htx, h1, h2, d, hd, hds⟩
    have hacc : isAcceptedCreateCoin tx = true := (isAcceptedCreateCoin_iff tx).mpr ⟨h1, h2⟩
    obtain ⟨c, hc⟩ := hok tx htx hacc
    obtain ⟨d', hd', hsym⟩ := ExtractFromTx_symbol hc
    rw [hd] at hd'
    cases hd'
    refine Or.inr ⟨c, ?_, by rw [hsym, hds]⟩
    simp only [candidateCoins, List.mem_filterMap, List.mem_filter]
    exact ⟨tx, ⟨htx, hacc⟩, by simp [extractedCoin, hc]⟩

/-- C9: `AppendIfMissing` keeps the slice when the symbol is present and appends otherwise, and
    the coins returned by `ExtractCoinsFromTransactions` have pairwise distinct symbols, are kept
    in transaction order, cover every symbol of an accepted create-coin transaction, and each
    kept coin is the one of the first such transaction with its symbol. -/
theorem ExtractCoinsFromTransactions_distinct (env : models.ExtenderEnvironment) (w : World)
    (txs : List responses.Transaction) (coins : List models.Coin)
    (h : (coin.ExtractCoinsFromTransactions env w txs).res = .ok coins) :
    (∀ slice c, (∃ e ∈ slice, e.Symbol = c.Symbol) → coin.AppendIfMissing slice c = slice) ∧
    (∀ slice c, (∀ e ∈ slice, e.Symbol ≠ c.Symbol) →
      coin.AppendIfMissing slice c = slice ++ [c]) ∧
    (coins.map (fun c => c.Symbol)).Nodup ∧
    List.Forall₂ (fun tx c => (coin.ExtractFromTx env w tx).res = .ok c)
      (txs.filter isAcceptedCreateCoin) (candidateCoins env w txs) ∧
    coins.Sublist (candidateCoins env w txs) ∧
    (∀ c ∈ candidateCoins env w txs, ∃ c' ∈ coins, c'.Symbol = c.Symbol) ∧
    (∀ c ∈ coins,
      (candidateCoins env w txs).find? (fun x => decide (x.Symbol = c.Symbol)) = some c) := by
  obtain ⟨hfold, hrel⟩ := extractLoop_res_ok env w txs [] coins h
  refine ⟨AppendIfMissing_present, AppendIfMissing_absent, ?_, hrel, ?_, ?_, ?_⟩
  · rw [hfold]; exact foldl_AppendIfMissing_nodup _ [] (by simp)
  · obtain ⟨kept, hk, hs⟩ := foldl_AppendIfMissing_sublist (candidateCoins env w txs) []
    rw [hfold, hk]; simpa using hs
  · intro c hc
    rw [hfold]
    exact (foldl_AppendIfMissing_symbols _ [] c.Symbol).mpr (Or.inr ⟨c, hc, rfl⟩)
  · intro c hc
    rw [hfold] at hc
    rcases foldl_AppendIfMissing_first _ [] c hc with h0 | ⟨-, h1⟩
    · simp at h0
    · exact h1

/-- C10, as the code has it: a create-coin transaction with nil log whose data is nil or whose
    reserve ratio does not parse makes `ExtractCoinsFromTransactions` return that error and no
    coins, whatever follows it in the list; `handleCoinsFromTransactions` then panics in
    `HandleError` and inserts no coin. -/
theorem ExtractCoinsFromTransactions_unparseable (env : models.ExtenderEnvironment) (w : World)
    (before after : List responses.Transaction) (tx : responses.Transaction)
    (hacc : isAcceptedCreateCoin tx = true)
    (hbad : tx.Data = none ∨
      ∃ d, tx.IData = .createCoin d ∧ parseUint d.ConstantReserveRatio = none)
    (hbefore : ∀ t ∈ before, isAcceptedCreateCoin t = true →
      ∃ c, (coin.ExtractFromTx env w t).res = .ok c) :
    ∃ e, (coin.ExtractFromTx env w tx).res = .err e ∧
      (coin.ExtractCoinsFromTransactions env w (before ++ tx :: after)).res = .err e ∧
      (core.handleCoinsFromTransactions env w (before ++ tx :: after)).res = .panic ∧
      ∀ coins, Event.createNewCoins coins ∉
        (core.handleCoinsFromTransactions env w (before ++ tx :: after)).trace := by
  have hlog : tx.Log = none := ((isAcceptedCreateCoin_iff tx).mp hacc).2
  have herr : ∃ e, (coin.ExtractFromTx env w tx).res = .err e := by
    unfold coin.ExtractFromTx
    by_cases hd : tx.Data = none
    · exact ⟨_, by rw [if_pos hd]; rfl⟩
    · rcases hbad with hbad | ⟨d, hdata, hcrr⟩
      · exact absurd hbad hd
      · exact ⟨_, by rw [if_neg hd]; simp only [hlog, hdata, hcrr]; rfl⟩
  obtain ⟨e, he⟩ := herr
  have hloop : ∀ (pre : List responses.Transaction) (acc : List models.Coin),
      (∀ t ∈ pre, isAcceptedCreateCoin t = true →
        ∃ c, (coin.ExtractFromTx env w t).res = .ok c) →
      (coin.extractLoop env w (pre ++ tx :: after) acc).res = .err e := by
    intro pre
    induction pre with
    | nil =>
      intro acc _
      rw [List.nil_append, extractLoop_take env w tx after acc hacc, Call.andThen_err _ he]
    | cons t rest ih =>
      intro acc hall
      have hrest := fun acc' => ih acc' (fun t' ht' => hall t' (List.mem_cons_of_mem _ ht'))
      rw [List.cons_append]
      cases ha : isAcceptedCreateCoin t
      · rw [extractLoop_skip env w t _ acc ha]; exact hrest acc
      · obtain ⟨c, hc⟩ := hall t (List.mem_cons_self _ _) ha
        rw [extractLoop_take env w t _ acc ha, Call.andThen_ok _ hc]
        exact hrest _
  have hex := hloop before [] hbefore
  have hne : ¬ (before ++ tx :: after).length = 0 := by simp
  have hrun : core.handleCoinsFromTransactions env w (before ++ tx :: after) =
      ⟨(coin.ExtractCoinsFromTransactions env w (before ++ tx :: after)).trace, .panic⟩ := by
    unfold core.handleCoinsFromTransactions
    rw [if_neg hne]
    simp only [Call.bind_eq]
    have hp : (HandleError (coin.ExtractCoinsFromTransactions env w (before ++ tx :: after))).res
        = .panic := by
      unfold HandleError coin.ExtractCoinsFromTransactions
      rw [hex]
    rw [Call.andThen_panic _ hp, HandleError_trace]
  refine ⟨e, he, hex, by rw [hrun], ?_⟩
  intro coins hmem
  rw [hrun] at hmem
  have := ((extractLoop_staged env w (before ++ tx :: after) []).2 _ hmem).2
  simp [Event.phase] at this

/-! ## The main loop -/

theorem RunIteration_ok_trace {env : models.ExtenderEnvironment} {w : World} {ext : core.Extender}
    {h : Nat} {b : responses.BlockResponse} {s : core.Extender × Nat}
    (hb : w.GetBlock h = .ok b) (he : b.Error = none)
    (hs : (core.RunIteration env w ext h).res = .ok s) :
    ∃ ev tail, s.2 = incU64 h ∧
      (core.handleBlockResponse env w b).res = .ok () ∧
      (core.RunIteration env w ext h).trace =
        (core.findOutChasingMode w ext h).trace ++ ([.getBlock h] ++ ([.getBlockEvents h] ++
          ([.handleAddresses b ev] ++ ((core.handleBlockResponse env w b).trace ++
            ((core.handleCoinsFromTransactions env w b.Result.Transactions).trace ++ tail))))) := by
  have hget : HandleError (Call.call (.getBlock h) (w.GetBlock h)) = ⟨[.getBlock h], .ok b⟩ := by
    simp [hb, Call.call, HandleError]
  unfold core.RunIteration at hs ⊢
  simp only [Call.bind_eq, Call.pure_eq] at hs ⊢
  obtain ⟨ext1, -, h2, t1⟩ := Call.andThen_res_ok hs
  obtain ⟨b', hb', h3, t2⟩ := Call.andThen_res_ok h2
  rw [hget] at hb'
  simp at hb'
  subst hb'
  rw [if_neg (by simpa using he)] at h3 t2
  obtain ⟨ev, hev, h4, t3⟩ := Call.andThen_res_ok h3
  obtain ⟨_, hadr, h5, t4⟩ := Call.andThen_res_ok h4
  obtain ⟨_, hblk, h6, t5⟩ := Call.andThen_res_ok h5
  obtain ⟨_, -, h7, t6⟩ := Call.andThen_res_ok h6
  have hevt : (HandleError (Call.call (.getBlockEvents h) (w.GetBlockEvents h))).trace
      = [.getBlockEvents h] := by
    rw [HandleError_trace]; unfold Call.call; split <;> rfl
  have hadt : (core.handleAddressesFromResponses w b ev).trace = [.handleAddresses b ev] := by
    unfold core.handleAddressesFromResponses
    rw [HandleError_trace]; unfold Call.exec; split <;> rfl
  have hs2 : s.2 = incU64 h := by
    split at h7
    · simp [Call.abort] at h7
    · split at h7 <;>
      · simp [Call.andThen, Call.emit] at h7
        rw [← h7]
  rw [t1, t2, t3, t4, t5, t6, hget, hevt, hadt]
  exact ⟨ev, _, hs2, hblk, rfl⟩

/-- C1: in one pass of the main loop at cursor `h`, a block response with a non-nil `Error`
    ends the pass after the sleep with nothing processed and the cursor still `h`; a response
    without `Error` leaves the cursor at `h + 1` when the pass completes. -/
theorem RunIteration_cursor (env : models.ExtenderEnvironment) (w : World) (ext : core.Extender)
    (h : Nat) (hh : h + 1 < 2 ^ 64) (b : responses.BlockResponse) (hb : w.GetBlock h = .ok b) :
    (b.Error ≠ none → ∀ ext1, (core.findOutChasingMode w ext h).res = .ok ext1 →
      (core.RunIteration env w ext h).res = .ok (ext1, h) ∧
      (core.RunIteration env w ext h).trace =
        (core.findOutChasingMode w ext h).trace ++ [.getBlock h, .sleep2s]) ∧
    (b.Error = none → ∀ s, (core.RunIteration env w ext h).res = .ok s → s.2 = h + 1) := by
  have hget : HandleError (Call.call (.getBlock h) (w.GetBlock h)) = ⟨[.getBlock h], .ok b⟩ := by
    simp [hb, Call.call, HandleError]
  constructor
  · intro he ext1 h1
    unfold core.RunIteration
    simp only [Call.bind_eq, Call.pure_eq]
    rw [Call.andThen_ok _ h1, hget]
    simp [Call.andThen, he, Call.emit]
  · intro he s hs
    obtain ⟨_, _, h2, -, -⟩ := RunIteration_ok_trace hb he hs
    rw [h2]
    exact Nat.mod_eq_of_lt hh

theorem RunIteration_cursor_witness :
    42 + 1 < 2 ^ 64 ∧
    (core.RunIteration sampleEnv (sampleWorld "1000" sampleBlock42) ⟨true, 1000⟩ 42).res
      = .ok (⟨true, 1000⟩, 42 + 1) ∧
    (core.RunIteration sampleEnv (sampleWorld "1000" sampleErrorBlock) ⟨true, 1000⟩ 42).res
      = .ok (⟨true, 1000⟩, 42) := by
  have h1 := (RunIteration_cursor sampleEnv (sampleWorld "1000" sampleBlock42) ⟨true, 1000⟩ 42
    (by decide) sampleBlock42 rfl).2 rfl (⟨true, 1000⟩, 43) rfl
  have h2 := ((RunIteration_cursor sampleEnv (sampleWorld "1000" sampleErrorBlock) ⟨true, 1000⟩
    42 (by decide) sampleErrorBlock rfl).1 (by decide) ⟨true, 1000⟩ rfl).1
  exact ⟨by decide, rfl, h2⟩

/-- C2, the claimed order fails: in a pass over a block with one create-coin transaction the
    transaction chunk is dispatched before the new coin is inserted. -/
theorem RunIteration_order_counterexample :
    (core.RunIteration sampleEnv (sampleWorld "1000" sampleBlock42) ⟨true, 1000⟩ 42).res
      = .ok (⟨true, 1000⟩, 43) ∧
    ¬ Before Event.isCoinCreate Event.isTxDispatch
      (core.RunIteration sampleEnv (sampleWorld "1000" sampleBlock42) ⟨true, 1000⟩ 42).trace := by
  refine ⟨rfl, fun hbefore => ?_⟩
  have := hbefore 12 8
    (.createNewCoins [⟨50, "1000", "500", "ACME", "ACME", "1", "1000", "1000", "500", "1", 0⟩])
    (.saveTransactions 42 "t" [sampleTx 5 "ACME" "50" none]) rfl rfl rfl rfl
  omega

/-- C2, as the code has it: in every pass of the main loop address handling comes before the
    block header and block-validator links, these before every transaction chunk dispatch, and
    every transaction chunk dispatch before create-coin extraction and insert; a completed pass
    over a fetched block has handled the addresses and stored the block. -/
theorem RunIteration_effect_order (env : models.ExtenderEnvironment) (w : World)
    (ext : core.Extender) (height : Nat) :
    Before Event.isAddressHandling Event.isBlockAndLinks
      (core.RunIteration env w ext height).trace ∧
    Before Event.isBlockAndLinks Event.isTxDispatch (core.RunIteration env w ext height).trace ∧
    Before Event.isTxDispatch Event.isCoinCreate (core.RunIteration env w ext height).trace ∧
    (∀ b s, w.GetBlock height = .ok b → b.Error = none →
      (core.RunIteration env w ext height).res = .ok s →
      (∃ ev, Event.handleAddresses b ev ∈ (core.RunIteration env w ext height).trace) ∧
      Event.saveBlock b ∈ (core.RunIteration env w ext height).trace) := by
  have hst := RunIteration_staged env w ext height
  refine ⟨hst.before ?_, hst.before ?_, hst.before ?_, ?_⟩
  · intro e f he hf
    cases e <;> cases f <;> simp_all [Event.isAddressHandling, Event.isBlockAndLinks, Event.phase]
  · intro e f he hf
    cases e <;> cases f <;> simp_all [Event.isBlockAndLinks, Event.isTxDispatch, Event.phase]
  · intro e f he hf
    cases e <;> cases f <;> simp_all [Event.isTxDispatch, Event.isCoinCreate, Event.phase]
  · intro b s hb he hs
    obtain ⟨ev, tail, -, hblk, htr⟩ := RunIteration_ok_trace hb he hs
    have hsave : Event.saveBlock b ∈ (core.handleBlockResponse env w b).trace := by
      unfold core.handleBlockResponse at hblk ⊢
      simp only [Call.bind_eq, Call.pure_eq] at hblk ⊢
      obtain ⟨vs, -, h1, t1⟩ := Call.andThen_res_ok hblk
      obtain ⟨_, -, -, t2⟩ := Call.andThen_res_ok h1
      have : (Call.exec (.saveBlock b) (w.SaveBlock b)).trace = [.saveBlock b] := by
        unfold Call.exec; split <;> rfl
      rw [t1, t2]
      simp only [HandleError_trace, this]
      simp
    rw [htr]
    exact ⟨⟨ev, by simp⟩, by simp [hsave]⟩

theorem handleBlockResponse_refresh_job_witness :
    (core.handleBlockResponse sampleEnv (sampleWorld "1000" sampleBlock42)
      (sampleBlock "24" "0" [])).res = .ok () ∧
    (core.handleBlockResponse sampleEnv (sampleWorld "1000" sampleBlock42)
      (sampleBlock "24" "0" [])).trace.filter Event.isRefreshJob = [.updateStakesJob 24] := by
  obtain ⟨h, hp, h12, -, -, -⟩ := handleBlockResponse_refresh_job sampleEnv
    (sampleWorld "1000" sampleBlock42) (sampleBlock "24" "0" []) rfl
  have h24 : h = 24 := by
    have : parseUint (sampleBlock "24" "0" []).Result.Height = some 24 := by decide
    rw [this] at hp
    exact (Option.some.inj hp).symm
  subst h24
  exact ⟨rfl, h12 (by decide)⟩

theorem handleTransactions_chunks_witness :
    0 < sampleEnv.TxChunkSize ∧
    dispatchedChunks (core.handleTransactions sampleEnv (sampleWorld "1000" sampleBlock42)
      (sampleBlock "42" "3" [sampleTx 1 "A" "1" none, sampleTx 1 "B" "1" none,
        sampleTx 1 "C" "1" none]) []).trace
      = [[sampleTx 1 "A" "1" none, sampleTx 1 "B" "1" none], [sampleTx 1 "C" "1" none]] ∧
    (dispatchedChunks (core.handleTransactions sampleEnv (sampleWorld "1000" sampleBlock42)
      (sampleBlock "42" "3" [sampleTx 1 "A" "1" none, sampleTx 1 "B" "1" none,
        sampleTx 1 "C" "1" none]) []).trace).flatten
      = [sampleTx 1 "A" "1" none, sampleTx 1 "B" "1" none, sampleTx 1 "C" "1" none] :=
  ⟨by decide, by decide,
    (handleTransactions_chunks sampleEnv (sampleWorld "1000" sampleBlock42)
      (sampleBlock "42" "3" [sampleTx 1 "A" "1" none, sampleTx 1 "B" "1" none,
        sampleTx 1 "C" "1" none]) [] 42 (by decide) (by decide) (fun _ => rfl)).2.2.2.2⟩

/-! ## Chasing mode -/

/-- C6, the claimed equivalence fails: with `chasingMode` false before the call the flag stays
    false although the cached tip is 999 blocks ahead of the height. -/
theorem findOutChasingMode_flag_counterexample :
    ∃ ext', (core.findOutChasingMode (sampleWorld "1000" sampleBlock42) ⟨false, 1000⟩ 1).res
      = .ok ext' ∧
    ¬ (ext'.chasingMode = true ↔ ext'.currentNodeHeight - 1 > core.ChasingModDiff) :=
  ⟨⟨false, 1000⟩, rfl, by decide⟩

/-- C6, as the code has it: after `findOutChasingMode(height)` returns, a flag that was true
    before the call is true exactly when the `uint64` difference of the cached tip after the call
    and the height exceeds 2, and a flag that was false before the call is still false. -/
theorem findOutChasingMode_flag (w : World) (ext : core.Extender) (height : Nat)
    (ext' : core.Extender) (h : (core.findOutChasingMode w ext height).res = .ok ext') :
    (ext.chasingMode = true →
      (ext'.chasingMode = true ↔ subU64 ext'.currentNodeHeight height > core.ChasingModDiff)) ∧
    (ext.chasingMode = false → ext'.chasingMode = false) := by
  unfold core.findOutChasingMode at h
  simp only [Call.bind_eq, Call.pure_eq, Call.ret_andThen] at h
  split at h
  · obtain ⟨tip, -, h2, -⟩ := Call.andThen_res_ok h
    split at h2
    · rename_i hc
      obtain ⟨tip2, -, h4, -⟩ := Call.andThen_res_ok h2
      simp at h4 hc
      subst h4
      simp [hc.1]
    · rename_i hc
      simp at h2 hc
      subst h2
      constructor
      · intro ht; simpa [ht] using hc ht
      · intro hf; simpa using hf
  · split at h
    · rename_i hc
      obtain ⟨tip2, -, h4, -⟩ := Call.andThen_res_ok h
      simp at h4 hc
      subst h4
      simp [hc.1]
    · rename_i hc
      simp at h hc
      subst h
      constructor
      · intro ht; simpa [ht] using hc ht
      · intro hf; simpa using hf

theorem findOutChasingMode_flag_witness :
    (core.findOutChasingMode (sampleWorld "1000" sampleBlock42) core.NewExtender 1).res
      = .ok ⟨true, 1000⟩ ∧
    ((true = true) ↔ subU64 1000 1 > core.ChasingModDiff) :=
  ⟨rfl, (findOutChasingMode_flag (sampleWorld "1000" sampleBlock42) core.NewExtender 1
    ⟨true, 1000⟩ rfl).1 rfl⟩

/-- C7, the first expectation of scenario S4 fails: at local height 999 with cached and polled
    tip 1000 the gap is 1, and `chasingMode` is false after the call. -/
theorem scenarioS4_counterexample :
    (core.findOutChasingMode (sampleWorld "1000" sampleBlock42) ⟨true, 1000⟩ 999).res
      = .ok ⟨false, 1000⟩ := rfl

/-- C7, as the code has it: started in chasing mode with tip 1000, the call at local height 999
    with polled tip 1000 leaves `chasingMode` false and the cached tip 1000; the call at local
    height 1001 from that state asks the node nothing, whatever tip the node would report, and
    leaves `chasingMode` false. -/
theorem scenarioS4 (w1 w2 : World) (h1 : ∀ k, w1.GetStatus k = .ok ⟨"1000"⟩) :
    (core.findOutChasingMode w1 ⟨true, 1000⟩ 999).res = .ok ⟨false, 1000⟩ ∧
    (core.findOutChasingMode w2 ⟨false, 1000⟩ 1001).res = .ok ⟨false, 1000⟩ ∧
    (core.findOutChasingMode w2 ⟨false, 1000⟩ 1001).trace = [] := by
  refine ⟨?_, ?_, ?_⟩
  · have hp : parseUint "1000" = some 1000 := by decide
    simp [core.findOutChasingMode, core.getNodeLastBlockId, h1, Call.call, HandleError,
      Call.andThen, hp, subU64, core.ChasingModDiff]
  · simp [core.findOutChasingMode]
  · simp [core.findOutChasingMode]

theorem scenarioS4_witness :
    (∀ k, (sampleWorld "1000" sampleBlock42).GetStatus k = .ok ⟨"1000"⟩) ∧
    (core.findOutChasingMode (sampleWorld "1000" sampleBlock42) ⟨true, 1000⟩ 999).res
      = .ok ⟨false, 1000⟩ ∧
    (core.findOutChasingMode (sampleWorld "1002" sampleBlock42) ⟨false, 1000⟩ 1001).res
      = .ok ⟨false, 1000⟩ :=
  ⟨fun _ => rfl,
    (scenarioS4 (sampleWorld "1000" sampleBlock42) (sampleWorld "1002" sampleBlock42)
      (fun _ => rfl)).1,
    (scenarioS4 (sampleWorld "1000" sampleBlock42) (sampleWorld "1002" sampleBlock42)
      (fun _ => rfl)).2.1⟩

/-! ## Sample runs of the create-coin extraction -/

theorem ExtractCoinsFromTransactions_symbols_witness :
    ∃ coins, (coin.ExtractCoinsFromTransactions sampleEnv (sampleWorld "1000" sampleBlock42)
        [sampleTx 5 "ACME" "50" none, sampleTx 1 "SEND" "x" none,
          sampleTx 5 "REJ" "50" (some "rejected")]).res = .ok coins ∧
      ((∃ c ∈ coins, c.Symbol = "ACME") ↔
        ∃ tx ∈ [sampleTx 5 "ACME" "50" none, sampleTx 1 "SEND" "x" none,
            sampleTx 5 "REJ" "50" (some "rejected")],
          tx.Type_ = models.TxTypeCreateCoin ∧ tx.Log = none ∧
            ∃ d, tx.IData = .createCoin d ∧ d.Symbol = "ACME") := by
  obtain ⟨coins, h1, h2, -⟩ := ExtractCoinsFromTransactions_symbols sampleEnv
    (sampleWorld "1000" sampleBlock42)
    [sampleTx 5 "ACME" "50" none, sampleTx 1 "SEND" "x" none,
      sampleTx 5 "REJ" "50" (some "rejected")]
    (by
      intro tx htx hacc
      simp only [List.mem_cons, List.mem_singleton, List.not_mem_nil, or_false] at htx
      rcases htx with rfl | rfl | rfl
      · exact ⟨_, rfl⟩
      · exact absurd hacc (by decide)
      · exact absurd hacc (by decide))
  exact ⟨coins, h1, h2 "ACME"⟩

theorem ExtractCoinsFromTransactions_distinct_witness :
    (coin.ExtractCoinsFromTransactions sampleEnv (sampleWorld "1000" sampleBlock42)
      [sampleTx 5 "ACME" "50" none, sampleTx 5 "ACME" "60" none, sampleTx 5 "B" "10" none]).res
      = .ok [⟨50, "1000", "500", "ACME", "ACME", "1", "1000", "1000", "500", "1", 0⟩,
          ⟨10, "1000", "500", "B", "B", "1", "1000", "1000", "500", "1", 0⟩] ∧
    (([⟨50, "1000", "500", "ACME", "ACME", "1", "1000", "1000", "500", "1", 0⟩,
        ⟨10, "1000", "500", "B", "B", "1", "1000", "1000", "500", "1", 0⟩] :
      List models.Coin).map (fun c => c.Symbol)).Nodup :=
  ⟨rfl, (ExtractCoinsFromTransactions_distinct sampleEnv (sampleWorld "1000" sampleBlock42)
    [sampleTx 5 "ACME" "50" none, sampleTx 5 "ACME" "60" none, sampleTx 5 "B" "10" none]
    _ rfl).2.2.1⟩

/-- C10, the claimed skipping fails: a create-coin transaction whose reserve ratio does not
    parse, standing between two valid ones, makes `ExtractCoinsFromTransactions` return the
    parse error and no coins, and `handleCoinsFromTransactions` panic; so does one with nil
    data. -/
theorem ExtractCoinsFromTransactions_unparseable_counterexample :
    (coin.ExtractCoinsFromTransactions sampleEnv (sampleWorld "1000" sampleBlock42)
      [sampleTx 5 "ACME" "50" none, sampleTx 5 "BAD" "x" none, sampleTx 5 "B" "10" none]).res
      = .err "strconv.ParseUint: parsing error" ∧
    (core.handleCoinsFromTransactions sampleEnv (sampleWorld "1000" sampleBlock42)
      [sampleTx 5 "ACME" "50" none, sampleTx 5 "BAD" "x" none, sampleTx 5 "B" "10" none]).res
      = .panic ∧
    (coin.ExtractCoinsFromTransactions sampleEnv (sampleWorld "1000" sampleBlock42)
      [sampleTx 5 "ACME" "50" none, { sampleTx 5 "NIL" "50" none with Data := none }]).res
      = .err "no data for creating a coin" :=
  ⟨rfl, rfl, rfl⟩

theorem ExtractCoinsFromTransactions_unparseable_witness :
    isAcceptedCreateCoin (sampleTx 5 "BAD" "x" none) = true ∧
    ∃ e, (coin.ExtractFromTx sampleEnv (sampleWorld "1000" sampleBlock42)
        (sampleTx 5 "BAD" "x" none)).res = .err e ∧
      (coin.ExtractCoinsFromTransactions sampleEnv (sampleWorld "1000" sampleBlock42)
        ([sampleTx 5 "ACME" "50" none] ++ sampleTx 5 "BAD" "x" none ::
          [sampleTx 5 "B" "10" none])).res = .err e := by
  obtain ⟨e, h1, h2, -, -⟩ := ExtractCoinsFromTransactions_unparseable sampleEnv
    (sampleWorld "1000" sampleBlock42) [sampleTx 5 "ACME" "50" none] [sampleTx 5 "B" "10" none]
    (sampleTx 5 "BAD" "x" none) (by decide) (Or.inr ⟨_, rfl, by decide⟩)
    (by
      intro t ht _
      simp only [List.mem_singleton] at ht
      subst ht
      exact ⟨_, rfl⟩)
  exact ⟨by decide, e, h1, h2⟩

/-! ## Chasing mode: leaving it for good, and the wrapping gap -/

theorem RunIteration_state {env : models.ExtenderEnvironment} {w : World} {ext : core.Extender}
    {h : Nat} {s : core.Extender × Nat} (hs : (core.RunIteration env w ext h).res = .ok s) :
    (core.findOutChasingMode w ext h).res = .ok s.1 := by
  unfold core.RunIteration at hs
  simp only [Call.bind_eq, Call.pure_eq] at hs
  obtain ⟨ext1, h1, h2, -⟩ := Call.andThen_res_ok hs
  obtain ⟨b, -, h3, -⟩ := Call.andThen_res_ok h2
  rw [h1]
  congr 1
  split at h3
  · simp [Call.andThen, Call.emit] at h3
    rw [← h3]
  · obtain ⟨ev, -, h4, -⟩ := Call.andThen_res_ok h3
    obtain ⟨_, -, h5, -⟩ := Call.andThen_res_ok h4
    obtain ⟨_, -, h6, -⟩ := Call.andThen_res_ok h5
    obtain ⟨_, -, h7, -⟩ := Call.andThen_res_ok h6
    split at h7
    · simp [Call.abort] at h7
    · split at h7 <;>
      · simp [Call.andThen, Call.emit] at h7
        rw [← h7]

/-- C19: `findOutChasingMode` never turns `chasingMode` from false to true, whatever the height
    and the cached or polled tip; with a non-zero cached tip it then asks the node nothing and
    leaves the state as it is; so a pass of the main loop that starts outside chasing mode ends
    outside chasing mode. -/
theorem findOutChasingMode_stays_false (w : World) (ext : core.Extender) (height : Nat)
    (hf : ext.chasingMode = false) :
    (∀ ext', (core.findOutChasingMode w ext height).res = .ok ext' → ext'.chasingMode = false) ∧
    (ext.currentNodeHeight ≠ 0 → core.findOutChasingMode w ext height = ⟨[], .ok ext⟩) ∧
    (∀ env s, (core.RunIteration env w ext height).res = .ok s → s.1.chasingMode = false) := by
  have h1 : ∀ ext', (core.findOutChasingMode w ext height).res = .ok ext' →
      ext'.chasingMode = false := by
    intro ext' h
    unfold core.findOutChasingMode at h
    simp only [Call.bind_eq, Call.pure_eq, Call.ret_andThen] at h
    split at h
    · obtain ⟨tip, -, h2, -⟩ := Call.andThen_res_ok h
      simp [hf] at h2
      rw [← h2]
    · simp [hf] at h
      rw [← h, hf]
  refine ⟨h1, ?_, fun env s hs => h1 _ (RunIteration_state hs)⟩
  intro hz
  unfold core.findOutChasingMode
  simp only [Call.bind_eq, Call.pure_eq, Call.ret_andThen]
  simp [hz, hf, Call.ret]

theorem findOutChasingMode_stays_false_witness :
    (⟨false, 1000⟩ : core.Extender).chasingMode = false ∧
    core.findOutChasingMode (sampleWorld "5000" sampleBlock42) ⟨false, 1000⟩ 1
      = ⟨[], .ok ⟨false, 1000⟩⟩ :=
  ⟨rfl, (findOutChasingMode_stays_false (sampleWorld "5000" sampleBlock42) ⟨false, 1000⟩ 1
    rfl).2.1 (by decide)⟩

/-- C20: the gap is a `uint64` difference: for a height above the tip it is
    `(tip - height) mod 2^64 = 2^64 - (height - tip)`, which exceeds 2 when
    `height - tip < 2^64 - 2`; with `chasingMode` true the call then asks for no tip refresh and
    the flag stays true, both for a non-zero cached tip and for a tip just polled because the
    cached one was 0. -/
theorem findOutChasingMode_wraps (w : World) (tip height : Nat) (hlt : tip < height)
    (hh : height < 2 ^ 64) (hgap : height - tip < 2 ^ 64 - 2) :
    ((subU64 tip height : Nat) : Int) = ((tip : Int) - (height : Int)) % 2 ^ 64 ∧
    subU64 tip height = 2 ^ 64 - (height - tip) ∧
    subU64 tip height > core.ChasingModDiff ∧
    (tip ≠ 0 → core.findOutChasingMode w ⟨true, tip⟩ height = ⟨[], .ok ⟨true, tip⟩⟩) ∧
    (∀ s, w.GetStatus 0 = .ok s → parseUint s.LatestBlockHeight = some tip →
      core.findOutChasingMode w ⟨true, 0⟩ height = ⟨[.getStatus], .ok ⟨true, tip⟩⟩) := by
  have hsub : subU64 tip height = 2 ^ 64 - (height - tip) := by
    unfold subU64
    rw [Nat.mod_eq_of_lt (lt_trans hlt hh), Nat.mod_eq_of_lt hh]
    have : tip + 2 ^ 64 - height = 2 ^ 64 - (height - tip) := by omega
    rw [this]
    apply Nat.mod_eq_of_lt
    omega
  have hgt : subU64 tip height > core.ChasingModDiff := by
    rw [hsub]; unfold core.ChasingModDiff; omega
  refine ⟨?_, hsub, hgt, ?_, ?_⟩
  · rw [hsub]
    have hn : (2 : Nat) ^ 64 = 18446744073709551616 := by norm_num
    have hi : (2 : Int) ^ 64 = 18446744073709551616 := by norm_num
    rw [hn] at hh hgap ⊢
    rw [hi]
    omega
  · intro hz
    unfold core.findOutChasingMode
    simp only [Call.bind_eq, Call.pure_eq, Call.ret_andThen]
    simp [hz, hgt, Call.ret]
  · intro s hs hp
    have hpoll : HandleError (core.getNodeLastBlockId w 0) = ⟨[.getStatus], .ok tip⟩ := by
      simp [core.getNodeLastBlockId, hs, hp, Call.call, Call.andThen, HandleError, Call.ret]
    unfold core.findOutChasingMode
    simp only [Call.bind_eq, Call.pure_eq, Call.ret_andThen]
    simp [hpoll, Call.andThen, hgt, Call.ret]

theorem findOutChasingMode_wraps_witness :
    1000 < 1001 ∧ 1001 < 2 ^ 64 ∧ 1001 - 1000 < 2 ^ 64 - 2 ∧
    subU64 1000 1001 = 2 ^ 64 - (1001 - 1000) ∧
    core.findOutChasingMode (sampleWorld "1002" sampleBlock42) ⟨true, 1000⟩ 1001
      = ⟨[], .ok ⟨true, 1000⟩⟩ := by
  have h := findOutChasingMode_wraps (sampleWorld "1002" sampleBlock42) 1000 1001 (by decide)
    (by decide) (by decide)
  exact ⟨by decide, by decide, by decide, h.2.1, h.2.2.2.1 (by decide)⟩

/-! ## Repair of coin metadata -/

theorem fixCoinLoop_spec (c : models.Coin) (trxs : List core.CustomTransaction) :
    (core.fixCoinLoop c trxs).res = .ok () ∧
    metaUpdates (core.fixCoinLoop c trxs).trace = trxs.filterMap (fun trx =>
      if trx.Symbol = c.Symbol then some (c.Symbol, trx.TrxID, trx.OwnerAddrID) else none) := by
  induction trxs with
  | nil => exact ⟨rfl, rfl⟩
  | cons trx rest ih =>
    unfold core.fixCoinLoop
    by_cases h : c.Symbol = trx.Symbol
    · simp only [h, ne_eq, not_true_eq_false, if_false, Call.bind_eq]
      rw [Call.andThen_ok _ (rfl : (Call.emit _).res = .ok ())]
      refine ⟨ih.1, ?_⟩
      simp only [Call.emit, metaUpdates, List.filterMap_append] at ih ⊢
      rw [ih.2]
      simp [h]
    · have h' : ¬ trx.Symbol = c.Symbol := fun e => h e.symm
      simp only [ne_eq, h, not_false_eq_true, if_true]
      refine ⟨ih.1, ?_⟩
      rw [ih.2]
      simp [h']

theorem customTransactions_updates (w : Services) (txs : List models.Transaction)
    (c : models.Coin) (hc : c.Symbol ≠ "") :
    (core.customTransactions w txs).filterMap (fun trx =>
      if trx.Symbol = c.Symbol then some (c.Symbol, trx.TrxID, trx.OwnerAddrID) else none)
      = expectedMetaUpdates w txs c := by
  unfold core.customTransactions expectedMetaUpdates
  rw [List.filterMap_map]
  apply List.filterMap_congr
  intro tx _
  simp only [Function.comp]
  cases h : w.Unmarshal tx.Data with
  | none =>
    have : ¬ "" = c.Symbol := fun e => hc e.symm
    simp [this]
  | some obj => simp

theorem fixCoinsLoop_spec (w : Services) (txs : List models.Transaction)
    (coins : List models.Coin) (hsym : ∀ c ∈ coins, c.Symbol ≠ "") :
    (core.fixCoinsLoop (core.customTransactions w txs) coins).res = .ok () ∧
    metaUpdates (core.fixCoinsLoop (core.customTransactions w txs) coins).trace
      = (coins.map (expectedMetaUpdates w txs)).flatten := by
  induction coins with
  | nil => exact ⟨rfl, rfl⟩
  | cons c rest ih =>
    obtain ⟨ih1, ih2⟩ := ih (fun c' hc' => hsym c' (List.mem_cons_of_mem _ hc'))
    obtain ⟨h1, h2⟩ := fixCoinLoop_spec c (core.customTransactions w txs)
    unfold core.fixCoinsLoop
    simp only [Call.bind_eq]
    rw [Call.andThen_ok _ h1]
    refine ⟨ih1, ?_⟩
    simp only [metaUpdates, List.filterMap_append, List.map_cons, List.flatten_cons] at *
    rw [h2, ih2, customTransactions_updates w txs c (hsym c (List.mem_cons_self _ _))]

/-- C17: in one call of `FixBrokenCoinMetaInfo` the `UpdateCoinMetaInfo` calls are, coin by coin
    and in transaction-list order, one call `(c.Symbol, tx.ID, tx.FromAddressID)` for each
    create-coin transaction whose data decodes to the symbol of `c`; with exactly one such
    transaction that is the only call for the coin, with none the coin gets no call. Coin
    symbols are taken to be non-empty. -/
theorem FixBrokenCoinMetaInfo_updates (w : Services) (coins : List models.Coin)
    (txs : List models.Transaction)
    (h1 : w.SelectCoinsWithBrokenMeta = .ok (some coins))
    (h2 : w.SelectCoinsTransaction = .ok (some txs))
    (hsym : ∀ c ∈ coins, c.Symbol ≠ "") :
    (core.FixBrokenCoinMetaInfo w).res = .ok () ∧
    metaUpdates (core.FixBrokenCoinMetaInfo w).trace
      = (coins.map (expectedMetaUpdates w txs)).flatten ∧
    (∀ c ∈ coins, ∀ front tx back obj, txs = front ++ tx :: back →
      w.Unmarshal tx.Data = some obj → obj.Symbol = c.Symbol →
      (∀ tx' ∈ front ++ back, ∀ obj', w.Unmarshal tx'.Data = some obj' →
        obj'.Symbol ≠ c.Symbol) →
      expectedMetaUpdates w txs c = [(c.Symbol, tx.ID, tx.FromAddressID)]) ∧
    (∀ c ∈ coins,
      (∀ tx ∈ txs, ∀ obj, w.Unmarshal tx.Data = some obj → obj.Symbol ≠ c.Symbol) →
      expectedMetaUpdates w txs c = []) := by
  obtain ⟨hres, htr⟩ := fixCoinsLoop_spec w txs coins hsym
  have hrun : core.FixBrokenCoinMetaInfo w = ⟨[.worker .selectCoinsWithBrokenMeta,
      .worker .selectCoinsTransaction] ++
      (core.fixCoinsLoop (core.customTransactions w txs) coins).trace,
      (core.fixCoinsLoop (core.customTransactions w txs) coins).res⟩ := by
    unfold core.FixBrokenCoinMetaInfo
    simp only [Call.bind_eq, h1, h2]
    simp [Call.andThen, Call.emit]
  refine ⟨by rw [hrun]; exact hres, ?_, ?_, ?_⟩
  · rw [hrun]
    simp only [metaUpdates, List.filterMap_append] at htr ⊢
    rw [htr]
    simp
  · intro c _ front tx back obj htxs hun hs hothers
    have hnil : ∀ l : List models.Transaction, (∀ tx' ∈ l, ∀ obj',
        w.Unmarshal tx'.Data = some obj' → obj'.Symbol ≠ c.Symbol) →
        expectedMetaUpdates w l c = [] := by
      intro l hl
      simp only [expectedMetaUpdates, List.filterMap_eq_nil_iff]
      intro tx' htx'
      cases hun' : w.Unmarshal tx'.Data with
      | none => rfl
      | some obj' => simp [hl tx' htx' obj' hun']
    have hsplit : expectedMetaUpdates w txs c = expectedMetaUpdates w front c ++
        (expectedMetaUpdates w [tx] c ++ expectedMetaUpdates w back c) := by
      rw [htxs]
      simp [expectedMetaUpdates, List.filterMap_append, List.filterMap_cons]
      cases w.Unmarshal tx.Data <;> simp
      split <;> simp
    rw [hsplit, hnil front (fun t ht => hothers t (List.mem_append_left _ ht)),
      hnil back (fun t ht => hothers t (List.mem_append_right _ ht))]
    simp [expectedMetaUpdates, hun, hs]
  · intro c _ hnone
    simp only [expectedMetaUpdates, List.filterMap_eq_nil_iff]
    intro tx htx
    cases hun : w.Unmarshal tx.Data with
    | none => rfl
    | some obj => simp [hnone tx htx obj hun]

theorem FixBrokenCoinMetaInfo_updates_witness :
    (core.FixBrokenCoinMetaInfo sampleServices).res = .ok () ∧
    metaUpdates (core.FixBrokenCoinMetaInfo sampleServices).trace = [("ACME", 9, 2)] := by
  obtain ⟨h1, h2, -, -⟩ := FixBrokenCoinMetaInfo_updates sampleServices _ _ rfl rfl (by
    intro c hc
    simp only [List.mem_singleton] at hc
    subst hc
    decide)
  refine ⟨h1, ?_⟩
  rw [h2]
  decide

/-! ## Symbol sets of the coin workers -/

theorem mem_setInsert (m : List String) (k s : String) :
    s ∈ setInsert m k ↔ s ∈ m ∨ s = k := by
  unfold setInsert
  split
  · rename_i h
    constructor
    · exact Or.inl
    · rintro (h' | rfl)
      · exact h'
      · exact h
  · simp

theorem nodup_setInsert (m : List String) (k : String) (h : m.Nodup) :
    (setInsert m k).Nodup := by
  unfold setInsert
  split
  · exact h
  · rename_i hk
    rw [List.nodup_append]
    exact ⟨h, by simp, fun a ha hb => hk (by simp at hb; rw [← hb]; exact ha)⟩

theorem coinsMapLoop_spec (w : Services) (txs : List models.Transaction) :
    ∀ m0, (∀ tx ∈ txs, typedDataMatches tx) →
      ∃ m, coin.coinsMapLoop w txs m0 =
          ⟨txs.map (fun tx => Event.worker (.findSymbolById tx.GasCoinID)), .ok m⟩ ∧
        (m0.Nodup → m.Nodup) ∧
        ∀ s, s ∈ m ↔ s ∈ m0 ∨ ∃ tx ∈ txs, ∃ symbol,
          w.FindSymbolById tx.GasCoinID = .ok symbol ∧ (s = symbol ∨ s ∈ exchangeSymbols tx) := by
  induction txs with
  | nil =>
    intro m0 _
    exact ⟨m0, rfl, id, by simp⟩
  | cons tx rest ih =>
    intro m0 hty
    have hrest : ∀ tx' ∈ rest, typedDataMatches tx' :=
      fun tx' h => hty tx' (List.mem_cons_of_mem _ h)
    obtain ⟨hsell, hbuy, hall⟩ := hty tx (List.mem_cons_self _ _)
    have step : ∀ m1 : List String, ∀ extra : List String,
        (m0.Nodup → m1.Nodup) →
        (∀ s, s ∈ m1 ↔ s ∈ m0 ∨ ∃ symbol, w.FindSymbolById tx.GasCoinID = .ok symbol ∧
          (s = symbol ∨ s ∈ exchangeSymbols tx)) →
        ∃ m, (⟨Event.worker (.findSymbolById tx.GasCoinID) :: (coin.coinsMapLoop w rest m1).trace,
            (coin.coinsMapLoop w rest m1).res⟩ : Call (List String)) =
          ⟨(tx :: rest).map (fun tx => Event.worker (.findSymbolById tx.GasCoinID)), .ok m⟩ ∧
          (m0.Nodup → m.Nodup) ∧
          ∀ s, s ∈ m ↔ s ∈ m0 ∨ ∃ tx' ∈ tx :: rest, ∃ symbol,
            w.FindSymbolById tx'.GasCoinID = .ok symbol ∧
              (s = symbol ∨ s ∈ exchangeSymbols tx') := by
      intro m1 _ hnd hmem
      obtain ⟨m, hm, hn, hs⟩ := ih m1 hrest
      refine ⟨m, by rw [hm]; rfl, fun h => hn (hnd h), fun s => ?_⟩
      rw [hs, hmem]
      simp only [List.mem_cons, exists_eq_or_imp, or_assoc]
    unfold coin.coinsMapLoop
    simp only [Call.bind_eq]
    rw [Call.andThen_ok _ (rfl : (Call.emit _).res = .ok ())]
    simp only [Call.emit, List.singleton_append]
    cases hsym : w.FindSymbolById tx.GasCoinID with
    | error e =>
      simp only []
      exact step m0 [] id (fun s => by simp [hsym])
    | ok symbol =>
      simp only []
      by_cases h1 : tx.Type_ = models.TxTypeSellCoin
      · obtain ⟨buy, sell, hd⟩ := hsell h1
        simp only [h1, if_true, hd]
        refine step _ [] (fun h => nodup_setInsert _ _ (nodup_setInsert _ _
          (nodup_setInsert _ _ h))) (fun s => ?_)
        simp only [mem_setInsert, exchangeSymbols, hsym, or_assoc, h1, hd, true_or, if_true,
          List.mem_cons, List.mem_singleton, List.not_mem_nil, or_false, Except.ok.injEq,
          exists_eq_left']
      · by_cases h2 : tx.Type_ = models.TxTypeBuyCoin
        · obtain ⟨buy, sell, hd⟩ := hbuy h2
          simp only [h1, h2, if_true, if_false, hd]
          refine step _ [] (fun h => nodup_setInsert _ _ (nodup_setInsert _ _
            (nodup_setInsert _ _ h))) (fun s => ?_)
          simp only [mem_setInsert, exchangeSymbols, hsym, or_assoc, h2, hd, true_or, or_true,
            if_true, List.mem_cons, List.mem_singleton, List.not_mem_nil, or_false, Except.ok.injEq,
            exists_eq_left']
        · by_cases h3 : tx.Type_ = models.TxTypeSellAllCoin
          · obtain ⟨buy, sell, hd⟩ := hall h3
            simp only [h1, h2, h3, if_true, if_false, hd]
            refine step _ [] (fun h => nodup_setInsert _ _ (nodup_setInsert _ _
              (nodup_setInsert _ _ h))) (fun s => ?_)
            simp only [mem_setInsert, exchangeSymbols, hsym, or_assoc, h3, hd, or_true, if_true,
              List.mem_cons, List.mem_singleton, List.not_mem_nil, or_false, Except.ok.injEq,
              exists_eq_left']
          · simp only [h1, h2, h3, if_false]
            refine step _ [] (fun h => nodup_setInsert _ _ h) (fun s => ?_)
            simp only [mem_setInsert, exchangeSymbols, hsym, or_assoc, h1, h2, h3, or_self,
              if_false, List.not_mem_nil, or_false, Except.ok.injEq, exists_eq_left']

theorem coinInfoCalls_append (a b : List Event) :
    coinInfoCalls (a ++ b) = coinInfoCalls a ++ coinInfoCalls b := by
  simp [coinInfoCalls, List.filterMap_append]

theorem GetCoinFromNode_calls (env : models.ExtenderEnvironment) (w : Services)
    (symbol : String) :
    coinInfoCalls (coin.GetCoinFromNode env w symbol).attempt.trace = [symbol] ∧
    ∃ r, (coin.GetCoinFromNode env w symbol).attempt.res = .ok r := by
  unfold coin.GetCoinFromNode
  simp only [Call.bind_eq, Call.pure_eq]
  cases h1 : w.GetCoinInfo symbol with
  | error e => simp [Call.call, Call.andThen, Call.attempt, coinInfoCalls]
  | ok resp =>
    cases h2 : w.FindIdBySymbol symbol with
    | error e => simp [Call.call, Call.andThen, Call.attempt, coinInfoCalls]
    | ok id =>
      cases h3 : resp.Error with
      | some m => simp [Call.call, Call.andThen, Call.attempt, Call.fail, coinInfoCalls, h3]
      | none =>
        cases h4 : parseUint resp.Result.Crr with
        | none => simp [Call.call, Call.andThen, Call.attempt, Call.fail, coinInfoCalls, h3, h4]
        | some crr =>
          by_cases h5 : resp.Result.Symbol = env.BaseCoin <;>
            simp [Call.call, Call.andThen, Call.attempt, Call.emit, Call.ret, coinInfoCalls, h3,
              h4, h5]

theorem updateCoinsLoop_calls (env : models.ExtenderEnvironment) (w : Services)
    (symbols : List String) :
    ∀ coins, coinInfoCalls (coin.updateCoinsLoop env w symbols coins).trace
        = symbols.filter (fun s => decide (s ≠ env.BaseCoin)) ∧
      ∃ r, (coin.updateCoinsLoop env w symbols coins).res = .ok r := by
  induction symbols with
  | nil => intro coins; exact ⟨rfl, coins, rfl⟩
  | cons symbol rest ih =>
    intro coins
    unfold coin.updateCoinsLoop
    by_cases hb : symbol = env.BaseCoin
    · simp only [hb, if_true]
      simpa using ih coins
    · simp only [hb, if_false, Call.bind_eq]
      obtain ⟨hc, r, hr⟩ := GetCoinFromNode_calls env w symbol
      rw [Call.andThen_ok _ hr]
      simp only [coinInfoCalls_append, hc]
      have hf : (symbol :: rest).filter (fun s => decide (s ≠ env.BaseCoin))
          = symbol :: rest.filter (fun s => decide (s ≠ env.BaseCoin)) := by
        simp [hb]
      rw [hf]
      cases r with
      | none => simpa using ih coins
      | some c => simpa using ih (coins ++ [c])

theorem UpdateCoinsInfo_calls (env : models.ExtenderEnvironment) (w : Services)
    (symbols : List String) :
    coinInfoCalls (coin.UpdateCoinsInfo env w symbols).trace
      = symbols.filter (fun s => decide (s ≠ env.BaseCoin)) := by
  unfold coin.UpdateCoinsInfo
  obtain ⟨hc, r, hr⟩ := updateCoinsLoop_calls env w symbols []
  simp only [Call.bind_eq]
  rw [Call.andThen_ok _ hr]
  simp only [coinInfoCalls_append, hc]
  split
  · cases w.SaveCoins r <;> simp [Call.exec, coinInfoCalls]
  · simp [coinInfoCalls]

theorem attempt_trace {α : Type} (x : Call α) : x.attempt.trace = x.trace := by
  unfold Call.attempt
  cases x.res <;> rfl

theorem updateCoinsLoop_idle (env : models.ExtenderEnvironment) (w : Services)
    (symbols : List String) (h : ∀ s ∈ symbols, s = env.BaseCoin) :
    ∀ coins, coin.updateCoinsLoop env w symbols coins = ⟨[], .ok coins⟩ := by
  induction symbols with
  | nil => intro coins; rfl
  | cons symbol rest ih =>
    intro coins
    unfold coin.updateCoinsLoop
    rw [if_pos (h symbol (List.mem_cons_self _ _))]
    exact ih (fun s hs => h s (List.mem_cons_of_mem _ hs)) coins

/-- C15, the claimed set fails: a sell transaction whose gas coin lookup fails is skipped as a
    whole; the worker forwards the empty set, which lacks both coins of the sale. -/
theorem UpdateCoinsInfoFromTxsWorker_skips_unknown_gas :
    (coin.UpdateCoinsInfoFromTxsWorker sampleServices [sampleSellUnknownGas]).trace
      = [.worker (.findSymbolById 99), .worker (.sendCoinsMap [])] ∧
    (coin.UpdateCoinsInfoFromTxsWorker sampleServices [sampleSellUnknownGas]).res = .ok () ∧
    exchangeSymbols sampleSellUnknownGas = ["BETA", "ACME"] := by
  refine ⟨?_, ?_, ?_⟩ <;> decide

/-- C15, as the code has it: for a batch whose typed data have the type their code announces,
    `UpdateCoinsInfoFromTxsWorker` asks the symbol of each gas coin in batch order and then
    forwards one set; a symbol is in the set exactly when some transaction of the batch whose
    gas coin symbol was found has it as gas coin symbol or, being of type sell, buy or sell-all,
    as coin to buy or coin to sell. A transaction whose gas coin symbol is not found
    contributes nothing. -/
theorem UpdateCoinsInfoFromTxsWorker_symbols (w : Services) (txs : List models.Transaction)
    (hty : ∀ tx ∈ txs, typedDataMatches tx) :
    ∃ m, coin.UpdateCoinsInfoFromTxsWorker w txs =
        ⟨txs.map (fun tx => Event.worker (.findSymbolById tx.GasCoinID)) ++
          [.worker (.sendCoinsMap m)], .ok ()⟩ ∧
      m.Nodup ∧
      ∀ s, s ∈ m ↔ ∃ tx ∈ txs, ∃ symbol,
        w.FindSymbolById tx.GasCoinID = .ok symbol ∧ (s = symbol ∨ s ∈ exchangeSymbols tx) := by
  obtain ⟨m, hm, hn, hs⟩ := coinsMapLoop_spec w txs [] hty
  refine ⟨m, ?_, hn List.nodup_nil, fun s => ?_⟩
  · unfold coin.UpdateCoinsInfoFromTxsWorker
    simp only [Call.bind_eq]
    rw [Call.andThen_ok (a := m) _ (by rw [hm]), hm]
    rfl
  · rw [hs]
    simp

theorem UpdateCoinsInfoFromTxsWorker_symbols_witness :
    (∀ tx ∈ [sampleSell, sampleSellUnknownGas, sampleSend], typedDataMatches tx) ∧
    ∃ m, coin.UpdateCoinsInfoFromTxsWorker sampleServices
          [sampleSell, sampleSellUnknownGas, sampleSend] =
        ⟨[sampleSell, sampleSellUnknownGas, sampleSend].map
            (fun tx => Event.worker (.findSymbolById tx.GasCoinID)) ++
          [.worker (.sendCoinsMap m)], .ok ()⟩ ∧
      m.Nodup ∧
      ∀ s, s ∈ m ↔ ∃ tx ∈ [sampleSell, sampleSellUnknownGas, sampleSend], ∃ symbol,
        sampleServices.FindSymbolById tx.GasCoinID = .ok symbol ∧
          (s = symbol ∨ s ∈ exchangeSymbols tx) := by
  have hty : ∀ tx ∈ [sampleSell, sampleSellUnknownGas, sampleSend], typedDataMatches tx := by
    intro tx htx
    simp only [List.mem_cons, List.mem_singleton, List.not_mem_nil, or_false] at htx
    rcases htx with rfl | rfl | rfl
    · exact ⟨fun _ => ⟨_, _, rfl⟩, fun h => absurd h (by decide), fun h => absurd h (by decide)⟩
    · exact ⟨fun _ => ⟨_, _, rfl⟩, fun h => absurd h (by decide), fun h => absurd h (by decide)⟩
    · exact ⟨fun h => absurd h (by decide), fun h => absurd h (by decide),
        fun h => absurd h (by decide)⟩
  exact ⟨hty, UpdateCoinsInfoFromTxsWorker_symbols sampleServices _ hty⟩

/-- C16: `UpdateCoinsInfo` asks the node once for each symbol of its argument that is not the
    base coin, in order, and never for the base coin; `UpdateCoinsInfoFromCoinsMap` asks it for
    the symbols of the set other than the base coin, each once, in the visiting order of the
    map, and never for the base coin; on a set or list that is empty or holds only the base
    coin neither performs any call at all: no node call and no store write. -/
theorem UpdateCoinsInfo_skips_base_coin (env : models.ExtenderEnvironment) (w : Services)
    (symbols coinsMap : List String) :
    coinInfoCalls (coin.UpdateCoinsInfo env w symbols).trace
      = symbols.filter (fun s => decide (s ≠ env.BaseCoin)) ∧
    env.BaseCoin ∉ coinInfoCalls (coin.UpdateCoinsInfo env w symbols).trace ∧
    (coinInfoCalls (coin.UpdateCoinsInfoFromCoinsMap env w coinsMap).trace).Perm
      (coinsMap.filter (fun s => decide (s ≠ env.BaseCoin))) ∧
    env.BaseCoin ∉ coinInfoCalls (coin.UpdateCoinsInfoFromCoinsMap env w coinsMap).trace ∧
    (coinsMap.Nodup →
      (coinInfoCalls (coin.UpdateCoinsInfoFromCoinsMap env w coinsMap).trace).Nodup) ∧
    ((∀ s ∈ coinsMap, s = env.BaseCoin) →
      coin.UpdateCoinsInfoFromCoinsMap env w coinsMap = ⟨[], .ok ()⟩) ∧
    ((∀ s ∈ symbols, s = env.BaseCoin) → coin.UpdateCoinsInfo env w symbols = ⟨[], .ok ()⟩) := by
  have hA := UpdateCoinsInfo_calls env w symbols
  have hperm : (coinInfoCalls (coin.UpdateCoinsInfoFromCoinsMap env w coinsMap).trace).Perm
      (coinsMap.filter (fun s => decide (s ≠ env.BaseCoin))) := by
    unfold coin.UpdateCoinsInfoFromCoinsMap
    simp only [setDelete]
    split
    · simp only [Call.bind_eq]
      have hres : ∃ r, (coin.UpdateCoinsInfo env w (w.rangeSymbols
          (coinsMap.filter (fun s => decide (s ≠ env.BaseCoin)))).val).attempt.res = .ok r := by
        unfold coin.UpdateCoinsInfo
        obtain ⟨-, r, hr⟩ := updateCoinsLoop_calls env w (w.rangeSymbols
          (coinsMap.filter (fun s => decide (s ≠ env.BaseCoin)))).val []
        simp only [Call.bind_eq]
        rw [Call.andThen_ok _ hr]
        split
        · cases w.SaveCoins r <;> simp [Call.exec, Call.attempt]
        · simp [Call.attempt, Call.ret]
      obtain ⟨r, hr⟩ := hres
      rw [Call.andThen_ok _ hr]
      simp only [Call.pure_eq, Call.ret_trace, List.append_nil, attempt_trace,
        UpdateCoinsInfo_calls]
      have hp := (w.rangeSymbols (coinsMap.filter (fun s => decide (s ≠ env.BaseCoin)))).property
      have := hp.filter (fun s => decide (s ≠ env.BaseCoin))
      simpa using this
    · rename_i hlen
      have hnil : coinsMap.filter (fun s => decide (s ≠ env.BaseCoin)) = [] := by
        apply List.eq_nil_of_length_eq_zero
        omega
      rw [hnil]
      exact List.Perm.refl _
  refine ⟨hA, ?_, hperm, ?_, ?_, ?_, ?_⟩
  · rw [hA]
    simp
  · intro hmem
    have := hperm.subset hmem
    simp at this
  · intro hnd
    exact hperm.nodup_iff.mpr (hnd.filter _)
  · intro hall
    unfold coin.UpdateCoinsInfoFromCoinsMap
    have hnil : setDelete coinsMap env.BaseCoin = [] := by
      unfold setDelete
      rw [List.filter_eq_nil_iff]
      intro s hs
      simp [hall s hs]
    simp only [hnil]
    rfl
  · intro hall
    unfold coin.UpdateCoinsInfo
    rw [updateCoinsLoop_idle env w symbols hall []]
    rfl

theorem UpdateCoinsInfo_skips_base_coin_witness :
    coinInfoCalls
        (coin.UpdateCoinsInfo sampleEnv sampleServices ["NOAH", "ACME", "NOAH", "BETA"]).trace
      = ["ACME", "BETA"] ∧
    coin.UpdateCoinsInfoFromCoinsMap sampleEnv sampleServices ["NOAH"] = ⟨[], .ok ()⟩ := by
  obtain ⟨h1, -, -, -, -, h6, -⟩ :=
    UpdateCoinsInfo_skips_base_coin sampleEnv sampleServices ["NOAH", "ACME", "NOAH", "BETA"]
      ["NOAH"]
  refine ⟨?_, h6 (by decide)⟩
  rw [h1]
  decide

/-! ## Balance messages -/

theorem mapAppend_grouped (m : List (Nat × List Resource)) (rs : List Resource) (r : Resource)
    (h : GroupedBy m rs) :
    GroupedBy (broadcast.mapAppend m r.Balance.AddressID r) (rs ++ [r]) := by
  obtain ⟨hnd, hent, hkeys⟩ := h
  unfold broadcast.mapAppend
  split
  · rename_i hany
    have hk : r.Balance.AddressID ∈ m.map Prod.fst := by
      simp only [List.any_eq_true, decide_eq_true_eq] at hany
      obtain ⟨e, he, hek⟩ := hany
      exact hek ▸ List.mem_map_of_mem _ he
    have hfst : (m.map (fun e => if e.1 = r.Balance.AddressID then (e.1, e.2 ++ [r]) else e)).map
        Prod.fst = m.map Prod.fst := by
      rw [List.map_map]
      apply List.map_congr_left
      intro e _
      simp only [Function.comp]
      split <;> rfl
    refine ⟨by rw [hfst]; exact hnd, ?_, ?_⟩
    · intro e he
      simp only [List.mem_map] at he
      obtain ⟨e0, he0, rfl⟩ := he
      by_cases hk0 : e0.1 = r.Balance.AddressID
      · simp [hk0, hent e0 he0, List.filter_append]
      · have hk1 : ¬ r.Balance.AddressID = e0.1 := fun h => hk0 h.symm
        simp [hk0, hk1, hent e0 he0, List.filter_append]
    · intro k
      rw [hfst, hkeys k]
      constructor
      · rintro ⟨r0, hr0, rfl⟩
        exact ⟨r0, List.mem_append_left _ hr0, rfl⟩
      · rintro ⟨r0, hr0, rfl⟩
        rcases List.mem_append.mp hr0 with h0 | h0
        · exact ⟨r0, h0, rfl⟩
        · simp only [List.mem_singleton] at h0
          subst h0
          exact (hkeys _).mp hk
  · rename_i hany
    have hk : r.Balance.AddressID ∉ m.map Prod.fst := by
      intro hmem
      apply hany
      simp only [List.mem_map] at hmem
      obtain ⟨e, he, hek⟩ := hmem
      simp only [List.any_eq_true, decide_eq_true_eq]
      exact ⟨e, he, hek⟩
    have hnone : rs.filter (fun r0 => decide (r0.Balance.AddressID = r.Balance.AddressID)) = [] := by
      rw [List.filter_eq_nil_iff]
      intro r0 hr0 heq
      simp only [decide_eq_true_eq] at heq
      exact hk ((hkeys _).mpr ⟨r0, hr0, heq⟩)
    refine ⟨?_, ?_, ?_⟩
    · rw [List.map_append, List.nodup_append]
      refine ⟨hnd, by simp, ?_⟩
      intro a ha hb
      simp only [List.map_cons, List.map_nil, List.mem_singleton] at hb
      exact hk (hb ▸ ha)
    · intro e he
      rcases List.mem_append.mp he with h0 | h0
      · have hne : ¬ r.Balance.AddressID = e.1 := by
          intro heq
          exact hk (heq ▸ List.mem_map_of_mem _ h0)
        simp [hent e h0, List.filter_append, hne]
      · simp only [List.mem_singleton] at h0
        subst h0
        simp [List.filter_append, hnone]
    · intro k
      rw [List.map_append, List.mem_append, hkeys k]
      constructor
      · rintro (⟨r0, hr0, rfl⟩ | h0)
        · exact ⟨r0, List.mem_append_left _ hr0, rfl⟩
        · simp only [List.map_cons, List.map_nil, List.mem_singleton] at h0
          exact ⟨r, by simp, h0.symm⟩
      · rintro ⟨r0, hr0, rfl⟩
        rcases List.mem_append.mp hr0 with h0 | h0
        · exact Or.inl ⟨r0, h0, rfl⟩
        · simp only [List.mem_singleton] at h0
          subst h0
          exact Or.inr (by simp)

theorem collectLoop_spec (w : Services) (balances : List models.Balance)
    (h : ∀ b ∈ balances, ∃ adr, w.FindAddressById b.AddressID = .ok adr) :
    ∀ m rs, GroupedBy m rs →
      ∃ t m1, broadcast.collectLoop w balances m = ⟨t, .ok m1⟩ ∧ publications t = [] ∧
        GroupedBy m1 (rs ++ resolvedBalances w balances) := by
  induction balances with
  | nil =>
    intro m rs hg
    exact ⟨[], m, rfl, rfl, by simpa [resolvedBalances] using hg⟩
  | cons item rest ih =>
    intro m rs hg
    have hrest : ∀ b ∈ rest, ∃ adr, w.FindAddressById b.AddressID = .ok adr :=
      fun b hb => h b (List.mem_cons_of_mem _ hb)
    obtain ⟨adr, hadr⟩ := h item (List.mem_cons_self _ _)
    unfold broadcast.collectLoop
    simp only [Call.bind_eq]
    rw [Call.andThen_ok _ (rfl : (Call.emit _).res = .ok ())]
    cases hsym : w.FindSymbolById item.CoinID with
    | error e =>
      simp only []
      obtain ⟨t, m1, ht, hp, hg1⟩ := ih hrest m rs hg
      refine ⟨_, m1, by rw [ht], by simpa [publications, Call.emit] using hp, ?_⟩
      simpa [resolvedBalances, resourceOf, hsym] using hg1
    | ok symbol =>
      simp only []
      have hcall : HandleError (Call.call (.worker (.findAddressById item.AddressID))
          (w.FindAddressById item.AddressID)) =
          ⟨[.worker (.findAddressById item.AddressID)], .ok adr⟩ := by
        rw [hadr]
        rfl
      rw [hcall, Call.andThen_ok (a := adr) _ rfl]
      obtain ⟨t, m1, ht, hp, hg1⟩ := ih hrest _ _
        (mapAppend_grouped m rs { Balance := item, Address := adr, Symbol := symbol } hg)
      refine ⟨_, m1, by rw [ht], by simpa [publications, Call.emit] using hp, ?_⟩
      simpa [resolvedBalances, resourceOf, hsym, hadr, List.append_assoc] using hg1

theorem publishLoop_spec (w : Services) (entries : List (Nat × List Resource))
    (h : ∀ e ∈ entries, ∃ adr, w.FindAddressById e.1 = .ok adr) :
    (broadcast.publishLoop w entries).res = .ok () ∧
    publications (broadcast.publishLoop w entries).trace
      = entries.map (fun e => ("NOAHx" ++ addressOf w e.1, broadcast.marshalled w e.2)) := by
  induction entries with
  | nil => exact ⟨rfl, rfl⟩
  | cons e rest ih =>
    obtain ⟨adr, hadr⟩ := h e (List.mem_cons_self _ _)
    obtain ⟨h1, h2⟩ := ih (fun e0 he0 => h e0 (List.mem_cons_of_mem _ he0))
    obtain ⟨addressId, items⟩ := e
    unfold broadcast.publishLoop
    have hcall : HandleError (Call.call (.worker (.findAddressById addressId))
        (w.FindAddressById addressId)) = ⟨[.worker (.findAddressById addressId)], .ok adr⟩ := by
      simp only [] at hadr
      rw [hadr]
      rfl
    simp only [Call.bind_eq]
    rw [hcall, Call.andThen_ok (a := adr) _ rfl]
    rw [Call.andThen_ok (a := ()) _ rfl]
    simp only [] at hadr
    refine ⟨h1, ?_⟩
    simp only [Call.emit, List.map_cons, addressOf, hadr]
    simpa [publications] using h2

/-- C18: on a balance list whose address lookups succeed, `PublishBalances` returns and
    publishes one message for each distinct address id that has a balance with a resolved coin
    symbol, in the visiting order of the map: on the channel "NOAHx" followed by the address,
    with the resources of the balances of that address whose symbol was resolved, in input
    order. A balance whose coin symbol is not found is in no message, and an address id all of
    whose balances are left out gets no message. -/
theorem PublishBalances_messages (w : Services) (balances : List models.Balance)
    (h : ∀ b ∈ balances, ∃ adr, w.FindAddressById b.AddressID = .ok adr) :
    (broadcast.PublishBalances w balances).res = .ok () ∧
    ∃ ids : List Nat, ids.Nodup ∧
      (∀ id, id ∈ ids ↔ ∃ b ∈ balances, b.AddressID = id ∧
        ∃ symbol, w.FindSymbolById b.CoinID = .ok symbol) ∧
      publications (broadcast.PublishBalances w balances).trace
        = ids.map (expectedPublication w balances) := by
  obtain ⟨t, m1, ht, hp, hnd, hent, hkeys⟩ :=
    collectLoop_spec w balances h [] [] ⟨List.nodup_nil, by simp, by simp⟩
  simp only [List.nil_append] at hent hkeys
  have hperm := (w.rangeBalances m1).property
  have hres : ∀ r ∈ resolvedBalances w balances, ∃ b ∈ balances, r.Balance = b ∧
      ∃ symbol, w.FindSymbolById b.CoinID = .ok symbol := by
    intro r hr
    simp only [resolvedBalances, List.mem_filterMap] at hr
    obtain ⟨b, hb, hrb⟩ := hr
    refine ⟨b, hb, ?_⟩
    unfold resourceOf at hrb
    cases hs : w.FindSymbolById b.CoinID with
    | error e => simp [hs] at hrb
    | ok symbol =>
      cases ha : w.FindAddressById b.AddressID with
      | error e => simp [hs, ha] at hrb
      | ok adr =>
        simp only [hs, ha, Option.some.injEq] at hrb
        exact ⟨by rw [← hrb], symbol, rfl⟩
  have hkey : ∀ id, id ∈ m1.map Prod.fst ↔ ∃ b ∈ balances, b.AddressID = id ∧
      ∃ symbol, w.FindSymbolById b.CoinID = .ok symbol := by
    intro id
    rw [hkeys id]
    constructor
    · rintro ⟨r, hr, rfl⟩
      obtain ⟨b, hb, hrb, hsym⟩ := hres r hr
      exact ⟨b, hb, by rw [hrb], hsym⟩
    · rintro ⟨b, hb, rfl, symbol, hsym⟩
      obtain ⟨adr, hadr⟩ := h b hb
      refine ⟨{ Balance := b, Address := adr, Symbol := symbol }, ?_, rfl⟩
      simp only [resolvedBalances, List.mem_filterMap]
      exact ⟨b, hb, by simp [resourceOf, hsym, hadr]⟩
  have hfound : ∀ e ∈ (w.rangeBalances m1).val, ∃ adr, w.FindAddressById e.1 = .ok adr := by
    intro e he
    have he1 : e.1 ∈ m1.map Prod.fst := List.mem_map_of_mem _ (hperm.subset he)
    obtain ⟨b, hb, hbe, -⟩ := (hkey e.1).mp he1
    rw [← hbe]
    exact h b hb
  obtain ⟨hr, hpub⟩ := publishLoop_spec w (w.rangeBalances m1).val hfound
  have hrun : broadcast.PublishBalances w balances =
      ⟨t ++ (broadcast.publishLoop w (w.rangeBalances m1).val).trace,
        (broadcast.publishLoop w (w.rangeBalances m1).val).res⟩ := by
    unfold broadcast.PublishBalances
    simp only [Call.bind_eq]
    rw [Call.andThen_ok (a := m1) _ (by rw [ht]), ht]
  refine ⟨by rw [hrun]; exact hr, (w.rangeBalances m1).val.map Prod.fst, ?_, ?_, ?_⟩
  · exact (hperm.map Prod.fst).nodup_iff.mpr hnd
  · intro id
    rw [← hkey id]
    exact (hperm.map Prod.fst).mem_iff
  · rw [hrun]
    have happ : publications (t ++ (broadcast.publishLoop w (w.rangeBalances m1).val).trace)
        = publications t ++ publications (broadcast.publishLoop w (w.rangeBalances m1).val).trace := by
      simp [publications, List.filterMap_append]
    simp only [happ, hp, List.nil_append, hpub, List.map_map]
    apply List.map_congr_left
    intro e he
    simp only [Function.comp, expectedPublication]
    rw [hent e (hperm.subset he)]

theorem PublishBalances_messages_witness :
    (broadcast.PublishBalances sampleServices sampleBalances).res = .ok () ∧
    publications (broadcast.PublishBalances sampleServices sampleBalances).trace
      = [("NOAHxa2", "NOAH;"), ("NOAHxa1", "ACME;BETA;")] := by
  have hfound : ∀ b ∈ sampleBalances,
      ∃ adr, sampleServices.FindAddressById b.AddressID = .ok adr := by
    intro b hb
    simp only [sampleBalances, List.mem_cons, List.mem_singleton, List.not_mem_nil,
      or_false] at hb
    rcases hb with rfl | rfl | rfl | rfl
    · exact ⟨"a1", rfl⟩
    · exact ⟨"a2", rfl⟩
    · exact ⟨"a1", rfl⟩
    · exact ⟨"a2", rfl⟩
  exact ⟨(PublishBalances_messages sampleServices sampleBalances hfound).1, by decide⟩

/-! ## Decimal strings -/

theorem digitChar_spec : ∀ d, d < 10 →
    (Nat.digitChar d).isDigit = true ∧ (Nat.digitChar d).toNat - 48 = d := by
  decide

theorem toDigitsCore_spec (fuel : Nat) : ∀ (n : Nat) (ds : List Char), n < fuel →
    (∀ c ∈ ds, c.isDigit = true) →
    Nat.toDigitsCore 10 fuel n ds ≠ [] ∧
    (∀ c ∈ Nat.toDigitsCore 10 fuel n ds, c.isDigit = true) ∧
    (Nat.toDigitsCore 10 fuel n ds).foldl (fun a c => 10 * a + (c.toNat - 48)) 0
      = ds.foldl (fun a c => 10 * a + (c.toNat - 48)) n := by
  induction fuel with
  | zero => intro n ds h; omega
  | succ fuel ih =>
    intro n ds hn hds
    obtain ⟨hdig, hval⟩ := digitChar_spec (n % 10) (Nat.mod_lt _ (by decide))
    have hds1 : ∀ c ∈ Nat.digitChar (n % 10) :: ds, c.isDigit = true := by
      intro c hc
      rcases List.mem_cons.mp hc with rfl | hc
      · exact hdig
      · exact hds c hc
    rw [Nat.toDigitsCore]
    by_cases h0 : n / 10 = 0
    · simp only [h0, if_true]
      refine ⟨by simp, hds1, ?_⟩
      have hlt : n % 10 = n := Nat.mod_eq_of_lt (by omega)
      simp only [List.foldl_cons, hval, Nat.mul_zero, Nat.zero_add]
      rw [hlt]
    · simp only [h0, if_false]
      obtain ⟨h1, h2, h3⟩ := ih (n / 10) (Nat.digitChar (n % 10) :: ds) (by omega) hds1
      refine ⟨h1, h2, ?_⟩
      rw [h3]
      simp only [List.foldl_cons, hval]
      congr 1
      omega

/-- Reading the decimal string of a natural number gives the number back. -/
theorem decimalValue_toString (n : Nat) : decimalValue (toString n) = some n := by
  obtain ⟨h1, h2, h3⟩ := toDigitsCore_spec (n + 1) n [] (Nat.lt_succ_self n) (by simp)
  have hdata : (toString n).data = Nat.toDigitsCore 10 (n + 1) n [] := rfl
  unfold decimalValue
  rw [hdata]
  split
  · rename_i heq
    exact absurd heq h1
  · rename_i cs hne
    have hall : (Nat.toDigitsCore 10 (n + 1) n []).all Char.isDigit = true := by
      rw [List.all_eq_true]
      exact h2
    simp only [hall, if_true, h3, List.foldl_nil]

/-! ## Stake sums per coin -/

theorem stakeSum_append_one (w : Services) (stakes : List responses.Stake)
    (stake : responses.Stake) (k : Nat) :
    stakeSum w (stakes ++ [stake]) k
      = stakeSum w stakes k + (if inCoin w k stake = true then stakeValue stake else 0) := by
  unfold stakeSum
  rw [List.filter_append, List.map_append, List.sum_append]
  by_cases h : inCoin w k stake = true
  · simp [List.filter_cons, h]
  · simp [List.filter_cons, h]

theorem addStake_spec (w : Services) (m : List (Nat × String)) (stakes : List responses.Stake)
    (stake : responses.Stake) (coinID n : Nat) (hm : StakesSummed w m stakes)
    (hid : w.FindIdBySymbol stake.Coin = .ok coinID) (hval : stake.Value = toString n) :
    ∃ m1, validator.addStake m coinID stake.Value = ⟨[], .ok m1⟩ ∧
      StakesSummed w m1 (stakes ++ [stake]) := by
  obtain ⟨hnd, hkeys, hvals⟩ := hm
  have hv : stakeValue stake = n := by
    unfold stakeValue
    rw [hval, decimalValue_toString]
    rfl
  have hin : ∀ k, inCoin w k stake = true ↔ k = coinID := by
    intro k
    unfold inCoin
    rw [hid]
    simp [eq_comm]
  have hkeys1 : ∀ k, (k ∈ m.map Prod.fst ∨ k = coinID) ↔
      ∃ s ∈ stakes ++ [stake], inCoin w k s = true := by
    intro k
    rw [hkeys k]
    constructor
    · rintro (⟨s, hs, hk⟩ | rfl)
      · exact ⟨s, List.mem_append_left _ hs, hk⟩
      · exact ⟨stake, by simp, (hin _).mpr rfl⟩
    · rintro ⟨s, hs, hk⟩
      rcases List.mem_append.mp hs with h0 | h0
      · exact Or.inl ⟨s, h0, hk⟩
      · simp only [List.mem_singleton] at h0
        subst h0
        exact Or.inr ((hin _).mp hk)
  unfold validator.addStake
  cases hl : m.lookup coinID with
  | none =>
    simp only []
    have hnot : coinID ∉ m.map Prod.fst := by
      intro hmem
      rw [List.lookup_eq_none_iff] at hl
      simp only [List.mem_map] at hmem
      obtain ⟨e, he, hek⟩ := hmem
      have := hl e he
      simp [hek] at this
    have hzero : stakeSum w stakes coinID = 0 := by
      unfold stakeSum
      have : stakes.filter (inCoin w coinID) = [] := by
        rw [List.filter_eq_nil_iff]
        intro s hs hk
        exact hnot ((hkeys coinID).mpr ⟨s, hs, hk⟩)
      rw [this]
      rfl
    refine ⟨_, rfl, ?_, ?_, ?_⟩
    · rw [List.map_append, List.nodup_append]
      refine ⟨hnd, by simp, ?_⟩
      intro a ha hb
      simp only [List.map_cons, List.map_nil, List.mem_singleton] at hb
      exact hnot (hb ▸ ha)
    · intro k
      rw [← hkeys1 k]
      simp
    · intro e he
      rw [stakeSum_append_one]
      rcases List.mem_append.mp he with h0 | h0
      · have hne : e.1 ≠ coinID := by
          intro heq
          exact hnot (heq ▸ List.mem_map_of_mem _ h0)
        have hf : ¬ inCoin w e.1 stake = true := fun h => hne ((hin _).mp h)
        simp only [hf, if_false, Nat.add_zero]
        exact hvals e h0
      · simp only [List.mem_singleton] at h0
        subst h0
        simp only [(hin coinID).mpr rfl, if_true, hzero, Nat.zero_add, hv]
        exact hval
  | some v =>
    simp only []
    rw [List.lookup_eq_some_iff] at hl
    obtain ⟨l1, l2, hml, -⟩ := hl
    have hmem : (coinID, v) ∈ m := by
      rw [hml]
      simp
    have hvv : v = toString (stakeSum w stakes coinID) := hvals _ hmem
    have h1 : utils.ConvertStringToBigInt v = some (stakeSum w stakes coinID) := by
      unfold utils.ConvertStringToBigInt
      rw [hvv, decimalValue_toString]
    have h2 : utils.ConvertStringToBigInt stake.Value = some n := by
      unfold utils.ConvertStringToBigInt
      rw [hval, decimalValue_toString]
    simp only [h1, h2]
    have hfst : (m.map (fun e => if e.1 = coinID then
        (e.1, toString (stakeSum w stakes coinID + n)) else e)).map Prod.fst
        = m.map Prod.fst := by
      rw [List.map_map]
      apply List.map_congr_left
      intro e _
      simp only [Function.comp]
      split <;> rfl
    refine ⟨_, rfl, by rw [hfst]; exact hnd, ?_, ?_⟩
    · intro k
      rw [hfst, ← hkeys1 k]
      constructor
      · exact Or.inl
      · rintro (h | rfl)
        · exact h
        · exact List.mem_map_of_mem _ hmem
    · intro e he
      rw [stakeSum_append_one]
      simp only [List.mem_map] at he
      obtain ⟨e0, he0, rfl⟩ := he
      by_cases hk : e0.1 = coinID
      · simp only [hk, if_true, (hin coinID).mpr rfl, hv]
      · have hf : ¬ inCoin w e0.1 stake = true := fun h => hk ((hin _).mp h)
        simp only [hk, if_false, hf, Nat.add_zero]
        exact hvals e0 he0

theorem Call.andThen_res {α β : Type} {x : Call α} {a : α} (f : α → Call β)
    (h : x.res = .ok a) : (Call.andThen x f).res = (f a).res := by
  rw [Call.andThen_ok f h]

theorem attempt_call_res {α : Type} (e : Event) (answer : Except String α) (a : α)
    (h : answer = .ok a) : (Call.call e answer).attempt.res = .ok (some a) := by
  rw [h]
  rfl

theorem stakeLoop_spec (env : models.ExtenderEnvironment) (w : Services) (id : Nat)
    (stakes : List responses.Stake) :
    ∀ (st : validator.StakeState) (seen : List responses.Stake),
      StakesSummed w st.stakesInCoin seen →
      (∀ stake ∈ stakes, ∃ a, w.FindIdOrCreate (w.RemovePrefixFromAddress stake.Owner) = .ok a) →
      (∀ stake ∈ stakes, ∃ c, w.FindIdBySymbol stake.Coin = .ok c) →
      (∀ stake ∈ stakes, ∃ n : Nat, stake.Value = toString n) →
      ∃ st1, (validator.stakeLoop env w id stakes st).res = .ok st1 ∧
        StakesSummed w st1.stakesInCoin
          (seen ++ stakes.filter (fun stake => decide (stake.Coin ≠ env.BaseCoin))) := by
  induction stakes with
  | nil =>
    intro st seen hs _ _ _
    exact ⟨st, rfl, by simpa using hs⟩
  | cons stake rest ih =>
    intro st seen hs hown hcoin hval
    obtain ⟨a, ha⟩ := hown stake (List.mem_cons_self _ _)
    obtain ⟨c, hc⟩ := hcoin stake (List.mem_cons_self _ _)
    obtain ⟨n, hn⟩ := hval stake (List.mem_cons_self _ _)
    have hown1 := fun s hs => hown s (List.mem_cons_of_mem _ hs)
    have hcoin1 := fun s hs => hcoin s (List.mem_cons_of_mem _ hs)
    have hval1 := fun s hs => hval s (List.mem_cons_of_mem _ hs)
    unfold validator.stakeLoop
    simp only [Call.bind_eq]
    rw [Call.andThen_res _ (attempt_call_res _ _ a ha)]
    simp only []
    rw [Call.andThen_res _ (attempt_call_res _ _ c hc)]
    simp only []
    by_cases hb : stake.Coin = env.BaseCoin
    · simp only [hb, if_true]
      have hf : (stake :: rest).filter (fun stake => decide (stake.Coin ≠ env.BaseCoin))
          = rest.filter (fun stake => decide (stake.Coin ≠ env.BaseCoin)) := by
        simp [List.filter_cons, hb]
      rw [hf]
      exact ih ⟨_, st.stakesInCoin⟩ seen hs hown1 hcoin1 hval1
    · simp only [hb, if_false]
      obtain ⟨m1, hm1, hs1⟩ := addStake_spec w st.stakesInCoin seen stake c n hs hc hn
      rw [Call.andThen_res (a := m1) _ (by rw [hm1])]
      have hf : (stake :: rest).filter (fun stake => decide (stake.Coin ≠ env.BaseCoin))
          = stake :: rest.filter (fun stake => decide (stake.Coin ≠ env.BaseCoin)) := by
        simp [List.filter_cons, hb]
      rw [hf]
      have hseen : seen ++ stake :: rest.filter (fun stake => decide (stake.Coin ≠ env.BaseCoin))
          = (seen ++ [stake]) ++ rest.filter (fun stake => decide (stake.Coin ≠ env.BaseCoin)) := by
        simp
      rw [hseen]
      exact ih ⟨_, m1⟩ (seen ++ [stake]) hs1 hown1 hcoin1 hval1

theorem candidatesLoop_spec (env : models.ExtenderEnvironment) (w : Services)
    (candidates : List responses.Candidate) :
    ∀ (validatorIds : List Nat) (st : validator.StakeState) (seen : List responses.Stake),
      StakesSummed w st.stakesInCoin seen →
      (∀ vlr ∈ candidates, ∃ id, w.FindIdByPkOrCreate (w.RemovePrefix vlr.PubKey) = .ok id) →
      (∀ vlr ∈ candidates, ∀ stake ∈ vlr.Stakes,
        ∃ a, w.FindIdOrCreate (w.RemovePrefixFromAddress stake.Owner) = .ok a) →
      (∀ vlr ∈ candidates, ∀ stake ∈ vlr.Stakes, ∃ c, w.FindIdBySymbol stake.Coin = .ok c) →
      (∀ vlr ∈ candidates, ∀ stake ∈ vlr.Stakes, ∃ n : Nat, stake.Value = toString n) →
      ∃ ids st1, (validator.candidatesLoop env w candidates validatorIds st).res = .ok (ids, st1) ∧
        StakesSummed w st1.stakesInCoin (seen ++ nonBaseStakes env candidates) := by
  induction candidates with
  | nil =>
    intro ids st seen hs _ _ _ _
    exact ⟨ids, st, rfl, by simpa [nonBaseStakes] using hs⟩
  | cons vlr rest ih =>
    intro ids st seen hs hpk hown hcoin hval
    obtain ⟨id, hid⟩ := hpk vlr (List.mem_cons_self _ _)
    unfold validator.candidatesLoop
    simp only [Call.bind_eq]
    rw [Call.andThen_res _ (attempt_call_res _ _ id hid)]
    simp only []
    obtain ⟨st1, hst1, hs1⟩ := stakeLoop_spec env w id vlr.Stakes st seen hs
      (hown vlr (List.mem_cons_self _ _)) (hcoin vlr (List.mem_cons_self _ _))
      (hval vlr (List.mem_cons_self _ _))
    rw [Call.andThen_res _ hst1]
    obtain ⟨ids2, st2, h2, hs2⟩ := ih (ids ++ [id]) st1 _ hs1
      (fun v hv => hpk v (List.mem_cons_of_mem _ hv))
      (fun v hv => hown v (List.mem_cons_of_mem _ hv))
      (fun v hv => hcoin v (List.mem_cons_of_mem _ hv))
      (fun v hv => hval v (List.mem_cons_of_mem _ hv))
    refine ⟨ids2, st2, h2, ?_⟩
    simpa [nonBaseStakes, List.append_assoc] using hs2

/-- C13: when every id lookup of the stake loop of `UpdateStakesWorker` succeeds on a candidates
    response whose stake values are decimal strings, the loop returns, the keys of the
    `stakesInCoin` map it built are distinct and are exactly the coin ids of the stakes whose
    coin differs from the base coin, and the value under each key is the decimal string of the
    exact sum of the values of all those stakes in that coin, over all validators of the
    response. Stakes in the base coin do not enter: they add no key and no value. -/
theorem candidatesLoop_sums (env : models.ExtenderEnvironment) (w : Services)
    (candidates : List responses.Candidate)
    (hpk : ∀ vlr ∈ candidates, ∃ id, w.FindIdByPkOrCreate (w.RemovePrefix vlr.PubKey) = .ok id)
    (hown : ∀ vlr ∈ candidates, ∀ stake ∈ vlr.Stakes,
      ∃ a, w.FindIdOrCreate (w.RemovePrefixFromAddress stake.Owner) = .ok a)
    (hcoin : ∀ vlr ∈ candidates, ∀ stake ∈ vlr.Stakes, ∃ c, w.FindIdBySymbol stake.Coin = .ok c)
    (hval : ∀ vlr ∈ candidates, ∀ stake ∈ vlr.Stakes, ∃ n : Nat, stake.Value = toString n) :
    ∃ ids st,
      (validator.candidatesLoop env w candidates [] { stakes := [], stakesInCoin := [] }).res
        = .ok (ids, st) ∧
      (st.stakesInCoin.map Prod.fst).Nodup ∧
      (∀ k, k ∈ st.stakesInCoin.map Prod.fst ↔
        ∃ stake ∈ nonBaseStakes env candidates, w.FindIdBySymbol stake.Coin = .ok k) ∧
      (∀ k v, (k, v) ∈ st.stakesInCoin →
        v = toString (stakeSum w (nonBaseStakes env candidates) k)) := by
  obtain ⟨ids, st, hres, hnd, hkeys, hvals⟩ :=
    candidatesLoop_spec env w candidates [] { stakes := [], stakesInCoin := [] } []
      ⟨List.nodup_nil, by simp, by simp⟩ hpk hown hcoin hval
  simp only [List.nil_append] at hkeys hvals
  refine ⟨ids, st, hres, hnd, fun k => ?_, fun k v hkv => hvals (k, v) hkv⟩
  rw [hkeys k]
  constructor
  · rintro ⟨stake, hs, hin⟩
    refine ⟨stake, hs, ?_⟩
    unfold inCoin at hin
    cases hc : w.FindIdBySymbol stake.Coin with
    | error e => simp [hc] at hin
    | ok c =>
      simp only [hc, decide_eq_true_eq] at hin
      rw [hin]
  · rintro ⟨stake, hs, hc⟩
    exact ⟨stake, hs, by simp [inCoin, hc]⟩

theorem candidatesLoop_sums_witness :
    ∃ ids st,
      (validator.candidatesLoop sampleEnv sampleServices sampleCandidates []
        { stakes := [], stakesInCoin := [] }).res = .ok (ids, st) ∧
      (st.stakesInCoin.map Prod.fst).Nodup ∧
      (∀ k, k ∈ st.stakesInCoin.map Prod.fst ↔
        ∃ stake ∈ nonBaseStakes sampleEnv sampleCandidates,
          sampleServices.FindIdBySymbol stake.Coin = .ok k) ∧
      (∀ k v, (k, v) ∈ st.stakesInCoin →
        v = toString (stakeSum sampleServices (nonBaseStakes sampleEnv sampleCandidates) k)) := by
  apply candidatesLoop_sums sampleEnv sampleServices sampleCandidates
  · intro vlr hv
    simp only [sampleCandidates, List.mem_cons, List.mem_singleton, List.not_mem_nil,
      or_false] at hv
    rcases hv with rfl | rfl
    · exact ⟨1, rfl⟩
    · exact ⟨2, rfl⟩
  · intro vlr hv stake hs
    simp only [sampleCandidates, List.mem_cons, List.mem_singleton, List.not_mem_nil,
      or_false] at hv
    rcases hv with rfl | rfl <;>
      simp only [List.mem_cons, List.mem_singleton, List.not_mem_nil, or_false] at hs
    · rcases hs with rfl | rfl | rfl
      · exact ⟨1, rfl⟩
      · exact ⟨2, rfl⟩
      · exact ⟨1, rfl⟩
    · subst hs
      exact ⟨2, rfl⟩
  · intro vlr hv stake hs
    simp only [sampleCandidates, List.mem_cons, List.mem_singleton, List.not_mem_nil,
      or_false] at hv
    rcases hv with rfl | rfl <;>
      simp only [List.mem_cons, List.mem_singleton, List.not_mem_nil, or_false] at hs
    · rcases hs with rfl | rfl | rfl
      · exact ⟨1, rfl⟩
      · exact ⟨2, rfl⟩
      · exact ⟨3, rfl⟩
    · subst hs
      exact ⟨2, rfl⟩
  · intro vlr hv stake hs
    simp only [sampleCandidates, List.mem_cons, List.mem_singleton, List.not_mem_nil,
      or_false] at hv
    rcases hv with rfl | rfl <;>
      simp only [List.mem_cons, List.mem_singleton, List.not_mem_nil, or_false] at hs
    · rcases hs with rfl | rfl | rfl
      · exact ⟨900, rfl⟩
      · exact ⟨300, rfl⟩
      · exact ⟨61, rfl⟩
    · subst hs
      exact ⟨200, rfl⟩

/-- The stake loop on the sample response: ACME holds 300 + 200, BETA holds 61, and the stake
    in the base coin is in the stake rows only. -/
theorem candidatesLoop_sample :
    ∃ ids stakes,
      (validator.candidatesLoop sampleEnv sampleServices sampleCandidates []
        { stakes := [], stakesInCoin := [] }).res
        = .ok (ids, { stakes := stakes, stakesInCoin := [(2, "500"), (3, "61")] }) :=
  ⟨_, _, rfl⟩

/-! ## Rounding to nearest -/

theorem roundHalfEven_floor_le (y : ℚ) : ⌊y⌋ ≤ roundHalfEven y := by
  unfold roundHalfEven
  simp only []
  split_ifs <;> omega

theorem roundHalfEven_le_floor_succ (y : ℚ) : roundHalfEven y ≤ ⌊y⌋ + 1 := by
  unfold roundHalfEven
  simp only []
  split_ifs <;> omega

theorem roundHalfEven_le_of_lt_half (y : ℚ) (N : ℤ) (h : y < N + 1 / 2) :
    roundHalfEven y ≤ N := by
  have hfl : ⌊y⌋ ≤ N := by
    rw [← Int.lt_add_one_iff, Int.floor_lt]
    push_cast
    linarith
  rcases lt_or_eq_of_le hfl with hlt | heq
  · have := roundHalfEven_le_floor_succ y
    omega
  · have hy : y - (⌊y⌋ : ℚ) < 1 / 2 := by
      rw [heq]
      linarith
    unfold roundHalfEven
    simp only [hy, if_true]
    omega

theorem roundHalfEven_ge_of_gt_half (y : ℚ) (N : ℤ) (h : (N : ℚ) - 1 / 2 < y) :
    N ≤ roundHalfEven y := by
  have hfl : N - 1 ≤ ⌊y⌋ := by
    rw [Int.le_floor]
    push_cast
    linarith
  rcases lt_or_eq_of_le hfl with hlt | heq
  · have := roundHalfEven_floor_le y
    omega
  · have hfy : (⌊y⌋ : ℚ) = N - 1 := by
      rw [← heq]
      push_cast
      ring
    have hy : 1 / 2 < y - (⌊y⌋ : ℚ) := by
      rw [hfy]
      linarith
    have hy1 : ¬ y - (⌊y⌋ : ℚ) < 1 / 2 := not_lt.mpr hy.le
    unfold roundHalfEven
    simp only [hy, hy1, if_true, if_false]
    omega

theorem roundHalfEven_le_of_le (y : ℚ) (N : ℤ) (h : y ≤ N) : roundHalfEven y ≤ N :=
  roundHalfEven_le_of_lt_half y N (by linarith)

theorem roundHalfEven_ge_of_ge (y : ℚ) (N : ℤ) (h : (N : ℚ) ≤ y) : N ≤ roundHalfEven y :=
  roundHalfEven_ge_of_gt_half y N (by linarith)

theorem roundHalfEven_eq (y : ℚ) (N : ℤ) (h1 : (N : ℚ) - 1 / 2 < y) (h2 : y < N + 1 / 2) :
    roundHalfEven y = N :=
  le_antisymm (roundHalfEven_le_of_lt_half y N h2) (roundHalfEven_ge_of_gt_half y N h1)

theorem roundHalfEven_err (y : ℚ) : |(roundHalfEven y : ℚ) - y| ≤ 1 / 2 := by
  have h1 := Int.floor_le y
  have h2 := Int.lt_floor_add_one y
  unfold roundHalfEven
  simp only []
  rw [abs_le]
  split_ifs with ha hb hc
  · constructor <;> linarith
  · push_cast
    constructor <;> linarith
  · have : y - (⌊y⌋ : ℚ) = 1 / 2 := le_antisymm (not_lt.mp hb) (not_lt.mp ha)
    constructor <;> linarith
  · have : y - (⌊y⌋ : ℚ) = 1 / 2 := le_antisymm (not_lt.mp hb) (not_lt.mp ha)
    push_cast
    constructor <;> linarith

theorem log_two_eq (x : ℚ) (k : ℤ) (h1 : (2 : ℚ) ^ k ≤ x) (h2 : x < (2 : ℚ) ^ (k + 1)) :
    Int.log 2 x = k := by
  have hx : 0 < x := lt_of_lt_of_le (zpow_pos (by norm_num) k) h1
  have ha : k ≤ Int.log 2 x := by
    rw [← Int.zpow_le_iff_le_log (by norm_num) hx]
    exact_mod_cast h1
  have hb : Int.log 2 x < k + 1 := by
    rw [← Int.lt_zpow_iff_log_lt (by norm_num) hx]
    exact_mod_cast h2
  omega

theorem log_two_spec (x : ℚ) (hx : 0 < x) :
    (2 : ℚ) ^ Int.log 2 x ≤ x ∧ x < (2 : ℚ) ^ (Int.log 2 x + 1) := by
  have h1 := Int.zpow_log_le_self (b := 2) (r := x) (by norm_num) hx
  have h2 := Int.lt_zpow_succ_log_self (b := 2) (by norm_num) x
  exact ⟨by exact_mod_cast h1, by exact_mod_cast h2⟩

theorem two_zpow_pos (e : ℤ) : (0 : ℚ) < (2 : ℚ) ^ e := zpow_pos (by norm_num) e

theorem roundPos_of_log (p : Nat) (x : ℚ) (k : ℤ) (h1 : (2 : ℚ) ^ k ≤ x)
    (h2 : x < (2 : ℚ) ^ (k + 1)) :
    roundPos p x = (roundHalfEven (x / (2 : ℚ) ^ (k - ((p : ℤ) - 1))) : ℚ)
      * (2 : ℚ) ^ (k - ((p : ℤ) - 1)) := by
  unfold roundPos
  rw [log_two_eq x k h1 h2]

/-- Evaluation of a rounding: a positive `x` in the binade of `2^k` whose quotient by the unit
    in the last place is nearer to the integer `N` than to any other goes to `N` units. -/
theorem roundPos_eval (p : Nat) (x : ℚ) (k N : ℤ) (h1 : (2 : ℚ) ^ k ≤ x)
    (h2 : x < (2 : ℚ) ^ (k + 1))
    (h3 : (N : ℚ) - 1 / 2 < x / (2 : ℚ) ^ (k - ((p : ℤ) - 1)))
    (h4 : x / (2 : ℚ) ^ (k - ((p : ℤ) - 1)) < N + 1 / 2) :
    roundPos p x = (N : ℚ) * (2 : ℚ) ^ (k - ((p : ℤ) - 1)) := by
  rw [roundPos_of_log p x k h1 h2, roundHalfEven_eq _ N h3 h4]

theorem two_pow_cast (p : Nat) (hp : 1 ≤ p) :
    (((2 : ℤ) ^ (p - 1) : ℤ) : ℚ) = (2 : ℚ) ^ ((p : ℤ) - 1) := by
  have : ((p : ℤ) - 1) = ((p - 1 : ℕ) : ℤ) := by omega
  rw [this, zpow_natCast]
  push_cast
  rfl

theorem two_pow_cast_full (p : Nat) : (((2 : ℤ) ^ p : ℤ) : ℚ) = (2 : ℚ) ^ (p : ℤ) := by
  rw [zpow_natCast]
  push_cast
  rfl

theorem scaled_bounds (p : Nat) (x : ℚ) (k : ℤ) (h1 : (2 : ℚ) ^ k ≤ x)
    (h2 : x < (2 : ℚ) ^ (k + 1)) :
    (2 : ℚ) ^ ((p : ℤ) - 1) ≤ x / (2 : ℚ) ^ (k - ((p : ℤ) - 1)) ∧
    x / (2 : ℚ) ^ (k - ((p : ℤ) - 1)) < (2 : ℚ) ^ (p : ℤ) := by
  have he := two_zpow_pos (k - ((p : ℤ) - 1))
  constructor
  · rw [le_div_iff₀ he, ← zpow_add₀ (by norm_num)]
    have : (p : ℤ) - 1 + (k - ((p : ℤ) - 1)) = k := by ring
    rw [this]
    exact h1
  · rw [div_lt_iff₀ he, ← zpow_add₀ (by norm_num)]
    have : (p : ℤ) + (k - ((p : ℤ) - 1)) = k + 1 := by ring
    rw [this]
    exact h2

/-- A rounded positive number stays in the closed binade of its argument. -/
theorem roundPos_binade (p : Nat) (hp : 1 ≤ p) (x : ℚ) (k : ℤ) (h1 : (2 : ℚ) ^ k ≤ x)
    (h2 : x < (2 : ℚ) ^ (k + 1)) :
    (2 : ℚ) ^ k ≤ roundPos p x ∧ roundPos p x ≤ (2 : ℚ) ^ (k + 1) := by
  obtain ⟨hs1, hs2⟩ := scaled_bounds p x k h1 h2
  have he := two_zpow_pos (k - ((p : ℤ) - 1))
  rw [roundPos_of_log p x k h1 h2]
  constructor
  · have hge : (2 : ℤ) ^ (p - 1) ≤ roundHalfEven (x / (2 : ℚ) ^ (k - ((p : ℤ) - 1))) :=
      roundHalfEven_ge_of_ge _ _ (by rw [two_pow_cast p hp]; exact hs1)
    have hq : (2 : ℚ) ^ ((p : ℤ) - 1)
        ≤ (roundHalfEven (x / (2 : ℚ) ^ (k - ((p : ℤ) - 1))) : ℚ) := by
      rw [← two_pow_cast p hp]
      exact_mod_cast hge
    calc (2 : ℚ) ^ k = (2 : ℚ) ^ ((p : ℤ) - 1) * (2 : ℚ) ^ (k - ((p : ℤ) - 1)) := by
          rw [← zpow_add₀ (by norm_num)]
          congr 1
          ring
      _ ≤ _ := mul_le_mul_of_nonneg_right hq he.le
  · have hle : roundHalfEven (x / (2 : ℚ) ^ (k - ((p : ℤ) - 1))) ≤ (2 : ℤ) ^ p :=
      roundHalfEven_le_of_le _ _ (by rw [two_pow_cast_full p]; exact hs2.le)
    have hq : (roundHalfEven (x / (2 : ℚ) ^ (k - ((p : ℤ) - 1))) : ℚ) ≤ (2 : ℚ) ^ (p : ℤ) := by
      rw [← two_pow_cast_full p]
      exact_mod_cast hle
    calc _ ≤ (2 : ℚ) ^ (p : ℤ) * (2 : ℚ) ^ (k - ((p : ℤ) - 1)) :=
          mul_le_mul_of_nonneg_right hq he.le
      _ = (2 : ℚ) ^ (k + 1) := by
          rw [← zpow_add₀ (by norm_num)]
          congr 1
          ring

/-- Rounding does not go below a number of the format that is below the argument. -/
theorem roundPos_ge_float (p : Nat) (hp : 1 ≤ p) (M E : ℤ) (hM1 : (2 : ℤ) ^ (p - 1) ≤ M)
    (hM2 : M < (2 : ℤ) ^ p) (x : ℚ) (hx : (M : ℚ) * (2 : ℚ) ^ E ≤ x) :
    (M : ℚ) * (2 : ℚ) ^ E ≤ roundPos p x := by
  have hE := two_zpow_pos E
  have hMq : (2 : ℚ) ^ ((p : ℤ) - 1) ≤ (M : ℚ) := by
    rw [← two_pow_cast p hp]
    exact_mod_cast hM1
  have hMpos : (0 : ℚ) < M := lt_of_lt_of_le (two_zpow_pos _) hMq
  have hxpos : 0 < x := lt_of_lt_of_le (mul_pos hMpos hE) hx
  obtain ⟨h1, h2⟩ := log_two_spec x hxpos
  have hlow : (2 : ℚ) ^ (E + ((p : ℤ) - 1)) ≤ x := by
    rw [zpow_add₀ (by norm_num), mul_comm]
    exact le_trans (mul_le_mul_of_nonneg_right hMq hE.le) hx
  have hk : E + ((p : ℤ) - 1) ≤ Int.log 2 x := by
    rw [← Int.zpow_le_iff_le_log (by norm_num) hxpos]
    exact_mod_cast hlow
  rcases eq_or_lt_of_le hk with heq | hlt
  · rw [roundPos_of_log p x _ h1 h2]
    have he : Int.log 2 x - ((p : ℤ) - 1) = E := by omega
    rw [he]
    have hge : M ≤ roundHalfEven (x / (2 : ℚ) ^ E) :=
      roundHalfEven_ge_of_ge _ _ (by rw [le_div_iff₀ hE]; exact hx)
    exact mul_le_mul_of_nonneg_right (by exact_mod_cast hge) hE.le
  · obtain ⟨hb, -⟩ := roundPos_binade p hp x _ h1 h2
    refine le_trans ?_ hb
    have hMq2 : (M : ℚ) ≤ (2 : ℚ) ^ (p : ℤ) := by
      rw [← two_pow_cast_full p]
      exact_mod_cast hM2.le
    have hexp : (p : ℤ) + E ≤ Int.log 2 x := by omega
    calc (M : ℚ) * (2 : ℚ) ^ E ≤ (2 : ℚ) ^ (p : ℤ) * (2 : ℚ) ^ E :=
          mul_le_mul_of_nonneg_right hMq2 hE.le
      _ = (2 : ℚ) ^ ((p : ℤ) + E) := by rw [zpow_add₀ (by norm_num)]
      _ ≤ (2 : ℚ) ^ (Int.log 2 x) := zpow_le_zpow_right₀ (by norm_num) hexp

/-- Rounding does not go above a number of the format when the argument is below the middle
    between that number and the next multiple of its unit. -/
theorem roundPos_le_float (p : Nat) (hp : 1 ≤ p) (M E : ℤ) (hM1 : (2 : ℤ) ^ (p - 1) ≤ M)
    (hM2 : M < (2 : ℤ) ^ p) (x : ℚ) (hx0 : 0 < x) (hx : x < ((M : ℚ) + 1 / 2) * (2 : ℚ) ^ E) :
    roundPos p x ≤ (M : ℚ) * (2 : ℚ) ^ E := by
  have hE := two_zpow_pos E
  have hMq : (2 : ℚ) ^ ((p : ℤ) - 1) ≤ (M : ℚ) := by
    rw [← two_pow_cast p hp]
    exact_mod_cast hM1
  have hMq2 : (M : ℚ) + 1 ≤ (2 : ℚ) ^ (p : ℤ) := by
    rw [← two_pow_cast_full p]
    have : M + 1 ≤ (2 : ℤ) ^ p := hM2
    exact_mod_cast this
  obtain ⟨h1, h2⟩ := log_two_spec x hx0
  have hup : x < (2 : ℚ) ^ ((p : ℤ) + E) := by
    rw [zpow_add₀ (by norm_num)]
    refine lt_of_lt_of_le hx (mul_le_mul_of_nonneg_right ?_ hE.le)
    linarith
  have hk : Int.log 2 x < (p : ℤ) + E := by
    rw [← Int.lt_zpow_iff_log_lt (by norm_num) hx0]
    exact_mod_cast hup
  rcases eq_or_lt_of_le (Int.lt_add_one_iff.mp (by omega : Int.log 2 x - ((p : ℤ) - 1) < E + 1))
    with heq | hlt
  · rw [roundPos_of_log p x _ h1 h2, heq]
    have hle : roundHalfEven (x / (2 : ℚ) ^ E) ≤ M :=
      roundHalfEven_le_of_lt_half _ _ (by rw [div_lt_iff₀ hE]; exact hx)
    exact mul_le_mul_of_nonneg_right (by exact_mod_cast hle) hE.le
  · obtain ⟨-, hb⟩ := roundPos_binade p hp x _ h1 h2
    refine le_trans hb ?_
    have hexp : Int.log 2 x + 1 ≤ E + ((p : ℤ) - 1) := by omega
    calc (2 : ℚ) ^ (Int.log 2 x + 1) ≤ (2 : ℚ) ^ (E + ((p : ℤ) - 1)) :=
          zpow_le_zpow_right₀ (by norm_num) hexp
      _ = (2 : ℚ) ^ ((p : ℤ) - 1) * (2 : ℚ) ^ E := by
          rw [zpow_add₀ (by norm_num), mul_comm]
      _ ≤ (M : ℚ) * (2 : ℚ) ^ E := mul_le_mul_of_nonneg_right hMq hE.le

theorem roundToPrec_of_pos (p : Nat) (x : ℚ) (hx : 0 < x) : roundToPrec p x = roundPos p x := by
  unfold roundToPrec
  rw [if_neg hx.ne', if_neg (not_lt.mpr hx.le)]

theorem roundToPrec_zero (p : Nat) : roundToPrec p 0 = 0 := by
  unfold roundToPrec
  rw [if_pos rfl]

theorem roundToPrec_pos (p : Nat) (hp : 1 ≤ p) (x : ℚ) (hx : 0 < x) : 0 < roundToPrec p x := by
  rw [roundToPrec_of_pos p x hx]
  obtain ⟨h1, h2⟩ := log_two_spec x hx
  exact lt_of_lt_of_le (two_zpow_pos _) (roundPos_binade p hp x _ h1 h2).1

theorem roundToPrec_nonneg (p : Nat) (hp : 1 ≤ p) (x : ℚ) (hx : 0 ≤ x) :
    0 ≤ roundToPrec p x := by
  rcases eq_or_lt_of_le hx with h0 | hpos
  · rw [← h0, roundToPrec_zero]
  · exact (roundToPrec_pos p hp x hpos).le

/-- The error of a rounding is at most half a unit in the last place, which is at most the
    argument times `2^(-p)`. -/
theorem roundToPrec_err (p : Nat) (x : ℚ) (hx : 0 ≤ x) :
    |roundToPrec p x - x| ≤ x * (2 : ℚ) ^ (-(p : ℤ)) := by
  rcases eq_or_lt_of_le hx with h0 | hpos
  · rw [← h0, roundToPrec_zero]
    simp
  · rw [roundToPrec_of_pos p x hpos]
    obtain ⟨h1, h2⟩ := log_two_spec x hpos
    rw [roundPos_of_log p x _ h1 h2]
    have he := two_zpow_pos (Int.log 2 x - ((p : ℤ) - 1))
    have herr := roundHalfEven_err (x / (2 : ℚ) ^ (Int.log 2 x - ((p : ℤ) - 1)))
    have hsplit : (roundHalfEven (x / (2 : ℚ) ^ (Int.log 2 x - ((p : ℤ) - 1))) : ℚ)
          * (2 : ℚ) ^ (Int.log 2 x - ((p : ℤ) - 1)) - x
        = ((roundHalfEven (x / (2 : ℚ) ^ (Int.log 2 x - ((p : ℤ) - 1))) : ℚ)
            - x / (2 : ℚ) ^ (Int.log 2 x - ((p : ℤ) - 1)))
          * (2 : ℚ) ^ (Int.log 2 x - ((p : ℤ) - 1)) := by
      field_simp
    rw [hsplit, abs_mul, abs_of_pos he]
    have hunit : (2 : ℚ) ^ (Int.log 2 x - ((p : ℤ) - 1))
        = (2 : ℚ) ^ (Int.log 2 x) * (2 * (2 : ℚ) ^ (-(p : ℤ))) := by
      have h2p : (2 : ℚ) * (2 : ℚ) ^ (-(p : ℤ)) = (2 : ℚ) ^ (1 + -(p : ℤ)) := by
        rw [zpow_add₀ (by norm_num), zpow_one]
      rw [h2p, ← zpow_add₀ (by norm_num)]
      congr 1
      ring
    have hpp := two_zpow_pos (-(p : ℤ))
    calc _ ≤ 1 / 2 * (2 : ℚ) ^ (Int.log 2 x - ((p : ℤ) - 1)) :=
          mul_le_mul_of_nonneg_right herr he.le
      _ = (2 : ℚ) ^ (Int.log 2 x) * (2 : ℚ) ^ (-(p : ℤ)) := by
          rw [hunit]
          ring
      _ ≤ x * (2 : ℚ) ^ (-(p : ℤ)) := mul_le_mul_of_nonneg_right h1 hpp.le

/-- A natural number below `2^p` is a number of the format of precision `p`: rounding leaves
    it as it is. -/
theorem roundToPrec_natCast (p : Nat) (hp : 1 ≤ p) (n : Nat) (hn : n < 2 ^ p) :
    roundToPrec p (n : ℚ) = n := by
  rcases Nat.eq_zero_or_pos n with h0 | hpos
  · subst h0
    simpa using roundToPrec_zero p
  · have hq : (0 : ℚ) < n := by exact_mod_cast hpos
    rw [roundToPrec_of_pos p _ hq]
    have hk1 : 2 ^ Nat.log 2 n ≤ n := Nat.pow_log_le_self 2 hpos.ne'
    have hk2 : n < 2 ^ (Nat.log 2 n + 1) := Nat.lt_pow_succ_log_self (by norm_num) n
    have hk : Nat.log 2 n < p := by
      by_contra hcon
      have : 2 ^ p ≤ 2 ^ Nat.log 2 n := Nat.pow_le_pow_right (by norm_num) (by omega)
      omega
    have hpow : 2 ^ Nat.log 2 n * 2 ^ (p - 1 - Nat.log 2 n) = 2 ^ (p - 1) := by
      rw [← Nat.pow_add]
      congr 1
      omega
    have hM1 : (2 : ℤ) ^ (p - 1) ≤ ((n * 2 ^ (p - 1 - Nat.log 2 n) : ℕ) : ℤ) := by
      have : 2 ^ (p - 1) ≤ n * 2 ^ (p - 1 - Nat.log 2 n) := by
        rw [← hpow]
        exact Nat.mul_le_mul_right _ hk1
      exact_mod_cast this
    have hM2 : ((n * 2 ^ (p - 1 - Nat.log 2 n) : ℕ) : ℤ) < (2 : ℤ) ^ p := by
      have : n * 2 ^ (p - 1 - Nat.log 2 n) < 2 ^ p := by
        have hfull : 2 ^ (Nat.log 2 n + 1) * 2 ^ (p - 1 - Nat.log 2 n) = 2 ^ p := by
          rw [← Nat.pow_add]
          congr 1
          omega
        rw [← hfull]
        exact Nat.mul_lt_mul_of_pos_right hk2 (by positivity)
      exact_mod_cast this
    have hval : (((n * 2 ^ (p - 1 - Nat.log 2 n) : ℕ) : ℤ) : ℚ)
        * (2 : ℚ) ^ ((Nat.log 2 n : ℤ) - ((p : ℤ) - 1)) = n := by
      have hexp : ((Nat.log 2 n : ℤ) - ((p : ℤ) - 1)) = -((p - 1 - Nat.log 2 n : ℕ) : ℤ) := by
        omega
      rw [hexp, zpow_neg, zpow_natCast]
      push_cast
      field_simp
    apply le_antisymm
    · have := roundPos_le_float p hp _ ((Nat.log 2 n : ℤ) - ((p : ℤ) - 1)) hM1 hM2 (n : ℚ) hq
        (by
          rw [add_mul, hval]
          have := two_zpow_pos ((Nat.log 2 n : ℤ) - ((p : ℤ) - 1))
          linarith)
      rw [hval] at this
      exact this
    · have := roundPos_ge_float p hp _ ((Nat.log 2 n : ℤ) - ((p : ℤ) - 1)) hM1 hM2 (n : ℚ)
        (by rw [hval])
      rw [hval] at this
      exact this

/-- The conversion of an integer below `2^53` to `float64` is exact. -/
theorem float64_natCast (n : Nat) (hn : n < 2 ^ 53) : float64 (n : ℚ) = n :=
  roundToPrec_natCast 53 (by norm_num) n hn

theorem roundToPrec_eval (p : Nat) (x : ℚ) (k N : ℤ) (h1 : (2 : ℚ) ^ k ≤ x)
    (h2 : x < (2 : ℚ) ^ (k + 1))
    (h3 : (N : ℚ) - 1 / 2 < x / (2 : ℚ) ^ (k - ((p : ℤ) - 1)))
    (h4 : x / (2 : ℚ) ^ (k - ((p : ℤ) - 1)) < N + 1 / 2) :
    roundToPrec p x = (N : ℚ) * (2 : ℚ) ^ (k - ((p : ℤ) - 1)) := by
  rw [roundToPrec_of_pos p x (lt_of_lt_of_le (two_zpow_pos k) h1)]
  exact roundPos_eval p x k N h1 h2 h3 h4

/-- One signed block out of three: the quotient and the product are both rounded. -/
theorem uptime_one_of_three : core.uptime 1 3 = 2345624805922133 / 70368744177664 := by
  have hq : float64 ((1 : ℚ) / 3) = 6004799503160661 / 18014398509481984 := by
    unfold float64
    rw [roundToPrec_eval 53 _ (-2) 6004799503160661 (by norm_num) (by norm_num)
      (by norm_num) (by norm_num)]
    norm_num
  have hm : float64 (6004799503160661 / 18014398509481984 * 100)
      = 2345624805922133 / 70368744177664 := by
    unfold float64
    rw [roundToPrec_eval 53 _ 5 4691249611844266 (by norm_num) (by norm_num)
      (by norm_num) (by norm_num)]
    norm_num
  unfold core.uptime
  have h1 : float64 ((1 : ℕ) : ℚ) = ((1 : ℕ) : ℚ) := float64_natCast 1 (by norm_num)
  have h3 : float64 ((3 : ℕ) : ℚ) = ((3 : ℕ) : ℚ) := float64_natCast 3 (by norm_num)
  simp only [h1, h3]
  norm_num
  rw [hq, hm]
  norm_num

theorem float64_ge_one (x : ℚ) (hx : 1 ≤ x) : 1 ≤ float64 x := by
  unfold float64
  rw [roundToPrec_of_pos 53 x (by linarith)]
  have := roundPos_ge_float 53 (by norm_num) (2 ^ 52) (-52) (by norm_num) (by norm_num) x
    (by norm_num; exact hx)
  norm_num at this
  exact this

theorem float64_ge_hundred (x : ℚ) (hx : 100 ≤ x) : 100 ≤ float64 x := by
  unfold float64
  rw [roundToPrec_of_pos 53 x (by linarith)]
  have := roundPos_ge_float 53 (by norm_num) (100 * 2 ^ 46) (-46) (by norm_num) (by norm_num) x
    (by norm_num; exact hx)
  norm_num at this
  exact this

theorem float64_le_below_one (x : ℚ) (hx0 : 0 < x) (hx : x ≤ 1 - 1 / 2 ^ 53) :
    float64 x ≤ 1 - 1 / 2 ^ 53 := by
  unfold float64
  rw [roundToPrec_of_pos 53 x hx0]
  have := roundPos_le_float 53 (by norm_num) (2 ^ 53 - 1) (-53) (by norm_num) (by norm_num) x
    hx0 (by norm_num; norm_num at hx; linarith)
  norm_num at this ⊢
  exact this

theorem float64_lt_hundred (x : ℚ) (hx0 : 0 < x) (hx : x ≤ 100 * (1 - 1 / 2 ^ 53)) :
    float64 x < 100 := by
  unfold float64
  rw [roundToPrec_of_pos 53 x hx0]
  have := roundPos_le_float 53 (by norm_num) (100 * 2 ^ 46 - 1) (-46) (by norm_num)
    (by norm_num) x hx0 (by norm_num; norm_num at hx; linarith)
  norm_num at this
  linarith

/-! ## Uptime of a validator -/

theorem float64_nonneg (x : ℚ) (hx : 0 ≤ x) : 0 ≤ float64 x :=
  roundToPrec_nonneg 53 (by norm_num) x hx

theorem uptime_bounds (s t : Nat) : 0 ≤ core.uptime s t ∧ core.uptime s t ≤ 100 := by
  unfold core.uptime
  simp only []
  refine ⟨le_min ?_ (by norm_num), min_le_right _ _⟩
  apply float64_nonneg
  split
  · apply mul_nonneg _ (by norm_num)
    apply float64_nonneg
    exact div_nonneg (float64_nonneg _ (Nat.cast_nonneg s)) (float64_nonneg _ (Nat.cast_nonneg t))
  · norm_num

theorem uptime_no_blocks (s : Nat) : core.uptime s 0 = 0 := by
  unfold core.uptime
  simp only [gt_iff_lt, lt_self_iff_false, if_false, zero_mul]
  have : float64 0 = 0 := roundToPrec_zero 53
  rw [this]
  norm_num

theorem uptime_full (s t : Nat) (hs : s < 2 ^ 53) (ht : t < 2 ^ 53) (h0 : 0 < t) (hst : t ≤ s) :
    core.uptime s t = 100 := by
  unfold core.uptime
  simp only [gt_iff_lt, h0, if_true, float64_natCast s hs, float64_natCast t ht]
  have htq : (0 : ℚ) < t := by exact_mod_cast h0
  have hq : (1 : ℚ) ≤ (s : ℚ) / t := by
    rw [le_div_iff₀ htq, one_mul]
    exact_mod_cast hst
  have hv := float64_ge_one _ hq
  have hm := float64_ge_hundred (float64 ((s : ℚ) / t) * 100) (by linarith)
  exact min_eq_right hm

theorem uptime_partial (s t : Nat) (hs : s < 2 ^ 53) (ht : t < 2 ^ 53) (hst : s < t) :
    core.uptime s t < 100 := by
  have h0 : 0 < t := by omega
  unfold core.uptime
  simp only [gt_iff_lt, h0, if_true, float64_natCast s hs, float64_natCast t ht]
  apply min_lt_of_left_lt
  have htq : (0 : ℚ) < t := by exact_mod_cast h0
  rcases Nat.eq_zero_or_pos s with hs0 | hspos
  · subst hs0
    have h1 : float64 0 = 0 := roundToPrec_zero 53
    simp only [Nat.cast_zero, zero_div, h1, zero_mul]
    norm_num
  · have hsq : (0 : ℚ) < s := by exact_mod_cast hspos
    have hquo : (s : ℚ) / t ≤ 1 - 1 / 2 ^ 53 := by
      rw [div_le_iff₀ htq]
      have h1 : (s : ℚ) + 1 ≤ t := by exact_mod_cast hst
      have h2 : (t : ℚ) ≤ 2 ^ 53 := by exact_mod_cast ht.le
      have h3 : (1 - 1 / 2 ^ 53 : ℚ) * t = t - t / 2 ^ 53 := by ring
      rw [h3]
      have h4 : (t : ℚ) / 2 ^ 53 ≤ 1 := by
        rw [div_le_iff₀ (by norm_num)]
        linarith
      linarith
    have hv := float64_le_below_one _ (div_pos hsq htq) hquo
    have hvpos : 0 < float64 ((s : ℚ) / t) :=
      roundToPrec_pos 53 (by norm_num) _ (div_pos hsq htq)
    exact float64_lt_hundred _ (by linarith) (by linarith)

theorem uptime_err (s t : Nat) (hs : s < 2 ^ 53) (ht : t < 2 ^ 53) (h0 : 0 < t) :
    |core.uptime s t - min 100 (100 * (s : ℚ) / t)| ≤ 300 / 2 ^ 53 := by
  have htq : (0 : ℚ) < t := by exact_mod_cast h0
  rcases Nat.lt_or_ge s t with hlt | hge
  · have hquo1 : (s : ℚ) / t ≤ 1 := by
      rw [div_le_iff₀ htq, one_mul]
      exact_mod_cast hlt.le
    have hquo0 : (0 : ℚ) ≤ (s : ℚ) / t := div_nonneg (Nat.cast_nonneg s) htq.le
    have hmin : min 100 (100 * (s : ℚ) / t) = 100 * ((s : ℚ) / t) := by
      rw [mul_div_assoc]
      exact min_eq_right (by linarith)
    have hup : core.uptime s t = float64 (float64 ((s : ℚ) / t) * 100) := by
      have hlt100 := uptime_partial s t hs ht hlt
      unfold core.uptime at hlt100 ⊢
      simp only [gt_iff_lt, h0, if_true, float64_natCast s hs, float64_natCast t ht] at hlt100 ⊢
      exact min_eq_left (le_of_lt (lt_of_not_le (fun hcon => by
        rw [min_eq_right hcon] at hlt100
        exact lt_irrefl _ hlt100)))
    rw [hup, hmin]
    have hu : (2 : ℚ) ^ (-((53 : ℕ) : ℤ)) = 1 / 2 ^ 53 := by norm_num
    have e1 := roundToPrec_err 53 ((s : ℚ) / t) hquo0
    have hv0 : 0 ≤ float64 ((s : ℚ) / t) := float64_nonneg _ hquo0
    have e2 := roundToPrec_err 53 (float64 ((s : ℚ) / t) * 100) (by positivity)
    rw [hu] at e1 e2
    change |float64 ((s : ℚ) / t) - (s : ℚ) / t| ≤ _ at e1
    change |float64 (float64 ((s : ℚ) / t) * 100) - float64 ((s : ℚ) / t) * 100| ≤ _ at e2
    rw [abs_le] at e1 e2 ⊢
    obtain ⟨e1a, e1b⟩ := e1
    obtain ⟨e2a, e2b⟩ := e2
    have hvle : float64 ((s : ℚ) / t) ≤ 1 + 1 / 2 ^ 53 := by nlinarith
    constructor <;> nlinarith
  · rw [uptime_full s t hs ht h0 hge]
    have hquo : (100 : ℚ) ≤ 100 * (s : ℚ) / t := by
      rw [le_div_iff₀ htq]
      have : (t : ℚ) ≤ s := by exact_mod_cast hge
      linarith
    rw [min_eq_left hquo]
    norm_num

theorem uptimeLoop_spec (w : Services) (validators : List models.Validator) :
    (core.uptimeLoop w validators).res = .ok () ∧
    uptimeUpdates (core.uptimeLoop w validators).trace
      = validators.filterMap (expectedUptime w) := by
  induction validators with
  | nil => exact ⟨rfl, rfl⟩
  | cons v rest ih =>
    obtain ⟨ih1, ih2⟩ := ih
    unfold core.uptimeLoop
    simp only [Call.bind_eq, List.filterMap_cons, expectedUptime]
    cases hs : w.GetFullSignedCountValidatorBlock v.ID v.CreatedAt with
    | error e =>
      simp [Call.call, Call.attempt, Call.andThen, ih1, ih2, uptimeUpdates,
        List.filterMap_append]
      simpa [uptimeUpdates] using ih2
    | ok signedCount =>
      cases ht : w.GetCountBlockFromDate v.CreatedAt with
      | error e =>
        simp [Call.call, Call.attempt, Call.andThen, ih1, ih2, uptimeUpdates,
          List.filterMap_append]
        simpa [uptimeUpdates] using ih2
      | ok validatorBlocksHeight =>
        cases hu : w.UpdateValidatorUptime v.ID (core.uptime signedCount validatorBlocksHeight)
          <;>
        · simp [Call.call, Call.exec, Call.attempt, Call.andThen, ih1, hu, uptimeUpdates,
            List.filterMap_append]
          simpa [uptimeUpdates] using ih2

/-- C14, the claimed equality fails: with one signed block out of three the uptime passed on
    is the `float64` figure `2345624805922133 / 2^46`, which is not `100 * 1 / 3`. -/
theorem uptime_one_of_three_inexact :
    core.uptime 1 3 ≠ min 100 (100 * ((1 : ℕ) : ℚ) / ((3 : ℕ) : ℚ)) := by
  rw [uptime_one_of_three]
  norm_num

/-- C14, as the code has it: when the active validators are found, `updateValidatorsUptime`
    returns and passes to `UpdateValidatorUptime`, for every validator whose two counts are found, in
    order, the figure `uptime s t` of its signed-block count `s` and block count `t`. That
    figure is computed in `float64`: it always lies between 0 and 100, it is 0 when `t = 0`,
    and for counts below `2^53` it is 100 exactly when `s ≥ t > 0` and differs from
    `min(100, 100*s/t)` by at most `300 / 2^53` when `t > 0`. -/
theorem updateValidatorsUptime_uptime (w : Services) (validators : List models.Validator)
    (h : w.GetActiveValidators = .ok (some validators)) :
    (core.updateValidatorsUptime w).res = .ok () ∧
    uptimeUpdates (core.updateValidatorsUptime w).trace
      = validators.filterMap (expectedUptime w) ∧
    ∀ s t : Nat,
      0 ≤ core.uptime s t ∧ core.uptime s t ≤ 100 ∧
      (t = 0 → core.uptime s t = 0) ∧
      (s < 2 ^ 53 → t < 2 ^ 53 → (core.uptime s t = 100 ↔ 0 < t ∧ t ≤ s)) ∧
      (s < 2 ^ 53 → t < 2 ^ 53 → 0 < t →
        |core.uptime s t - min 100 (100 * (s : ℚ) / t)| ≤ 300 / 2 ^ 53) := by
  obtain ⟨hl1, hl2⟩ := uptimeLoop_spec w validators
  refine ⟨?_, ?_, fun s t => ⟨(uptime_bounds s t).1, (uptime_bounds s t).2, ?_, ?_, ?_⟩⟩
  · unfold core.updateValidatorsUptime
    simp only [Call.bind_eq, h]
    rw [Call.andThen_res _ (rfl : (Call.emit _).res = .ok ())]
    rw [Call.andThen_res _ (rfl : (Call.emit _).res = .ok ())]
    exact hl1
  · unfold core.updateValidatorsUptime
    simp only [Call.bind_eq, h]
    rw [Call.andThen_ok _ (rfl : (Call.emit _).res = .ok ())]
    simp only []
    rw [Call.andThen_ok _ (rfl : (Call.emit _).res = .ok ())]
    simp only [Call.emit, List.singleton_append]
    simpa [uptimeUpdates] using hl2
  · intro ht
    subst ht
    exact uptime_no_blocks s
  · intro hs ht
    constructor
    · intro h100
      rcases Nat.eq_zero_or_pos t with h0 | hpos
      · subst h0
        rw [uptime_no_blocks] at h100
        norm_num at h100
      · refine ⟨hpos, ?_⟩
        by_contra hcon
        have := uptime_partial s t hs ht (by omega)
        rw [h100] at this
        exact lt_irrefl _ this
    · rintro ⟨hpos, hst⟩
      exact uptime_full s t hs ht hpos hst
  · intro hs ht hpos
    exact uptime_err s t hs ht hpos

theorem updateValidatorsUptime_uptime_witness :
    (core.updateValidatorsUptime sampleServices).res = .ok () ∧
    uptimeUpdates (core.updateValidatorsUptime sampleServices).trace
      = [(1, 2345624805922133 / 70368744177664)] := by
  obtain ⟨h1, h2, -⟩ := updateValidatorsUptime_uptime sampleServices _ rfl
  refine ⟨h1, ?_⟩
  rw [h2]
  simp only [List.filterMap_cons, List.filterMap_nil, expectedUptime, sampleServices]
  rw [uptime_one_of_three]

/-! ## Delegation percent of a coin -/

theorem float64_hundred : float64 100 = 100 := by
  have := float64_natCast 100 (by norm_num)
  norm_num at this
  exact this

theorem NewFloatSetString_toString (n : Nat) (hn : n < 2 ^ 100) :
    utils.NewFloatSetString 100 (toString n) = some (n : ℚ) := by
  unfold utils.NewFloatSetString
  rw [decimalValue_toString]
  simp only []
  rw [roundToPrec_natCast 100 (by norm_num) n hn]

/-- The percent that the goroutine computes from a stake sum `S` and a volume `V`. -/
theorem coinDelegation_trace (w : Services) (coinID : Nat) (currentCoin : models.Coin)
    (S V : Nat) (hfind : w.FindCoinByID coinID = .ok currentCoin)
    (hvol : currentCoin.Volume = toString V) (hS : S < 2 ^ 100) (hV : V < 2 ^ 100)
    (hV0 : 0 < V) :
    (validator.coinDelegation w coinID (toString S)).trace
      = [.worker (.findCoinByID coinID),
         .worker (.updateCoinDelegation coinID
           (utils.Min (toUint64 (roundToPrec 100 (roundToPrec 100 ((S : ℚ) / V) * 100))) 100))] := by
  have hVq : (V : ℚ) ≠ 0 := by
    have : (0 : ℚ) < V := by exact_mod_cast hV0
    exact this.ne'
  unfold validator.coinDelegation
  simp only [Call.bind_eq]
  rw [hfind]
  simp only [validator.precision, Call.call, Call.andThen, hvol,
    NewFloatSetString_toString S hS, NewFloatSetString_toString V hV, hVq, if_false,
    float64_hundred]
  cases w.UpdateCoinDelegation coinID
    (utils.Min (toUint64 (roundToPrec 100 (roundToPrec 100 ((S : ℚ) / V) * 100))) 100) <;>
    simp [Call.exec]

theorem toUint64_of_floor (x : ℚ) (n : Nat) (h1 : (n : ℚ) ≤ x) (h2 : x < n + 1)
    (hn : n < 2 ^ 64 - 1) : toUint64 x = n := by
  unfold toUint64
  have hx0 : ¬ x < 0 := not_lt.mpr (le_trans (Nat.cast_nonneg n) h1)
  have hbig : ¬ (2 : ℚ) ^ 64 ≤ x := by
    have : (n : ℚ) + 1 ≤ 2 ^ 64 := by
      have : n + 1 ≤ 2 ^ 64 := by omega
      exact_mod_cast this
    intro hcon
    linarith
  rw [if_neg hx0, if_neg hbig]
  have hfl : ⌊x⌋ = (n : ℤ) := by
    rw [Int.floor_eq_iff]
    constructor
    · exact_mod_cast h1
    · exact_mod_cast h2
  rw [hfl]
  rfl

/-- A stake of 61 hundredths of the volume: the quotient is rounded down, the product stays
    below 61 and is truncated to 60. -/
theorem delegated_sixty_one :
    toUint64 (roundToPrec 100 (roundToPrec 100 ((61 : ℚ) / 100) * 100)) = 60 := by
  have hq : roundToPrec 100 ((61 : ℚ) / 100)
      = 773266866139219934912988955279 / 1267650600228229401496703205376 := by
    rw [roundToPrec_eval 100 _ (-1) 773266866139219934912988955279 (by norm_num) (by norm_num)
      (by norm_num) (by norm_num)]
    norm_num
  have hm : roundToPrec 100
      (773266866139219934912988955279 / 1267650600228229401496703205376 * 100)
      = 1208229478342531148301545242623 / 19807040628566084398385987584 := by
    rw [roundToPrec_eval 100 _ 5 1208229478342531148301545242623 (by norm_num) (by norm_num)
      (by norm_num) (by norm_num)]
    norm_num
  rw [hq, hm]
  exact toUint64_of_floor _ 60 (by norm_num) (by norm_num) (by norm_num)

/-- Half of the volume: both operations are exact. -/
theorem delegated_half :
    toUint64 (roundToPrec 100 (roundToPrec 100 ((500 : ℚ) / 1000) * 100)) = 50 := by
  have hq : roundToPrec 100 ((500 : ℚ) / 1000) = 1 / 2 := by
    rw [roundToPrec_eval 100 _ (-1) (2 ^ 99) (by norm_num) (by norm_num)
      (by norm_num) (by norm_num)]
    norm_num
  have hm : roundToPrec 100 ((1 : ℚ) / 2 * 100) = 50 := by
    have := roundToPrec_natCast 100 (by norm_num) 50 (by norm_num)
    norm_num at this ⊢
    exact this
  rw [hq, hm]
  exact toUint64_of_floor _ 50 (by norm_num) (by norm_num) (by norm_num)

/-- A stake sum of at most one 128th of the volume: the percent is truncated to 0. -/
theorem delegated_zero (S V : Nat) (hV0 : 0 < V) (h : 128 * S ≤ V) :
    toUint64 (roundToPrec 100 (roundToPrec 100 ((S : ℚ) / V) * 100)) = 0 := by
  have hVq : (0 : ℚ) < V := by exact_mod_cast hV0
  have hx : (S : ℚ) / V ≤ 1 / 128 := by
    rw [div_le_iff₀ hVq]
    have : (128 : ℚ) * S ≤ V := by exact_mod_cast h
    linarith
  have hx0 : (0 : ℚ) ≤ (S : ℚ) / V := div_nonneg (Nat.cast_nonneg S) hVq.le
  have hq0 : 0 ≤ roundToPrec 100 ((S : ℚ) / V) := roundToPrec_nonneg 100 (by norm_num) _ hx0
  have hq : roundToPrec 100 ((S : ℚ) / V) ≤ 1 / 128 := by
    rcases eq_or_lt_of_le hx0 with h0 | hpos
    · rw [← h0, roundToPrec_zero]
      norm_num
    · rw [roundToPrec_of_pos 100 _ hpos]
      have := roundPos_le_float 100 (by norm_num) (2 ^ 99) (-106) (by norm_num) (by norm_num)
        ((S : ℚ) / V) hpos (by norm_num; linarith)
      norm_num at this ⊢
      exact this
  have hm0 : 0 ≤ roundToPrec 100 (roundToPrec 100 ((S : ℚ) / V) * 100) :=
    roundToPrec_nonneg 100 (by norm_num) _ (by positivity)
  have hm : roundToPrec 100 (roundToPrec 100 ((S : ℚ) / V) * 100) ≤ 25 / 32 := by
    rcases eq_or_lt_of_le hq0 with h0 | hpos
    · rw [← h0, zero_mul, roundToPrec_zero]
      norm_num
    · rw [roundToPrec_of_pos 100 _ (by positivity)]
      have := roundPos_le_float 100 (by norm_num) (25 * 2 ^ 95) (-100) (by norm_num)
        (by norm_num) (roundToPrec 100 ((S : ℚ) / V) * 100) (by positivity)
        (by norm_num; linarith)
      norm_num at this ⊢
      exact this
  exact toUint64_of_floor _ 0 (by simpa using hm0) (by norm_num; linarith) (by norm_num)

theorem delegationUpdates_coinDelegation_le (w : Services) (coinID : Nat) (stake : String) :
    ∀ e ∈ delegationUpdates (validator.coinDelegation w coinID stake).trace,
      e.1 = coinID ∧ e.2 ≤ 100 := by
  have hmin : ∀ a : Nat, utils.Min a 100 ≤ 100 := by
    intro a
    unfold utils.Min
    split <;> omega
  unfold validator.coinDelegation
  simp only [Call.bind_eq]
  cases hfind : w.FindCoinByID coinID with
  | error e => simp [Call.call, Call.andThen, delegationUpdates]
  | ok currentCoin =>
    simp only [Call.call, Call.andThen]
    cases hs : utils.NewFloatSetString validator.precision stake with
    | none => simp [Call.abort, delegationUpdates]
    | some stakeFloat =>
      cases hv : utils.NewFloatSetString validator.precision currentCoin.Volume with
      | none => simp [Call.abort, delegationUpdates]
      | some volumeFloat =>
        simp only []
        by_cases hz : volumeFloat = 0
        · by_cases hz2 : stakeFloat = 0
          · simp [hz, hz2, Call.abort, delegationUpdates]
          · simp only [hz, hz2, if_true, if_false]
            cases w.UpdateCoinDelegation coinID (utils.Min (2 ^ 64 - 1) 100) <;>
              simp [Call.exec, delegationUpdates, hmin]
        · simp only [hz, if_false]
          cases w.UpdateCoinDelegation coinID (utils.Min (toUint64 (roundToPrec
            validator.precision (roundToPrec validator.precision (stakeFloat / volumeFloat)
              * float64 100))) 100) <;>
            simp [Call.exec, delegationUpdates, hmin]

theorem delegationLoop_spec (entries : List (Nat × String)) :
    ∀ coinsId, validator.delegationLoop entries coinsId
      = ⟨entries.map (fun e => Event.worker (.goCoinDelegation e.1 e.2)),
          .ok (coinsId ++ entries.map Prod.fst)⟩ := by
  induction entries with
  | nil => intro coinsId; simp [validator.delegationLoop, Call.ret]
  | cons e rest ih =>
    intro coinsId
    obtain ⟨k, v⟩ := e
    unfold validator.delegationLoop
    simp only [Call.bind_eq]
    rw [Call.andThen_ok _ (rfl : (Call.emit _).res = .ok ()), ih]
    simp [Call.emit]

theorem updateDelegations_run (w : Services) (m : List (Nat × String)) :
    validator.updateDelegations w m
      = ⟨(w.rangeStakes m).val.map (fun e => Event.worker (.goCoinDelegation e.1 e.2)) ++
          [.worker (.resetCoinDelegationNotInListIds ((w.rangeStakes m).val.map Prod.fst))],
        .ok ()⟩ := by
  unfold validator.updateDelegations
  simp only [Call.bind_eq, delegationLoop_spec, List.nil_append]
  rw [Call.andThen_ok (a := (w.rangeStakes m).val.map Prod.fst) _ rfl]
  cases hreset : w.ResetCoinDelegationNotInListIds ((w.rangeStakes m).val.map Prod.fst) <;>
    simp [Call.exec, Call.attempt, Call.andThen, Call.ret, hreset]

theorem delegationJobs_spawns (l : List (Nat × String)) :
    delegationJobs (l.map (fun e => Event.worker (.goCoinDelegation e.1 e.2))) = l := by
  induction l with
  | nil => rfl
  | cons e rest ih =>
    simp only [List.map_cons, delegationJobs, List.filterMap_cons] at ih ⊢
    rw [ih]

theorem delegationResets_spawns (l : List (Nat × String)) :
    delegationResets (l.map (fun e => Event.worker (.goCoinDelegation e.1 e.2))) = [] := by
  induction l with
  | nil => rfl
  | cons e rest ih =>
    simp only [List.map_cons, delegationResets, List.filterMap_cons] at ih ⊢
    exact ih

theorem updateDelegations_spec (w : Services) (m : List (Nat × String)) :
    (validator.updateDelegations w m).res = .ok () ∧
    delegationJobs (validator.updateDelegations w m).trace = (w.rangeStakes m).val ∧
    delegationResets (validator.updateDelegations w m).trace
      = [(w.rangeStakes m).val.map Prod.fst] := by
  rw [updateDelegations_run]
  refine ⟨rfl, ?_, ?_⟩
  · have : delegationJobs ((w.rangeStakes m).val.map
          (fun e => Event.worker (.goCoinDelegation e.1 e.2)) ++
        [.worker (.resetCoinDelegationNotInListIds ((w.rangeStakes m).val.map Prod.fst))])
        = delegationJobs ((w.rangeStakes m).val.map
          (fun e => Event.worker (.goCoinDelegation e.1 e.2))) ++ [] := by
      simp [delegationJobs, List.filterMap_append]
    rw [this, delegationJobs_spawns, List.append_nil]
  · have : delegationResets ((w.rangeStakes m).val.map
          (fun e => Event.worker (.goCoinDelegation e.1 e.2)) ++
        [.worker (.resetCoinDelegationNotInListIds ((w.rangeStakes m).val.map Prod.fst))])
        = delegationResets ((w.rangeStakes m).val.map
          (fun e => Event.worker (.goCoinDelegation e.1 e.2))) ++
          [(w.rangeStakes m).val.map Prod.fst] := by
      simp [delegationResets, List.filterMap_append]
    rw [this, delegationResets_spawns, List.nil_append]

theorem noDelegation_append {a b : List Event} (ha : NoDelegation a) (hb : NoDelegation b) :
    NoDelegation (a ++ b) := by
  obtain ⟨ha1, ha2⟩ := ha
  obtain ⟨hb1, hb2⟩ := hb
  constructor
  · unfold delegationJobs at ha1 hb1 ⊢
    rw [List.filterMap_append, ha1, hb1]
    rfl
  · unfold delegationResets at ha2 hb2 ⊢
    rw [List.filterMap_append, ha2, hb2]
    rfl

theorem noDelegation_nil : NoDelegation [] := ⟨rfl, rfl⟩

theorem noDelegation_andThen {α β : Type} {x : Call α} {f : α → Call β}
    (hx : NoDelegation x.trace) (hf : ∀ a, NoDelegation (f a).trace) :
    NoDelegation (Call.andThen x f).trace := by
  unfold Call.andThen
  cases x.res with
  | ok a => exact noDelegation_append hx (hf a)
  | err e => exact hx
  | panic => exact hx

theorem noDelegation_attempt {α : Type} {x : Call α} (hx : NoDelegation x.trace) :
    NoDelegation x.attempt.trace := by
  rw [attempt_trace]
  exact hx

theorem noDelegation_handleError {α : Type} {x : Call α} (hx : NoDelegation x.trace) :
    NoDelegation (HandleError x).trace := by
  unfold HandleError
  cases x.res <;> exact hx

theorem addStake_trace (m : List (Nat × String)) (coinID : Nat) (value : String) :
    (validator.addStake m coinID value).trace = [] := by
  unfold validator.addStake
  cases m.lookup coinID with
  | none => rfl
  | some v =>
    simp only []
    cases utils.ConvertStringToBigInt v <;> cases utils.ConvertStringToBigInt value <;> rfl

theorem stakeLoop_noDelegation (env : models.ExtenderEnvironment) (w : Services) (id : Nat)
    (stakes : List responses.Stake) :
    ∀ st, NoDelegation (validator.stakeLoop env w id stakes st).trace := by
  induction stakes with
  | nil => intro st; exact noDelegation_nil
  | cons stake rest ih =>
    intro st
    unfold validator.stakeLoop
    simp only [Call.bind_eq]
    refine noDelegation_andThen (noDelegation_attempt ?_) ?_
    · cases w.FindIdOrCreate (w.RemovePrefixFromAddress stake.Owner) <;> exact ⟨rfl, rfl⟩
    · intro owner
      cases owner with
      | none => exact ih st
      | some ownerAddressID =>
        refine noDelegation_andThen (noDelegation_attempt ?_) ?_
        · cases w.FindIdBySymbol stake.Coin <;> exact ⟨rfl, rfl⟩
        · intro found
          cases found with
          | none => exact ih st
          | some coinID =>
            simp only []
            split
            · exact ih _
            · refine noDelegation_andThen ?_ (fun m => ih _)
              rw [addStake_trace]
              exact noDelegation_nil

theorem candidatesLoop_noDelegation (env : models.ExtenderEnvironment) (w : Services)
    (candidates : List responses.Candidate) :
    ∀ ids st, NoDelegation (validator.candidatesLoop env w candidates ids st).trace := by
  induction candidates with
  | nil => intro ids st; exact noDelegation_nil
  | cons vlr rest ih =>
    intro ids st
    unfold validator.candidatesLoop
    simp only [Call.bind_eq]
    refine noDelegation_andThen (noDelegation_attempt ?_) ?_
    · cases w.FindIdByPkOrCreate (w.RemovePrefix vlr.PubKey) <;> exact ⟨rfl, rfl⟩
    · intro found
      cases found with
      | none => exact ih _ _
      | some id =>
        exact noDelegation_andThen (stakeLoop_noDelegation env w id vlr.Stakes st)
          (fun st1 => ih _ _)

theorem stakeChunkLoop_noDelegation (env : models.ExtenderEnvironment) (w : Services)
    (stakes : List models.Stake) (n : Nat) :
    ∀ i, NoDelegation (validator.stakeChunkLoop env w stakes n i).trace := by
  induction n with
  | zero => intro i; exact noDelegation_nil
  | succ n ih =>
    intro i
    unfold validator.stakeChunkLoop
    simp only [Call.bind_eq]
    refine noDelegation_andThen ?_ (fun chunk => noDelegation_andThen
      (noDelegation_handleError ?_) (fun _ => ih _))
    · rw [slice_trace]
      exact noDelegation_nil
    · cases w.SaveAllStakes chunk <;> exact ⟨rfl, rfl⟩

theorem countDelegatorsLoop_noDelegation (validatorIds : List Nat) :
    NoDelegation (validator.countDelegatorsLoop validatorIds).trace ∧
    (validator.countDelegatorsLoop validatorIds).res = .ok () := by
  induction validatorIds with
  | nil => exact ⟨noDelegation_nil, rfl⟩
  | cons id rest ih =>
    unfold validator.countDelegatorsLoop
    simp only [Call.bind_eq]
    rw [Call.andThen_ok _ (rfl : (Call.emit _).res = .ok ())]
    exact ⟨noDelegation_append ⟨rfl, rfl⟩ ih.1, ih.2⟩

theorem delegation_andThen {α β : Type} {x : Call α} {f : α → Call β} {a : α}
    {r : Outcome β} {J : List (Nat × String)} {R : List (List Nat)}
    (hx : x.res = .ok a) (hq : NoDelegation x.trace)
    (h : (f a).res = r ∧ delegationJobs (f a).trace = J ∧ delegationResets (f a).trace = R) :
    (Call.andThen x f).res = r ∧ delegationJobs (Call.andThen x f).trace = J ∧
      delegationResets (Call.andThen x f).trace = R := by
  obtain ⟨h1, h2, h3⟩ := h
  obtain ⟨q1, q2⟩ := hq
  rw [Call.andThen_ok f hx]
  refine ⟨h1, ?_, ?_⟩
  · unfold delegationJobs at q1 h2 ⊢
    simp only [List.filterMap_append, q1, h2, List.nil_append]
  · unfold delegationResets at q2 h3 ⊢
    simp only [List.filterMap_append, q2, h3, List.nil_append]

theorem attempt_exec_res (e : Event) (answer : Option String) :
    ∃ a, (Call.exec e answer).attempt.res = .ok a := by
  cases answer with
  | none => exact ⟨some (), rfl⟩
  | some m => exact ⟨none, rfl⟩

theorem exec_trace (e : Event) (answer : Option String) : (Call.exec e answer).trace = [e] := by
  cases answer <;> rfl

/-- A pass of the worker that gets beyond the saving of the stakes: its delegation calls are
    those of `updateDelegations` on the map that the stake loop built. -/
theorem UpdateStakesWorker_run (env : models.ExtenderEnvironment) (w : Services) (height : Nat)
    (resp : responses.CandidatesResponse) (ids : List Nat) (st : validator.StakeState)
    (hget : w.GetCandidates height true = .ok resp) (herr : resp.Error = none)
    (hloop : (validator.candidatesLoop env w resp.Result []
      { stakes := [], stakesInCoin := [] }).res = .ok (ids, st))
    (hsave : (validator.stakeChunkLoop env w st.stakes
      (core.chunksCount st.stakes.length env.StakeChunkSize) 0).res = .ok ()) :
    (validator.UpdateStakesWorker env w height).res = .ok () ∧
    delegationJobs (validator.UpdateStakesWorker env w height).trace
      = (w.rangeStakes st.stakesInCoin).val ∧
    delegationResets (validator.UpdateStakesWorker env w height).trace
      = [(w.rangeStakes st.stakesInCoin).val.map Prod.fst] := by
  unfold validator.UpdateStakesWorker
  simp only [Call.bind_eq]
  refine delegation_andThen (a := resp) (by rw [hget]; rfl) (by rw [hget]; exact ⟨rfl, rfl⟩) ?_
  simp only [herr]
  obtain ⟨a1, h1⟩ := attempt_exec_res
    (.saveValidators (resp.Result.map
      (fun vlr => ({ PublicKey := w.RemovePrefix vlr.PubKey } : models.Validator))))
    (w.SaveValidators (resp.Result.map
      (fun vlr => ({ PublicKey := w.RemovePrefix vlr.PubKey } : models.Validator))))
  refine delegation_andThen h1 (by rw [attempt_trace, exec_trace]; exact ⟨rfl, rfl⟩) ?_
  obtain ⟨a2, h2⟩ := attempt_exec_res
    (.worker (.saveAddresses (validator.collectAddresses w resp.Result [])))
    (w.SaveFromMapIfNotExists (validator.collectAddresses w resp.Result []))
  refine delegation_andThen h2 (by rw [attempt_trace, exec_trace]; exact ⟨rfl, rfl⟩) ?_
  refine delegation_andThen hloop (candidatesLoop_noDelegation env w _ _ _) ?_
  simp only []
  refine delegation_andThen hsave (stakeChunkLoop_noDelegation env w _ _ _) ?_
  obtain ⟨a3, h3⟩ := attempt_exec_res
    (.worker (.deleteStakesNotInListIds (st.stakes.map w.StakeId)))
    (w.DeleteStakesNotInListIds (st.stakes.map w.StakeId))
  refine delegation_andThen h3 (by rw [attempt_trace, exec_trace]; exact ⟨rfl, rfl⟩) ?_
  obtain ⟨u1, u2, u3⟩ := updateDelegations_spec w st.stakesInCoin
  rw [Call.andThen_ok _ u1]
  have htail : NoDelegation (if height % validator.calcUptimeValidatorBlocks = 0 then
      validator.countDelegatorsLoop ids else (pure () : Call Unit)).trace ∧
      (if height % validator.calcUptimeValidatorBlocks = 0 then
      validator.countDelegatorsLoop ids else (pure () : Call Unit)).res = .ok () := by
    split
    · exact countDelegatorsLoop_noDelegation ids
    · exact ⟨noDelegation_nil, rfl⟩
  obtain ⟨⟨t1, t2⟩, t3⟩ := htail
  refine ⟨t3, ?_, ?_⟩
  · unfold delegationJobs at t1 u2 ⊢
    simp only [List.filterMap_append, t1, u2, List.append_nil]
  · unfold delegationResets at t2 u3 ⊢
    simp only [List.filterMap_append, t2, u3, List.append_nil]

/-- C11, the claimed percent fails: when the exact percentage is 61 (a stake sum of `61 * k`
    in a coin of volume `100 * k`, both below `2^100`), the goroutine of `UpdateStakesWorker`
    passes 60 to `UpdateCoinDelegation`: the quotient 61/100 is rounded down at precision 100,
    the product with 100 stays below 61, and `Uint64` truncates it. -/
theorem coinDelegation_rounds_down (w : Services) (coinID : Nat) (currentCoin : models.Coin)
    (k : Nat) (hfind : w.FindCoinByID coinID = .ok currentCoin)
    (hvol : currentCoin.Volume = toString (100 * k)) (hk : 0 < k) (hk2 : 100 * k < 2 ^ 100) :
    delegationUpdates (validator.coinDelegation w coinID (toString (61 * k))).trace
      = [(coinID, 60)] := by
  rw [coinDelegation_trace w coinID currentCoin (61 * k) (100 * k) hfind hvol (by omega) hk2
    (by omega)]
  have hkq : (k : ℚ) ≠ 0 := by
    have : (0 : ℚ) < k := by exact_mod_cast hk
    exact this.ne'
  have hquo : (((61 * k : ℕ) : ℚ)) / ((100 * k : ℕ) : ℚ) = 61 / 100 := by
    push_cast
    field_simp
    ring
  rw [hquo, delegated_sixty_one]
  rfl

theorem coinDelegation_rounds_down_witness :
    delegationUpdates (validator.coinDelegation sampleServices 3 "61").trace = [(3, 60)] :=
  coinDelegation_rounds_down sampleServices 3 _ 1 rfl rfl (by decide) (by norm_num)

/-- The figures of the specification: a stake sum of 500 in a coin of volume 1000 gives 50. -/
theorem coinDelegation_half :
    delegationUpdates (validator.coinDelegation sampleServices 2 "500").trace = [(2, 50)] := by
  have h := coinDelegation_trace sampleServices 2 _ 500 1000 rfl rfl (by norm_num)
    (by norm_num) (by norm_num)
  have hs : toString (500 : Nat) = "500" := rfl
  rw [hs] at h
  rw [h]
  have hquo : (((500 : ℕ) : ℚ)) / ((1000 : ℕ) : ℚ) = 500 / 1000 := by norm_num
  rw [hquo, delegated_half]
  rfl

theorem coinDelegation_zero (w : Services) (coinID : Nat) (currentCoin : models.Coin)
    (S V : Nat) (hfind : w.FindCoinByID coinID = .ok currentCoin)
    (hvol : currentCoin.Volume = toString V) (hS : S < 2 ^ 100) (hV : V < 2 ^ 100)
    (hV0 : 0 < V) (h : 128 * S ≤ V) :
    delegationUpdates (validator.coinDelegation w coinID (toString S)).trace
      = [(coinID, 0)] := by
  rw [coinDelegation_trace w coinID currentCoin S V hfind hvol hS hV hV0,
    delegated_zero S V hV0 h]
  rfl

/-- C12, the claimed positivity fails: a refresh whose response holds one stake of one unit in
    ACME, a coin of volume 1000. The coin is in the refresh (a goroutine is started for it and its id is in
    the list excluded from the reset), and the percent it receives is 0. -/
theorem UpdateStakesWorker_present_coin_zero :
    delegationJobs (validator.UpdateStakesWorker sampleEnv sampleTinyServices 1).trace
      = [(2, "1")] ∧
    delegationResets (validator.UpdateStakesWorker sampleEnv sampleTinyServices 1).trace
      = [[2]] ∧
    delegationUpdates (validator.coinDelegation sampleTinyServices 2 "1").trace = [(2, 0)] := by
  refine ⟨by decide, by decide, ?_⟩
  exact coinDelegation_zero sampleTinyServices 2 _ 1 1000 rfl rfl (by norm_num) (by norm_num)
    (by norm_num) (by norm_num)

/-- Rounding does not go below a number of the format when the argument is above the middle
    between that number and the multiple of its unit before it. -/
theorem roundPos_ge_float_half (p : Nat) (hp : 1 ≤ p) (M E : ℤ)
    (hM1 : (2 : ℤ) ^ (p - 1) < M) (hM2 : M < (2 : ℤ) ^ p) (x : ℚ)
    (hx : ((M : ℚ) - 1 / 2) * (2 : ℚ) ^ E < x) :
    (M : ℚ) * (2 : ℚ) ^ E ≤ roundPos p x := by
  have hE := two_zpow_pos E
  have hMq : (2 : ℚ) ^ ((p : ℤ) - 1) + 1 ≤ (M : ℚ) := by
    rw [← two_pow_cast p hp]
    have : (2 : ℤ) ^ (p - 1) + 1 ≤ M := hM1
    exact_mod_cast this
  have hpos : (0 : ℚ) < (2 : ℚ) ^ ((p : ℤ) - 1) := two_zpow_pos _
  have hlow : (2 : ℚ) ^ (E + ((p : ℤ) - 1)) ≤ x := by
    rw [zpow_add₀ (by norm_num), mul_comm]
    refine le_trans (mul_le_mul_of_nonneg_right ?_ hE.le) hx.le
    linarith
  have hxpos : 0 < x := lt_of_lt_of_le (two_zpow_pos _) hlow
  obtain ⟨h1, h2⟩ := log_two_spec x hxpos
  have hk : E + ((p : ℤ) - 1) ≤ Int.log 2 x := by
    rw [← Int.zpow_le_iff_le_log (by norm_num) hxpos]
    exact_mod_cast hlow
  rcases eq_or_lt_of_le hk with heq | hlt
  · rw [roundPos_of_log p x _ h1 h2]
    have he : Int.log 2 x - ((p : ℤ) - 1) = E := by omega
    rw [he]
    have hge : M ≤ roundHalfEven (x / (2 : ℚ) ^ E) :=
      roundHalfEven_ge_of_gt_half _ _ (by rw [lt_div_iff₀ hE]; exact hx)
    exact mul_le_mul_of_nonneg_right (by exact_mod_cast hge) hE.le
  · obtain ⟨hb, -⟩ := roundPos_binade p hp x _ h1 h2
    refine le_trans ?_ hb
    have hMq2 : (M : ℚ) ≤ (2 : ℚ) ^ (p : ℤ) := by
      rw [← two_pow_cast_full p]
      exact_mod_cast hM2.le
    have hexp : (p : ℤ) + E ≤ Int.log 2 x := by omega
    calc (M : ℚ) * (2 : ℚ) ^ E ≤ (2 : ℚ) ^ (p : ℤ) * (2 : ℚ) ^ E :=
          mul_le_mul_of_nonneg_right hMq2 hE.le
      _ = (2 : ℚ) ^ ((p : ℤ) + E) := by rw [zpow_add₀ (by norm_num)]
      _ ≤ (2 : ℚ) ^ (Int.log 2 x) := zpow_le_zpow_right₀ (by norm_num) hexp

theorem toUint64_pos (x : ℚ) (hx : 1 ≤ x) : 1 ≤ toUint64 x := by
  unfold toUint64
  rw [if_neg (by linarith)]
  split
  · norm_num
  · have : (1 : ℤ) ≤ ⌊x⌋ := by
      rw [Int.le_floor]
      exact_mod_cast hx
    omega

/-- A stake sum of at least one hundredth of the volume: the rounded quotient is at least the
    number of the format next above 1/100, the product is at least 1, and so is the percent. -/
theorem delegated_pos (S V : Nat) (hV0 : 0 < V) (h : V ≤ 100 * S) :
    1 ≤ toUint64 (roundToPrec 100 (roundToPrec 100 ((S : ℚ) / V) * 100)) := by
  have hVq : (0 : ℚ) < V := by exact_mod_cast hV0
  have hx : (1 : ℚ) / 100 ≤ (S : ℚ) / V := by
    rw [le_div_iff₀ hVq]
    have : (V : ℚ) ≤ 100 * S := by exact_mod_cast h
    linarith
  have hxpos : (0 : ℚ) < (S : ℚ) / V := by linarith
  have hq : (1 : ℚ) / 100 ≤ roundToPrec 100 ((S : ℚ) / V) := by
    rw [roundToPrec_of_pos 100 _ hxpos]
    have := roundPos_ge_float_half 100 (by norm_num) 811296384146066816957890051441 (-106)
      (by norm_num) (by norm_num) ((S : ℚ) / V) (by norm_num; linarith)
    norm_num at this ⊢
    linarith
  have hy : (1 : ℚ) ≤ roundToPrec 100 ((S : ℚ) / V) * 100 := by linarith
  have hm : (1 : ℚ) ≤ roundToPrec 100 (roundToPrec 100 ((S : ℚ) / V) * 100) := by
    rw [roundToPrec_of_pos 100 _ (by linarith)]
    have := roundPos_ge_float 100 (by norm_num) (2 ^ 99) (-99) (by norm_num) (by norm_num)
      (roundToPrec 100 ((S : ℚ) / V) * 100) (by norm_num; exact hy)
    norm_num at this ⊢
    exact this
  exact toUint64_pos _ hm

/-- A stake sum under one hundredth of a volume of at most `2^98`: the two rounding errors
    cannot lift the product to 1, and the percent is truncated to 0. -/
theorem delegated_zero_of_lt (S V : Nat) (hV0 : 0 < V) (h : 100 * S < V) (hV : V ≤ 2 ^ 98) :
    toUint64 (roundToPrec 100 (roundToPrec 100 ((S : ℚ) / V) * 100)) = 0 := by
  have hVq : (0 : ℚ) < V := by exact_mod_cast hV0
  have hx0 : (0 : ℚ) ≤ (S : ℚ) / V := div_nonneg (Nat.cast_nonneg S) hVq.le
  have hu : (2 : ℚ) ^ (-((100 : ℕ) : ℤ)) = 1 / 2 ^ 100 := by norm_num
  have ht : (4 : ℚ) / 2 ^ 100 ≤ 1 / V := by
    rw [le_div_iff₀ hVq]
    have h98 : (V : ℚ) ≤ 2 ^ 98 := by exact_mod_cast hV
    have h100 : (4 : ℚ) / 2 ^ 100 * 2 ^ 98 = 1 := by norm_num
    calc (4 : ℚ) / 2 ^ 100 * V ≤ 4 / 2 ^ 100 * 2 ^ 98 :=
          mul_le_mul_of_nonneg_left h98 (by norm_num)
      _ = 1 := h100
  have hx : 100 * ((S : ℚ) / V) ≤ 1 - 1 / V := by
    have h1 : (100 : ℚ) * S + 1 ≤ V := by exact_mod_cast h
    have h2 : 100 * ((S : ℚ) / V) = (100 * S) / V := by ring
    rw [h2, div_le_iff₀ hVq]
    have h3 : (1 - 1 / (V : ℚ)) * V = V - 1 := by field_simp
    rw [h3]
    linarith
  have e1 := roundToPrec_err 100 ((S : ℚ) / V) hx0
  have hq0 : 0 ≤ roundToPrec 100 ((S : ℚ) / V) := roundToPrec_nonneg 100 (by norm_num) _ hx0
  have e2 := roundToPrec_err 100 (roundToPrec 100 ((S : ℚ) / V) * 100) (by positivity)
  rw [hu] at e1 e2
  rw [abs_le] at e1 e2
  obtain ⟨-, e1b⟩ := e1
  obtain ⟨-, e2b⟩ := e2
  have hm0 : 0 ≤ roundToPrec 100 (roundToPrec 100 ((S : ℚ) / V) * 100) :=
    roundToPrec_nonneg 100 (by norm_num) _ (by positivity)
  have hq : roundToPrec 100 ((S : ℚ) / V) * 100 ≤ (1 - 4 / 2 ^ 100) * (1 + 1 / 2 ^ 100) := by
    have h1 : roundToPrec 100 ((S : ℚ) / V) ≤ (S : ℚ) / V * (1 + 1 / 2 ^ 100) := by linarith
    have h2 : 100 * ((S : ℚ) / V) ≤ 1 - 4 / 2 ^ 100 := by linarith
    calc roundToPrec 100 ((S : ℚ) / V) * 100
        ≤ (S : ℚ) / V * (1 + 1 / 2 ^ 100) * 100 := by linarith
      _ = 100 * ((S : ℚ) / V) * (1 + 1 / 2 ^ 100) := by ring
      _ ≤ (1 - 4 / 2 ^ 100) * (1 + 1 / 2 ^ 100) :=
          mul_le_mul_of_nonneg_right h2 (by norm_num)
  have hm : roundToPrec 100 (roundToPrec 100 ((S : ℚ) / V) * 100) < 1 := by
    have h1 : roundToPrec 100 (roundToPrec 100 ((S : ℚ) / V) * 100)
        ≤ roundToPrec 100 ((S : ℚ) / V) * 100 * (1 + 1 / 2 ^ 100) := by linarith
    have h2 : roundToPrec 100 ((S : ℚ) / V) * 100 * (1 + 1 / 2 ^ 100)
        ≤ (1 - 4 / 2 ^ 100) * (1 + 1 / 2 ^ 100) * (1 + 1 / 2 ^ 100) :=
      mul_le_mul_of_nonneg_right hq (by norm_num)
    have h3 : (1 - 4 / 2 ^ 100 : ℚ) * (1 + 1 / 2 ^ 100) * (1 + 1 / 2 ^ 100) < 1 := by norm_num
    linarith
  exact toUint64_of_floor _ 0 (by simpa using hm0) (by norm_num; exact hm) (by norm_num)

theorem stakeChunkLoop_ok (env : models.ExtenderEnvironment) (w : Services)
    (stakes : List models.Stake) (hsave : ∀ chunk, w.SaveAllStakes chunk = none) :
    ∀ k i, (k = 0 ∨ env.StakeChunkSize * (i + k - 1) < stakes.length) →
      (validator.stakeChunkLoop env w stakes k i).res = .ok () := by
  intro k
  induction k with
  | zero => intro i _; rfl
  | succ k ih =>
    intro i hk
    have hlt : env.StakeChunkSize * (i + k) < stakes.length := by
      rcases hk with hk | hk
      · omega
      · simpa using hk
    have hi : env.StakeChunkSize * i < stakes.length :=
      lt_of_le_of_lt (Nat.mul_le_mul_left _ (Nat.le_add_right i k)) hlt
    have hnext : k = 0 ∨ env.StakeChunkSize * (i + 1 + k - 1) < stakes.length := by
      right
      have : i + 1 + k - 1 = i + k := by omega
      rw [this]
      exact hlt
    unfold validator.stakeChunkLoop
    simp only [Call.bind_eq]
    rw [slice_chunk stakes _ i hi, Call.ret_andThen]
    have hs : (HandleError (Call.exec
        (.worker (.saveAllStakes ((stakes.drop (env.StakeChunkSize * i)).take
          env.StakeChunkSize)))
        (w.SaveAllStakes ((stakes.drop (env.StakeChunkSize * i)).take
          env.StakeChunkSize)))).res = .ok () := by
      rw [hsave]
      rfl
    rw [Call.andThen_res _ hs]
    exact ih (i + 1) hnext

theorem stakeChunkLoop_returns (env : models.ExtenderEnvironment) (w : Services)
    (stakes : List models.Stake) (hsave : ∀ chunk, w.SaveAllStakes chunk = none) :
    (validator.stakeChunkLoop env w stakes
      (core.chunksCount stakes.length env.StakeChunkSize) 0).res = .ok () := by
  apply stakeChunkLoop_ok env w stakes hsave
  rcases Nat.eq_zero_or_pos (core.chunksCount stakes.length env.StakeChunkSize) with h0 | hpos
  · exact Or.inl h0
  · right
    rcases Nat.eq_zero_or_pos env.StakeChunkSize with hc | hc
    · rw [hc] at hpos
      simp [core.chunksCount] at hpos
    · have := chunksCount_last stakes.length env.StakeChunkSize hc hpos
      simpa using this

/-- The percent that the goroutine passes for a stake sum `S` in a coin of volume `V`: at most
    100, positive from one hundredth of the volume on, and 0 below it. -/
theorem coinDelegation_percent (w : Services) (coinID : Nat) (currentCoin : models.Coin)
    (S V : Nat) (hfind : w.FindCoinByID coinID = .ok currentCoin)
    (hvol : currentCoin.Volume = toString V) (hS : S < 2 ^ 100) (hV : V < 2 ^ 100)
    (hV0 : 0 < V) :
    ∃ p, delegationUpdates (validator.coinDelegation w coinID (toString S)).trace
        = [(coinID, p)] ∧
      p ≤ 100 ∧ (V ≤ 100 * S → 0 < p) ∧ (100 * S < V → V ≤ 2 ^ 98 → p = 0) := by
  refine ⟨utils.Min (toUint64 (roundToPrec 100 (roundToPrec 100 ((S : ℚ) / V) * 100))) 100,
    ?_, ?_, ?_, ?_⟩
  · rw [coinDelegation_trace w coinID currentCoin S V hfind hvol hS hV hV0]
    rfl
  · unfold utils.Min
    split <;> omega
  · intro h
    have := delegated_pos S V hV0 h
    unfold utils.Min
    split <;> omega
  · intro h h98
    rw [delegated_zero_of_lt S V hV0 h h98]
    rfl

theorem sampleCandidates_lookups :
    (∀ vlr ∈ sampleCandidates,
      ∃ id, sampleStakeServices.FindIdByPkOrCreate
        (sampleStakeServices.RemovePrefix vlr.PubKey) = .ok id) ∧
    (∀ vlr ∈ sampleCandidates, ∀ stake ∈ vlr.Stakes,
      ∃ a, sampleStakeServices.FindIdOrCreate
        (sampleStakeServices.RemovePrefixFromAddress stake.Owner) = .ok a) ∧
    (∀ vlr ∈ sampleCandidates, ∀ stake ∈ vlr.Stakes,
      ∃ c, sampleStakeServices.FindIdBySymbol stake.Coin = .ok c) ∧
    (∀ vlr ∈ sampleCandidates, ∀ stake ∈ vlr.Stakes, ∃ n : Nat, stake.Value = toString n) := by
  refine ⟨?_, ?_, ?_, ?_⟩
  · intro vlr hv
    simp only [sampleCandidates, List.mem_cons, List.mem_singleton, List.not_mem_nil,
      or_false] at hv
    rcases hv with rfl | rfl
    · exact ⟨1, rfl⟩
    · exact ⟨2, rfl⟩
  · intro vlr hv stake hs
    simp only [sampleCandidates, List.mem_cons, List.mem_singleton, List.not_mem_nil,
      or_false] at hv
    rcases hv with rfl | rfl <;>
      simp only [List.mem_cons, List.mem_singleton, List.not_mem_nil, or_false] at hs
    · rcases hs with rfl | rfl | rfl
      · exact ⟨1, rfl⟩
      · exact ⟨2, rfl⟩
      · exact ⟨1, rfl⟩
    · subst hs
      exact ⟨2, rfl⟩
  · intro vlr hv stake hs
    simp only [sampleCandidates, List.mem_cons, List.mem_singleton, List.not_mem_nil,
      or_false] at hv
    rcases hv with rfl | rfl <;>
      simp only [List.mem_cons, List.mem_singleton, List.not_mem_nil, or_false] at hs
    · rcases hs with rfl | rfl | rfl
      · exact ⟨1, rfl⟩
      · exact ⟨2, rfl⟩
      · exact ⟨3, rfl⟩
    · subst hs
      exact ⟨2, rfl⟩
  · intro vlr hv stake hs
    simp only [sampleCandidates, List.mem_cons, List.mem_singleton, List.not_mem_nil,
      or_false] at hv
    rcases hv with rfl | rfl <;>
      simp only [List.mem_cons, List.mem_singleton, List.not_mem_nil, or_false] at hs
    · rcases hs with rfl | rfl | rfl
      · exact ⟨900, rfl⟩
      · exact ⟨300, rfl⟩
      · exact ⟨61, rfl⟩
    · subst hs
      exact ⟨200, rfl⟩

/-- C12, as the code has it: in a stake refresh whose candidates response is obtained, whose
    id lookups all succeed, whose stake values are decimal strings and whose stakes are saved,
    `UpdateStakesWorker` returns and calls `ResetCoinDelegationNotInListIds` once, with each
    coin id that has at least one stake outside the base coin in the response, once and with
    no other id: exactly the coins absent from the refresh are reset to 0. For each of the
    listed coins, in the same order, one goroutine is started with the decimal string of the
    exact sum `S` of its stakes. When that coin is found with a volume `V > 0` (`S` and `V`
    below `2^100`), the percent the goroutine passes to `UpdateCoinDelegation` is at most 100,
    is strictly greater than 0 if `100 * S ≥ V`, and is 0 if `100 * S < V` (for `V ≤ 2^98`). -/
theorem UpdateStakesWorker_delegations (env : models.ExtenderEnvironment) (w : Services)
    (height : Nat) (resp : responses.CandidatesResponse)
    (hget : w.GetCandidates height true = .ok resp) (herr : resp.Error = none)
    (hpk : ∀ vlr ∈ resp.Result,
      ∃ id, w.FindIdByPkOrCreate (w.RemovePrefix vlr.PubKey) = .ok id)
    (hown : ∀ vlr ∈ resp.Result, ∀ stake ∈ vlr.Stakes,
      ∃ a, w.FindIdOrCreate (w.RemovePrefixFromAddress stake.Owner) = .ok a)
    (hcoin : ∀ vlr ∈ resp.Result, ∀ stake ∈ vlr.Stakes,
      ∃ c, w.FindIdBySymbol stake.Coin = .ok c)
    (hval : ∀ vlr ∈ resp.Result, ∀ stake ∈ vlr.Stakes, ∃ n : Nat, stake.Value = toString n)
    (hsave : ∀ chunk, w.SaveAllStakes chunk = none) :
    (validator.UpdateStakesWorker env w height).res = .ok () ∧
    ∃ coinsId,
      delegationResets (validator.UpdateStakesWorker env w height).trace = [coinsId] ∧
      coinsId.Nodup ∧
      (∀ k, k ∈ coinsId ↔
        ∃ stake ∈ nonBaseStakes env resp.Result, w.FindIdBySymbol stake.Coin = .ok k) ∧
      delegationJobs (validator.UpdateStakesWorker env w height).trace
        = coinsId.map (fun k => (k, toString (stakeSum w (nonBaseStakes env resp.Result) k))) ∧
      ∀ k ∈ coinsId, ∀ currentCoin V, w.FindCoinByID k = .ok currentCoin →
        currentCoin.Volume = toString V → 0 < V → V < 2 ^ 100 →
        stakeSum w (nonBaseStakes env resp.Result) k < 2 ^ 100 →
        ∃ p, delegationUpdates (validator.coinDelegation w k
              (toString (stakeSum w (nonBaseStakes env resp.Result) k))).trace = [(k, p)] ∧
          p ≤ 100 ∧
          (V ≤ 100 * stakeSum w (nonBaseStakes env resp.Result) k → 0 < p) ∧
          (100 * stakeSum w (nonBaseStakes env resp.Result) k < V → V ≤ 2 ^ 98 → p = 0) := by
  obtain ⟨ids, st, hloop, hnd, hkeys, hvals⟩ :=
    candidatesLoop_spec env w resp.Result [] { stakes := [], stakesInCoin := [] } []
      ⟨List.nodup_nil, by simp, by simp⟩ hpk hown hcoin hval
  simp only [List.nil_append] at hkeys hvals
  obtain ⟨h1, h2, h3⟩ := UpdateStakesWorker_run env w height resp ids st hget herr hloop
    (stakeChunkLoop_returns env w st.stakes hsave)
  have hperm := (w.rangeStakes st.stakesInCoin).property
  refine ⟨h1, (w.rangeStakes st.stakesInCoin).val.map Prod.fst, h3, ?_, ?_, ?_, ?_⟩
  · exact (hperm.map Prod.fst).nodup_iff.mpr hnd
  · intro k
    rw [(hperm.map Prod.fst).mem_iff, hkeys k]
    constructor
    · rintro ⟨stake, hs, hin⟩
      refine ⟨stake, hs, ?_⟩
      unfold inCoin at hin
      cases hc : w.FindIdBySymbol stake.Coin with
      | error e => simp [hc] at hin
      | ok c =>
        simp only [hc, decide_eq_true_eq] at hin
        rw [hin]
    · rintro ⟨stake, hs, hc⟩
      exact ⟨stake, hs, by simp [inCoin, hc]⟩
  · rw [h2, List.map_map]
    have hid : ∀ e ∈ (w.rangeStakes st.stakesInCoin).val,
        e = ((fun k => (k, toString (stakeSum w (nonBaseStakes env resp.Result) k)))
          ∘ Prod.fst) e := by
      intro e he
      have := hvals e (hperm.subset he)
      simp only [Function.comp]
      rw [← this]
    calc (w.rangeStakes st.stakesInCoin).val
        = (w.rangeStakes st.stakesInCoin).val.map id := (List.map_id _).symm
      _ = _ := List.map_congr_left hid
  · intro k _ currentCoin V hfind hvol hV0 hV hS
    exact coinDelegation_percent w k currentCoin _ V hfind hvol hS hV hV0

theorem UpdateStakesWorker_delegations_witness :
    (validator.UpdateStakesWorker sampleEnv sampleStakeServices 12).res = .ok () ∧
    ∃ coinsId,
      delegationResets (validator.UpdateStakesWorker sampleEnv sampleStakeServices 12).trace
        = [coinsId] ∧
      coinsId.Nodup ∧
      (∀ k, k ∈ coinsId ↔ ∃ stake ∈ nonBaseStakes sampleEnv sampleCandidates,
        sampleStakeServices.FindIdBySymbol stake.Coin = .ok k) ∧
      delegationJobs (validator.UpdateStakesWorker sampleEnv sampleStakeServices 12).trace
        = coinsId.map (fun k =>
            (k, toString (stakeSum sampleStakeServices
              (nonBaseStakes sampleEnv sampleCandidates) k))) ∧
      ∀ k ∈ coinsId, ∀ currentCoin V, sampleStakeServices.FindCoinByID k = .ok currentCoin →
        currentCoin.Volume = toString V → 0 < V → V < 2 ^ 100 →
        stakeSum sampleStakeServices (nonBaseStakes sampleEnv sampleCandidates) k < 2 ^ 100 →
        ∃ p, delegationUpdates (validator.coinDelegation sampleStakeServices k
              (toString (stakeSum sampleStakeServices
                (nonBaseStakes sampleEnv sampleCandidates) k))).trace = [(k, p)] ∧
          p ≤ 100 ∧
          (V ≤ 100 * stakeSum sampleStakeServices (nonBaseStakes sampleEnv sampleCandidates) k →
            0 < p) ∧
          (100 * stakeSum sampleStakeServices (nonBaseStakes sampleEnv sampleCandidates) k < V →
            V ≤ 2 ^ 98 → p = 0) :=
  UpdateStakesWorker_delegations sampleEnv sampleStakeServices 12 ⟨none, sampleCandidates⟩
    rfl rfl sampleCandidates_lookups.1 sampleCandidates_lookups.2.1
    sampleCandidates_lookups.2.2.1 sampleCandidates_lookups.2.2.2 (fun _ => rfl)

/-- The stake refresh on the sample response: the reset spares BETA and ACME, and the two
    goroutines carry the sums 61 and 500. -/
theorem UpdateStakesWorker_sample :
    delegationResets (validator.UpdateStakesWorker sampleEnv sampleStakeServices 12).trace
      = [[3, 2]] ∧
    delegationJobs (validator.UpdateStakesWorker sampleEnv sampleStakeServices 12).trace
      = [(3, "61"), (2, "500")] := by
  constructor <;> decide
